import Mathlib

/-!
# CocaProject: path-existence formulas (Solving.c, main.c)

A shallow embedding of the solving module of the repository: the reachability
pruner, the three sub-formula builders, the fixed-length and full formulas,
the two decoders and the default-mode report of `main`.

Conventions of the embedding.
* A C array is the list of the entries written into it, in index order. A read
  of an entry that was never written, or past the end of a row of the
  candidate table, is the fault `Fault.outOfBounds`.
* `exit(EXIT_FAILURE)` is the fault `Fault.exitFailure`.
* The `while` loop of the pruner has no syntactic bound; it is run with a fuel
  argument and `Fault.outOfFuel` is shown never to occur from the fuel handed
  over by `prunedTable` (theorems `prunedTable_spec` and `prunedTable_ok`).
* Buffers are not bounded by their declared sizes: `sprintfVarName` is the text
  that `sprintf` formats and a clause is the list of its disjuncts, whatever the
  declared length of `varName` or `tabOr`.
* The solver context `ctx` is not represented: a boolean variable is its name.
-/

namespace Coca

/-! ## Constants of Solving.c -/

/-- The maximum number of nodes of a graph (Solving.c line 17). -/
def MAX_ORDER_G : Nat := 100

/-- The compile-time switch of the pruner (Solving.c line 18). -/
def OPTIMIZE : Bool := true

/-- The capacity of the work queue (Solving.c line 19). -/
def FILE_SIZE : Nat := 1000

/-- The size of the buffer a variable name is formatted into (Solving.c line 20). -/
def NODE_VARIABLE_SIZE : Nat := 10

/-- The ways a run of the embedded code can fail to produce its value. -/
inductive Fault where
  | exitFailure
  | outOfBounds
  | outOfFuel
  deriving DecidableEq, Repr

/-! ## The Graph collaborator -/

/-- Modelled from the spec: the Graph collaborator (Graph.h and Graph.c are not
among the sources). Section 6 of the spec lists its interface: a node count, a
directed adjacency relation and a source and a target flag per node. -/
structure Graph where
  order : Nat
  edge : Nat → Nat → Bool
  source : Nat → Bool
  target : Nat → Bool

/-- Modelled from the spec: `orderG(graph)`, the node count. -/
def orderG (graph : Graph) : Nat := graph.order

/-- Modelled from the spec: `isEdge(graph, u, v)`. -/
def isEdge (graph : Graph) (u v : Nat) : Bool := graph.edge u v

/-- Modelled from the spec: `isSource(graph, node)`. -/
def isSource (graph : Graph) (node : Nat) : Bool := graph.source node

/-- Modelled from the spec: `isTarget(graph, node)`. -/
def isTarget (graph : Graph) (node : Nat) : Bool := graph.target node

/-- The loop `for(node=0; node<orderG(graphe) && !flag(graphe,node); node++);`
shared by `getSouceNode` and `getTargetNode`: `remaining` is
`orderG(graphe) - node`. -/
def firstFlagged (flag : Nat → Bool) : Nat → Nat → Nat
  | 0, node => node
  | remaining + 1, node =>
    if flag node then node else firstFlagged flag remaining (node + 1)

/-- Solving.c lines 638-644. Returns `orderG graphe` when no node is flagged. -/
def getSouceNode (graphe : Graph) : Nat :=
  firstFlagged (isSource graphe) (orderG graphe) 0

/-- Solving.c lines 646-651. Returns `orderG graphe` when no node is flagged. -/
def getTargetNode (graphe : Graph) : Nat :=
  firstFlagged (isTarget graphe) (orderG graphe) 0

/-! ## The solver collaborator -/

/-- Modelled from the spec: the solver-native Boolean expression, composed from
named variables by NOT and n-ary AND / OR (Z3Tools.h is not among the sources). -/
inductive Z3_ast where
  | var (name : String)
  | not (a : Z3_ast)
  | and (args : List Z3_ast)
  | or (args : List Z3_ast)

/-- Modelled from the spec: a Model is a total assignment of truth values to
variables; the solver interns variables by name. -/
abbrev Z3_model := String → Bool

mutual
/-- Modelled from the spec: the truth value of a formula under a total assignment.
The empty AND is true (the adjacency part at length 0) and the empty OR is false
(a position without candidate makes the formula unsatisfiable). -/
def Z3_ast.eval (v : Z3_model) : Z3_ast → Bool
  | .var name => v name
  | .not a => !(Z3_ast.eval v a)
  | .and args => Z3_ast.evalAll v args
  | .or args => Z3_ast.evalAny v args
/-- Every formula of the list is true. -/
def Z3_ast.evalAll (v : Z3_model) : List Z3_ast → Bool
  | [] => true
  | a :: rest => Z3_ast.eval v a && Z3_ast.evalAll v rest
/-- Some formula of the list is true. -/
def Z3_ast.evalAny (v : Z3_model) : List Z3_ast → Bool
  | [] => false
  | a :: rest => Z3_ast.eval v a || Z3_ast.evalAny v rest
end

/-- A formula is satisfiable when some assignment makes it true. -/
def Satisfiable (f : Z3_ast) : Prop := ∃ v : Z3_model, f.eval v = true

/-- The three verdicts of the solver, `Z3_lbool` of the Z3 C API. -/
inductive Z3_lbool where
  | Z3_L_FALSE
  | Z3_L_UNDEF
  | Z3_L_TRUE
  deriving DecidableEq, Repr

/-- The integer values of the enumeration `Z3_lbool` in the header of the Z3 C
API (`Z3_L_FALSE = -1, Z3_L_UNDEF, Z3_L_TRUE`); the header is an external
library file, not part of the repository. -/
def Z3_lbool.toInt : Z3_lbool → Int
  | .Z3_L_FALSE => -1
  | .Z3_L_UNDEF => 0
  | .Z3_L_TRUE => 1

/-- Modelled from the spec: `checkSatisfiable(formula) -> {SAT, UNSAT, UNKNOWN}`,
the function `isFormulaSat` of Z3Tools, taken as a parameter of the code that
calls it. -/
abbrev Solver := Z3_ast → Z3_lbool

/-- A solver is sound when its two definite verdicts are right; it may always
answer `Z3_L_UNDEF`. -/
def Solver.Sound (isFormulaSat : Solver) : Prop :=
  ∀ f, (isFormulaSat f = .Z3_L_TRUE → Satisfiable f) ∧
    (isFormulaSat f = .Z3_L_FALSE → ¬ Satisfiable f)

/-- Modelled from the spec: `createVariable(name)`, `mk_bool_var` of Z3Tools. -/
def mk_bool_var (name : String) : Z3_ast := .var name

/-- Modelled from the spec: `valueInModel(model, var) -> bool`; the callers test
the result with `== 1`. -/
def valueOfVarInModel (model : Z3_model) (var : Z3_ast) : Bool := var.eval model

/-- `Z3_mk_not(ctx, a)`. -/
def Z3_mk_not (a : Z3_ast) : Z3_ast := .not a

/-- The first `num_args` entries of an array of which `written` lists the
entries that were written. -/
def readArray {α : Type} (num_args : Nat) (written : List α) : Except Fault (List α) :=
  if num_args ≤ written.length then .ok (written.take num_args) else .error .outOfBounds

/-- `Z3_mk_and(ctx, num_args, args)`. -/
def Z3_mk_and (num_args : Nat) (args : List Z3_ast) : Except Fault Z3_ast :=
  match readArray num_args args with
  | .ok read => .ok (.and read)
  | .error e => .error e

/-- `Z3_mk_or(ctx, num_args, args)`. -/
def Z3_mk_or (num_args : Nat) (args : List Z3_ast) : Except Fault Z3_ast :=
  match readArray num_args args with
  | .ok read => .ok (.or read)
  | .error e => .error e

/-- Runs the body of a `for` loop that writes one array entry per index, at the
indices listed, and returns the entries written. -/
def fillArray {α : Type} (body : Nat → Except Fault α) : List Nat → Except Fault (List α)
  | [] => .ok []
  | i :: rest =>
    match body i with
    | .error e => .error e
    | .ok a =>
      match fillArray body rest with
      | .error e => .error e
      | .ok written => .ok (a :: written)

/-! ## Variable names -/

/-- The character of a decimal digit. -/
def digitChar (d : Nat) : Char := Char.ofNat (48 + d)

/-- The decimal digits of `n` put in front of `acc`; `fuel` exceeds the number of
digits. -/
def decimalDigits : Nat → Nat → List Char → List Char
  | 0, _, acc => acc
  | fuel + 1, n, acc =>
    if n < 10 then digitChar n :: acc
    else decimalDigits fuel (n / 10) (digitChar (n % 10) :: acc)

/-- The text `%d` prints for an `int`. -/
def fmt_d : Int → List Char
  | Int.ofNat n => decimalDigits (n + 1) n []
  | Int.negSucc n => '-' :: decimalDigits (n + 2) (n + 1) []

/-- The text written by `sprintf(varName, "X%d,%d,%d,%d", number, position, k, node)`
(Solving.c lines 154, 208 and 263), without its terminating byte. -/
def sprintfVarName (number position k node : Int) : String :=
  String.mk ('X' :: fmt_d number ++ ',' :: fmt_d position ++ ',' :: fmt_d k ++ ',' :: fmt_d node)

/-- Solving.c lines 151-157. -/
def getNodeVariable (number position k node : Int) : Z3_ast :=
  mk_bool_var (sprintfVarName number position k node)

/-! ## The work queue (Solving.c lines 26-39 and 580-623) -/

/-- The type `fileElement_t`: a node and its position. -/
structure fileElement_t where
  node : Nat
  position : Nat
  deriving DecidableEq, Repr

/-- The type `File_t`; `tab` lists `tab[0]` to `tab[currentPos - 1]`. -/
structure File_t where
  tab : List fileElement_t

/-- The field `currentPos`, the number of queued elements. -/
def File_t.currentPos (file : File_t) : Nat := file.tab.length

/-- Solving.c lines 580-583. -/
def isEmpty (file : File_t) : Bool := file.currentPos == 0

/-- Solving.c lines 585-596. -/
def top (file : File_t) : Except Fault fileElement_t :=
  match file.tab with
  | [] => .error .exitFailure
  | element :: _ => .ok element

/-- Solving.c lines 598-611: the queue after the shift of its elements. -/
def pull (file : File_t) : Except Fault File_t :=
  match file.tab with
  | [] => .error .exitFailure
  | _ :: rest => .ok ⟨rest⟩

/-- Solving.c lines 613-623. -/
def push (file : File_t) (element : fileElement_t) : Except Fault File_t :=
  if file.currentPos < FILE_SIZE then .ok ⟨file.tab ++ [element]⟩
  else .error .exitFailure

/-! ## The reachability pruner (Solving.c lines 505-557) -/

/-- Lines 534-545: the scan of the row of `element.position`, from index `i`,
with `remaining = orderG(graph) - i`. Returns the row and the value of `exist`. -/
def recordNode (node : Nat) : Nat → Nat → List Int → Except Fault (List Int × Bool)
  | 0, _, row => .ok (row, false)
  | remaining + 1, i, row =>
    match row[i]? with
    | none => .error .outOfBounds
    | some entry =>
      if entry = (node : Int) then .ok (row, true)
      else if entry = -1 then .ok (row.set i (node : Int), false)
      else recordNode node remaining (i + 1) row

/-- Lines 547-554: the elements pushed for `element`, in the order of the loop. -/
def newElements (graph : Graph) (element : fileElement_t) : List fileElement_t :=
  ((List.range (orderG graph)).filter
    (fun (neighbour : Nat) =>
      isEdge graph element.node neighbour && (neighbour != element.node))).map
    (fun (neighbour : Nat) => ⟨neighbour, element.position + 1⟩)

/-- Pushes the elements of a list one after the other. -/
def pushAll (file : File_t) : List fileElement_t → Except Fault File_t
  | [] => .ok file
  | element :: rest =>
    match push file element with
    | .error e => .error e
    | .ok file1 => pushAll file1 rest

/-- Lines 528-557: the loop `while(!isEmpty(&file))`, at most `fuel` iterations. -/
def pruneLoop (graph : Graph) (pathLength : Nat) :
    Nat → List (List Int) → File_t → Except Fault (List (List Int))
  | 0, _, _ => .error .outOfFuel
  | fuel + 1, possibilities, file =>
    if isEmpty file then .ok possibilities
    else
      match top file with
      | .error e => .error e
      | .ok element =>
        if element.position > pathLength then .ok possibilities
        else
          match possibilities[element.position]? with
          | none => .error .outOfBounds
          | some row =>
            match recordNode element.node (orderG graph) 0 row with
            | .error e => .error e
            | .ok (row1, exist) =>
              match (if exist then .ok file else pushAll file (newElements graph element)) with
              | .error e => .error e
              | .ok file1 =>
                match pull file1 with
                | .error e => .error e
                | .ok file2 =>
                  pruneLoop graph pathLength fuel
                    (possibilities.set element.position row1) file2

/-- The number of iterations handed to `pruneLoop`. -/
def pruneFuel (graph : Graph) (pathLength : Nat) : Nat :=
  (pathLength + 1) * orderG graph * orderG graph + 2

/-- Lines 506-557: the OPTIMIZE branch, returning the table `possibilities`. -/
def prunedTable (graph : Graph) (pathLength : Nat) : Except Fault (List (List Int)) :=
  match push ⟨[]⟩ ⟨getSouceNode graph, 0⟩ with
  | .error e => .error e
  | .ok file =>
    pruneLoop graph pathLength (pruneFuel graph pathLength)
      (List.replicate (pathLength + 1) (List.replicate MAX_ORDER_G (-1))) file

/-- Lines 559-568: the else branch, every node a candidate at every position. -/
def fullTable (graph : Graph) (pathLength : Nat) : List (List Int) :=
  (List.range (pathLength + 1)).map (fun _ =>
    (List.range MAX_ORDER_G).map (fun (j : Nat) => if j < orderG graph then (j : Int) else -1))

/-! ## The formula builders -/

/-- The loop `while(nodeTab[pos][size] != -1) size += 1;` on one row. -/
def sentinelIndex : List Int → Except Fault Nat
  | [] => .error .outOfBounds
  | entry :: rest =>
    if entry = -1 then .ok 0
    else
      match sentinelIndex rest with
      | .error e => .error e
      | .ok size => .ok (size + 1)

/-- The entry `nodeTab[pos][i]`, read below the sentinel of its row. -/
def nodeTabAt (nodeTab : List (List Int)) (pos i : Nat) : Int :=
  (nodeTab.getD pos []).getD i (-1)

/-- The number of candidates of row `pos`. -/
def rowSize (nodeTab : List (List Int)) (pos : Nat) : Except Fault Nat :=
  match nodeTab[pos]? with
  | none => .error .outOfBounds
  | some row => sentinelIndex row

/-- Solving.c lines 373-394. -/
def makeValidFormula (graph : Graph) (number pathLength : Nat) : Except Fault Z3_ast :=
  let source := getSouceNode graph
  let target := getTargetNode graph
  let tabFormulaOr :=
    [getNodeVariable number 0 pathLength source,
     getNodeVariable number pathLength pathLength target]
    ++ ((List.range (orderG graph)).filter (fun (node : Nat) => node != target)).map
        (fun (node : Nat) => Z3_mk_not (getNodeVariable number pathLength pathLength node))
  Z3_mk_and (orderG graph + 1) tabFormulaOr

/-- Solving.c lines 414-436: the conjunction built for candidate `i` of `pos`. -/
def simpleConjunction (number pathLength : Nat) (nodeTab : List (List Int))
    (pos sizeTabFormulaOr i : Nat) : Except Fault Z3_ast :=
  let tabFormulaAnd2 :=
    [getNodeVariable number pos pathLength (nodeTabAt nodeTab pos i)]
    ++ ((List.range sizeTabFormulaOr).filter (fun (j : Nat) => i != j)).map
        (fun (j : Nat) =>
          Z3_mk_not (getNodeVariable number pos pathLength (nodeTabAt nodeTab pos j)))
    ++ ((List.range (pathLength + 1)).filter (fun (j : Nat) => j != pos)).map
        (fun (j : Nat) =>
          Z3_mk_not (getNodeVariable number j pathLength (nodeTabAt nodeTab pos i)))
  Z3_mk_and (pathLength + sizeTabFormulaOr) tabFormulaAnd2

/-- Solving.c lines 404-441: the entry of `tabFormulaAnd1` built for `pos`. -/
def simplePosition (number pathLength : Nat) (nodeTab : List (List Int))
    (pos : Nat) : Except Fault Z3_ast :=
  match rowSize nodeTab pos with
  | .error e => .error e
  | .ok sizeTabFormulaOr =>
    match fillArray (simpleConjunction number pathLength nodeTab pos sizeTabFormulaOr)
        (List.range sizeTabFormulaOr) with
    | .error e => .error e
    | .ok tabFormulaOr =>
      if sizeTabFormulaOr != 1 then Z3_mk_or sizeTabFormulaOr tabFormulaOr
      else
        match tabFormulaOr[0]? with
        | none => .error .outOfBounds
        | some conjunction => .ok conjunction

/-- Solving.c lines 396-445. -/
def makeSimpleFormula (number pathLength : Nat) (nodeTab : List (List Int)) :
    Except Fault Z3_ast :=
  match fillArray (simplePosition number pathLength nodeTab) (List.range (pathLength + 1)) with
  | .error e => .error e
  | .ok tabFormulaAnd1 => Z3_mk_and (pathLength + 1) tabFormulaAnd1

/-- Solving.c lines 461-483: the clause built for candidate `i` of `pos`. -/
def pathClause (graph : Graph) (number pathLength : Nat) (nodeTab : List (List Int))
    (pos i : Nat) : Except Fault Z3_ast :=
  let tabNeighbour := (List.range (orderG graph)).filter
    (fun (node : Nat) => isEdge graph (nodeTabAt nodeTab pos i).toNat node)
  let numberNeighbours := tabNeighbour.length
  let tabOr :=
    [Z3_mk_not (getNodeVariable number pos pathLength (nodeTabAt nodeTab pos i))]
    ++ tabNeighbour.map
        (fun (neighbour : Nat) => getNodeVariable number ((pos : Int) + 1) pathLength neighbour)
  Z3_mk_or (numberNeighbours + 1) tabOr

/-- Solving.c lines 452-485: the entry of `tabAnd1` built for `pos`. -/
def pathPosition (graph : Graph) (number pathLength : Nat) (nodeTab : List (List Int))
    (pos : Nat) : Except Fault Z3_ast :=
  match rowSize nodeTab pos with
  | .error e => .error e
  | .ok sizeTabAnd2 =>
    match fillArray (pathClause graph number pathLength nodeTab pos) (List.range sizeTabAnd2) with
    | .error e => .error e
    | .ok tabAnd2 => Z3_mk_and sizeTabAnd2 tabAnd2

/-- Solving.c lines 447-491. -/
def makePathFormula (graph : Graph) (number pathLength : Nat) (nodeTab : List (List Int)) :
    Except Fault Z3_ast :=
  match fillArray (pathPosition graph number pathLength nodeTab) (List.range pathLength) with
  | .error e => .error e
  | .ok tabAnd1 => Z3_mk_and pathLength tabAnd1

/-- Solving.c lines 493-498. -/
def makeAnd (formula1 formula2 : Z3_ast) : Z3_ast := .and [formula1, formula2]

/-- Lines 571-577: the three sub-formulas built over a candidate table and their
conjunction. -/
def makeFormulaFromTable (graph : Graph) (number pathLength : Nat)
    (possibilities : List (List Int)) : Except Fault Z3_ast :=
  match makeValidFormula graph number pathLength with
  | .error e => .error e
  | .ok formulaValide =>
    match makeSimpleFormula number pathLength possibilities with
    | .error e => .error e
    | .ok formulaSimple =>
      match makePathFormula graph number pathLength possibilities with
      | .error e => .error e
      | .ok formulaPath => .ok (makeAnd formulaPath (makeAnd formulaValide formulaSimple))

/-- Solving.c lines 500-578, with the macro `OPTIMIZE` as an argument. -/
def optimizeAndMakeFormulaWith (optimize : Bool) (graph : Graph) (number pathLength : Nat) :
    Except Fault Z3_ast :=
  match (if optimize then prunedTable graph pathLength else .ok (fullTable graph pathLength)) with
  | .error e => .error e
  | .ok possibilities => makeFormulaFromTable graph number pathLength possibilities

/-- Solving.c lines 500-578 as compiled, `OPTIMIZE` being `true`. -/
def optimizeAndMakeFormula (graph : Graph) (number pathLength : Nat) : Except Fault Z3_ast :=
  optimizeAndMakeFormulaWith OPTIMIZE graph number pathLength

/-- Solving.c lines 159-170; `numGraphs` is the length of `graphs`. -/
def graphsToPathFormula (graphs : List Graph) (pathLength : Nat) : Except Fault Z3_ast :=
  match fillArray (fun i =>
      match graphs[i]? with
      | none => .error .outOfBounds
      | some graph => optimizeAndMakeFormula graph i pathLength)
    (List.range graphs.length) with
  | .error e => .error e
  | .ok tabFormula => Z3_mk_and graphs.length tabFormula

/-- Lines 176-181 of Solving.c and 144-150 of main.c: the least order among
`graphs[1..]`, starting from `min_vertices`. -/
def minVertices (min_vertices : Nat) : List Graph → Nat
  | [] => min_vertices
  | graph :: rest =>
    minVertices (if orderG graph < min_vertices then orderG graph else min_vertices) rest

/-- Solving.c lines 184-191: the loop `while(k <= min_vertices - 1)` from `k` on,
with `remaining = min_vertices - k`. Returns the final `k` and the entries of
`tabFormula` written. -/
def fullFormulaLoop (isFormulaSat : Solver) (graphs : List Graph) :
    Nat → Nat → List Z3_ast → Except Fault (Nat × List Z3_ast)
  | 0, k, tabFormula => .ok (k, tabFormula)
  | remaining + 1, k, tabFormula =>
    match graphsToPathFormula graphs k with
    | .error e => .error e
    | .ok formula =>
      if isFormulaSat formula = .Z3_L_TRUE then .ok (k, tabFormula ++ [formula])
      else fullFormulaLoop isFormulaSat graphs remaining (k + 1) (tabFormula ++ [formula])

/-- Solving.c lines 174-194. -/
def graphsToFullFormula (isFormulaSat : Solver) (graphs : List Graph) : Except Fault Z3_ast :=
  match graphs with
  | [] => .error .outOfBounds
  | graph0 :: rest =>
    let min_vertices := minVertices (orderG graph0) rest
    match fullFormulaLoop isFormulaSat graphs min_vertices 0 [] with
    | .error e => .error e
    | .ok (k, tabFormula) => Z3_mk_or (k + 1) tabFormula

/-! ## The default mode of main (main.c lines 112-123) -/

/-- The line printed by the test `if(isFormulaSat(context, fullFormula))`: a C
condition holds when its value is not zero. -/
def reportVerdict (verdict : Z3_lbool) : String :=
  if verdict.toInt ≠ 0 then "OUI" else "NON"

/-- The default mode of `main` (no `-s` flag): the line it prints. -/
def mainDefaultMode (isFormulaSat : Solver) (graphs : List Graph) : Except Fault String :=
  match graphsToFullFormula isFormulaSat graphs with
  | .error e => .error e
  | .ok fullFormula => .ok (reportVerdict (isFormulaSat fullFormula))

/-! ## The decoders -/

/-- Lines 205-216 (and 260-271): the first position at which `node` is true in
the model, the position the inner loop writes before its `break`. -/
def firstTruePosition (model : Z3_model) (numCurrentGraph pathLength node : Nat) : Option Nat :=
  (List.range (pathLength + 1)).find? (fun (posInPath : Nat) =>
    valueOfVarInModel model (mk_bool_var (sprintfVarName numCurrentGraph posInPath pathLength node)))

/-- Lines 203-217 (and 258-272): the row `nodesPath[numCurrentGraph]` after the
nodes listed have been scanned; an entry never written is `none`. -/
def decodeNodes (model : Z3_model) (numCurrentGraph pathLength : Nat) :
    List Nat → List (Option Nat) → List (Option Nat)
  | [], nodesPath => nodesPath
  | node :: rest, nodesPath =>
    match firstTruePosition model numCurrentGraph pathLength node with
    | some posInPath =>
      decodeNodes model numCurrentGraph pathLength rest (nodesPath.set posInPath (some node))
    | none => decodeNodes model numCurrentGraph pathLength rest nodesPath

/-- The node sequence that `printPathsFromModel` (lines 201-218) and
`createDotFromModel` (lines 255-272) decode for graph `numCurrentGraph`. -/
def decodedPath (model : Z3_model) (graph : Graph) (numCurrentGraph pathLength : Nat) :
    List (Option Nat) :=
  decodeNodes model numCurrentGraph pathLength (List.range (orderG graph))
    (List.replicate (pathLength + 1) none)

/-- Lines 349-360: the first neighbour of `currentNode` that is true at `pos + 1`. -/
def nextNode (model : Z3_model) (graph : Graph) (solutionLength pos currentNode : Nat) :
    Option Nat :=
  (List.range (orderG graph)).find? (fun (neighbour : Nat) =>
    isEdge graph currentNode neighbour &&
      valueOfVarInModel model (getNodeVariable 0 ((pos : Int) + 1) solutionLength neighbour))

/-- Lines 337-363: the loop `for(pos; pos<=solutionLength; pos++)` from `pos` on,
with `remaining = solutionLength + 1 - pos`; `true` when it returns
`solutionLength`, `false` when it falls through to `solutionLength += 1`. -/
def walkModel (model : Z3_model) (graph : Graph) (solutionLength : Nat) :
    Nat → Nat → Nat → Bool
  | 0, _, _ => false
  | remaining + 1, pos, currentNode =>
    if pos = solutionLength then
      valueOfVarInModel model (getNodeVariable 0 0 solutionLength (getSouceNode graph)) &&
        valueOfVarInModel model
          (getNodeVariable 0 solutionLength solutionLength (getTargetNode graph))
    else
      match nextNode model graph solutionLength pos currentNode with
      | none => false
      | some neighbour =>
        if neighbour = currentNode then false
        else walkModel model graph solutionLength remaining (pos + 1) neighbour

/-- Lines 334-369: the loop `while(solutionLength < orderG(graphs[0]))` from
`solutionLength` on, with `remaining = orderG(graphs[0]) - solutionLength`. -/
def solutionLengthLoop (model : Z3_model) (graph : Graph) : Nat → Nat → Except Fault Nat
  | 0, _ => .error .exitFailure
  | remaining + 1, solutionLength =>
    if walkModel model graph solutionLength (solutionLength + 1) 0 (getSouceNode graph) then
      .ok solutionLength
    else solutionLengthLoop model graph remaining (solutionLength + 1)

/-- Solving.c lines 321-371. -/
def getSolutionLengthFromModel (model : Z3_model) (graphs : List Graph) : Except Fault Nat :=
  match graphs with
  | [] => .error .outOfBounds
  | graph0 :: _ => solutionLengthLoop model graph0 (orderG graph0) 0

/-! ## Paths -/

/-- A simple path of `k` edges: `k + 1` pairwise distinct nodes of the graph, from
the source to the target, each consecutive pair an edge. -/
def IsSimplePath (graph : Graph) (k : Nat) (path : List Nat) : Prop :=
  path.length = k + 1 ∧ path.Nodup ∧ (∀ n ∈ path, n < orderG graph) ∧
    path.head? = some (getSouceNode graph) ∧ path.getLast? = some (getTargetNode graph) ∧
    List.Chain' (fun u v => isEdge graph u v = true) path

/-- The graph has a simple source-to-target path of exactly `k` edges. -/
def HasSimplePath (graph : Graph) (k : Nat) : Prop := ∃ path, IsSimplePath graph k path

/-- The graph of the concrete scenario: A -> B -> C with A the source and C the
target (A, B, C are the nodes 0, 1, 2). -/
def graphABC : Graph where
  order := 3
  edge := fun u v => (u == 0 && v == 1) || (u == 1 && v == 2)
  source := fun n => n == 0
  target := fun n => n == 2

/-! ## Reading back variable names -/

/-- The value of a digit character. -/
def digitValue (c : Char) : Nat := c.toNat - 48

/-- The number a list of digit characters denotes. -/
def parseDigits (cs : List Char) : Nat :=
  cs.foldl (fun acc c => 10 * acc + digitValue c) 0

/-! ## The candidate table as lists of candidates -/

/-- The row of the table that holds the candidates `cands`, in order, and the
sentinel `-1` in every other entry. -/
def encodeRow (cands : List Nat) : List Int :=
  List.map (fun (n : Nat) => (n : Int)) cands ++ List.replicate (MAX_ORDER_G - cands.length) (-1)

/-- The table of `k + 1` rows whose row `p` holds the candidates `cands p`. -/
def encodeTable (k : Nat) (cands : Nat → List Nat) : List (List Int) :=
  (List.range (k + 1)).map (fun p => encodeRow (cands p))

/-- Node `n` ends a walk of exactly `p` edges of the graph that starts at the
source and takes no self-loop. -/
inductive Level (graph : Graph) : Nat → Nat → Prop where
  | zero : Level graph 0 (getSouceNode graph)
  | step {p n m : Nat} : Level graph p n → m < orderG graph → isEdge graph n m = true →
      m ≠ n → Level graph (p + 1) m

/-- The invariant of the loop of the pruner, on the candidates recorded and on the
elements queued. -/
structure PruneInv (graph : Graph) (cands : Nat → List Nat)
    (queue : List fileElement_t) : Prop where
  nodup : ∀ p, (cands p).Nodup
  bound : ∀ p, ∀ n ∈ cands p, n < orderG graph
  short : ∀ p, (cands p).length ≤ MAX_ORDER_G
  level : ∀ p, ∀ n ∈ cands p, Level graph p n
  qbound : ∀ e ∈ queue, e.node < orderG graph
  qlevel : ∀ e ∈ queue, Level graph e.position e.node
  sorted : queue.Pairwise (fun a b => a.position ≤ b.position)
  near : ∀ h ∈ queue.head?, ∀ e ∈ queue, e.position ≤ h.position + 1
  cap : queue.length ≤ FILE_SIZE
  source : getSouceNode graph ∈ cands 0 ∨ (⟨getSouceNode graph, 0⟩ : fileElement_t) ∈ queue
  closed : ∀ p, ∀ n ∈ cands p, ∀ m, m < orderG graph → isEdge graph n m = true → m ≠ n →
    m ∈ cands (p + 1) ∨ (⟨m, p + 1⟩ : fileElement_t) ∈ queue

/-- What the formula builders need of a table of candidates for length `k`: rows
without repetition, made of nodes of the graph, that hold the source at
position 0 and, below `k`, every successor of a candidate at the next position. -/
structure GoodTable (graph : Graph) (k : Nat) (cands : Nat → List Nat) : Prop where
  nodup : ∀ p, (cands p).Nodup
  bound : ∀ p, ∀ n ∈ cands p, n < orderG graph
  short : ∀ p, (cands p).length ≤ MAX_ORDER_G
  source : getSouceNode graph ∈ cands 0
  closed : ∀ p, p < k → ∀ n ∈ cands p, ∀ m, m < orderG graph → isEdge graph n m = true →
    m ≠ n → m ∈ cands (p + 1)

/-- The number of pairs of a position up to `k` and a node that is not yet a
candidate at that position. -/
def freeSlots (graph : Graph) (k : Nat) (cands : Nat → List Nat) : Nat :=
  ((Finset.range (k + 1) ×ˢ Finset.range (orderG graph)).filter
    (fun x => x.2 ∉ cands x.1)).card

/-! ## Reading a model -/

/-- The truth value a model gives to the variable of graph `number`, position
`p`, length `k` and node `n`. -/
def holds (v : Z3_model) (number k p n : Nat) : Bool := v (sprintfVarName number p k n)

/-- The meaning of the validity formula: the source holds position 0, the target
position `k`, and no other node of the graph holds position `k`. -/
def ValidHolds (graph : Graph) (v : Z3_model) (number k : Nat) : Prop :=
  holds v number k 0 (getSouceNode graph) = true ∧
    holds v number k k (getTargetNode graph) = true ∧
    ∀ n, n < orderG graph → n ≠ getTargetNode graph → holds v number k k n = false

/-- The meaning of the exclusivity formula over a table of candidates: at every
position one candidate is true, the other candidates of the position are false,
and that candidate is false at every other position. -/
def SimpleHolds (cands : Nat → List Nat) (v : Z3_model) (number k : Nat) : Prop :=
  ∀ p, p ≤ k → ∃ n ∈ cands p, holds v number k p n = true ∧
    (∀ m ∈ cands p, m ≠ n → holds v number k p m = false) ∧
    ∀ q, q ≤ k → q ≠ p → holds v number k q n = false

/-- The meaning of the adjacency formula over a table of candidates: below `k`, a
candidate that is true at its position has a successor true at the next. -/
def PathHolds (graph : Graph) (cands : Nat → List Nat) (v : Z3_model) (number k : Nat) : Prop :=
  ∀ p, p < k → ∀ n ∈ cands p, holds v number k p n = false ∨
    ∃ m, m < orderG graph ∧ isEdge graph n m = true ∧ holds v number k (p + 1) m = true

/-- The model that makes true exactly the variables `(number, p, k, path[p])` of
the positions `p` up to `k`. -/
def pathModel (number k : Nat) (path : List Nat) : Z3_model :=
  fun s => (List.range (k + 1)).any
    (fun (p : Nat) => s == sprintfVarName number p k (path.getD p 0))

/-- The formula `optimizeAndMakeFormula` returns for the graph A -> B -> C, as
graph number 0, at length `k`. -/
def formulaABC (k : Nat) : Z3_ast :=
  match optimizeAndMakeFormula graphABC 0 k with
  | .ok f => f
  | .error _ => .and []

/-- A walk of exactly `p` edges of the graph from its source to node `n`. -/
def IsWalk (graph : Graph) (p : Nat) (walk : List Nat) (n : Nat) : Prop :=
  walk.length = p + 1 ∧ walk.head? = some (getSouceNode graph) ∧ walk.getLast? = some n ∧
    List.Chain' (fun u v => isEdge graph u v = true) walk

/-- The assignment that makes the variable `(number, 0, 0, source)` its only true
variable. -/
def sourceOnlyModel (graph : Graph) (number : Nat) : Z3_model :=
  fun name => name == sprintfVarName number 0 0 (getSouceNode graph)

/-- The graph with the single node 0, both source and target, and no edge. -/
def graphSingle : Graph where
  order := 1
  edge := fun _ _ => false
  source := fun _ => true
  target := fun _ => true

/-- The model that makes true, for each graph number `i` below `numGraphs`,
exactly the variables of the path `paths i`. -/
def pathsModel (k : Nat) (paths : Nat → List Nat) (numGraphs : Nat) : Z3_model :=
  fun s => (List.range numGraphs).any (fun (i : Nat) => pathModel i k (paths i) s)

/-- The chain 0 -> 1 -> 2 -> 3 with 0 the source and 3 the target: its only simple
source-to-target path has 3 edges. -/
def graphChain4 : Graph where
  order := 4
  edge := fun u v => (u == 0 && v == 1) || (u == 1 && v == 2) || (u == 2 && v == 3)
  source := fun n => n == 0
  target := fun n => n == 3

/-- The formula `graphsToPathFormula` returns for the two graphs A -> B -> C and
0 -> 1 -> 2 -> 3 at length `k`. -/
def formulaPair (k : Nat) : Z3_ast :=
  match graphsToPathFormula [graphABC, graphChain4] k with
  | .ok f => f
  | .error _ => .and []

/-- The solver that never commits itself. -/
def undecidedSolver : Solver := fun _ => .Z3_L_UNDEF

/-- The formula of a run, when the run returned one. -/
def formulaOf (run : Except Fault Z3_ast) : Z3_ast :=
  match run with
  | .ok f => f
  | .error _ => .and []

/-- A graph with the edges 0 -> 1, 0 -> 2 and 1 -> 3, source 0 and target 3: node 2
is a candidate at position 1 of a path of length 2 and is on no such path. -/
def graphFork : Graph where
  order := 4
  edge := fun u v => (u == 0 && v == 1) || (u == 0 && v == 2) || (u == 1 && v == 3)
  source := fun n => n == 0
  target := fun n => n == 3

/-- A model of the length-2 formula of `graphFork`: the path 0, 1, 3 and, besides,
node 2 at position 0. -/
def forkModel : Z3_model :=
  fun s => s == "X0,0,2,0" || s == "X0,1,2,1" || s == "X0,2,2,3" || s == "X0,0,2,2"

/-- A model of the length-2 formula of `graphFork`: the path 0, 1, 3 and, besides,
two variables of length 0, the source and the target at position 0. -/
def staleModel : Z3_model :=
  fun s => s == "X0,0,2,0" || s == "X0,1,2,1" || s == "X0,2,2,3" ||
    s == "X0,0,0,0" || s == "X0,0,0,3"

/-- The model makes at most one node of the graph true at each position up to `k`. -/
def OneNodePerPosition (v : Z3_model) (graph : Graph) (number k : Nat) : Prop :=
  ∀ p, p ≤ k → ∀ n m, n < orderG graph → m < orderG graph →
    holds v number k p n = true → holds v number k p m = true → n = m

/-- The bound on the queued elements of each position: one element of position 0,
and at most `orderG graph` elements of position `q + 1` for each candidate
recorded at position `q`. -/
structure QueueBound (graph : Graph) (cands : Nat → List Nat)
    (queue : List fileElement_t) : Prop where
  zero : queue.countP (fun e => e.position == 0) ≤ 1
  succ : ∀ q, queue.countP (fun e => e.position == q + 1) ≤ (cands q).length * orderG graph

/-- A walk of exactly `p` edges from the source to node `n` through nodes of the
graph, none of its edges a self-loop. -/
def IsLoopFreeWalk (graph : Graph) (p : Nat) (walk : List Nat) (n : Nat) : Prop :=
  IsWalk graph p walk n ∧ (∀ x ∈ walk, x < orderG graph) ∧
    List.Chain' (fun u v => v ≠ u) walk

/-- The graph 0 -> 1, 0 -> 2, 1 -> 2 with source 0 and target 2. -/
def graphTriangle : Graph where
  order := 3
  edge := fun u v => (u == 0 && v == 1) || (u == 0 && v == 2) || (u == 1 && v == 2)
  source := fun n => n == 0
  target := fun n => n == 2

/-- The candidates the pruner records for `graphTriangle` at length 2. -/
def candsTriangle (p : Nat) : List Nat :=
  if p = 0 then [0] else if p = 1 then [1, 2] else [2]

/-- Position `p` is the first position at which the model makes the variable of
node `n` true. -/
def FirstTrueAt (v : Z3_model) (number k p n : Nat) : Prop :=
  holds v number k p n = true ∧ ∀ q, q < p → holds v number k q n = false

/-! ## The search by length of main (main.c lines 142-191) -/

/-- The option flags of main.c (lines 18-23). -/
structure Flags where
  PRINT_PATH : Bool
  WRITE_PATH_IN_DOT_FILE : Bool
  TEST_SEPARATLY_BY_DEEPTH : Bool
  TEST_ALL : Bool
  PRINT_FORMULA : Bool
  DECREASING_ORDER : Bool

/-- What `findPath` does at length `k`, in the order of the source: the assignment
`tabFormula[k] = graphsToPathFormula(...)`, one call `isFormulaSat(ctx, tabFormula[k])`,
the line "There is a simple valide path of length k in all graphs.", a call of
`getModelFromSatFormula`, of `printPathsFromModel`, of `createDotFromModel`, the
line of the formula, and the line "no simple valide path of length k.". -/
inductive Event where
  | build (k : Nat)
  | check (k : Nat)
  | found (k : Nat)
  | getModel (k : Nat)
  | printPaths (k : Nat)
  | createDot (k : Nat)
  | printFormula (k : Nat)
  | noPath (k : Nat)
  deriving DecidableEq

/-- Lines 166-184 of main.c: the branch taken on the verdict `Z3_L_TRUE`. -/
def foundEvents (flags : Flags) (k : Nat) : List Event :=
  [.build k, .check k, .found k] ++
    (if flags.PRINT_PATH then [.getModel k, .printPaths k] else []) ++
    (if flags.WRITE_PATH_IN_DOT_FILE then [.getModel k, .createDot k] else []) ++
    (if flags.PRINT_FORMULA then [.printFormula k] else [])

/-- Lines 166-167 and 185-189 of main.c: the first test failed and the `else if`
calls `isFormulaSat` again on the same formula. -/
def notFoundEvents (flags : Flags) (verdict : Z3_lbool) (k : Nat) : List Event :=
  [.build k, .check k, .check k] ++
    (if verdict = .Z3_L_FALSE ∧ (flags.TEST_SEPARATLY_BY_DEEPTH || flags.TEST_ALL) = true
      then [.noPath k] else [])

/-- Lines 164-189 of main.c, the body of the loop at index `k` up to the `break`:
what it does, and whether it leaves the loop. -/
def findPathBody (flags : Flags) (isFormulaSat : Solver) (graphs : List Graph) (k : Nat) :
    Except Fault (Bool × List Event) :=
  match graphsToPathFormula graphs k with
  | .error e => .error e
  | .ok formula =>
    if isFormulaSat formula = .Z3_L_TRUE then .ok (!flags.TEST_ALL, foundEvents flags k)
    else .ok (false, notFoundEvents flags (isFormulaSat formula) k)

/-- Lines 162-190 of main.c: the loop `while(count <= min_vertices - 1)` with
`remaining = min_vertices - count`; `k` is a C `int` and indexes the array
`tabFormula[min_vertices]`. -/
def findPathLoop (flags : Flags) (isFormulaSat : Solver) (graphs : List Graph)
    (min_vertices : Nat) (step : Int) : Nat → Int → List Event → Except Fault (List Event)
  | 0, _, log => .ok log
  | remaining + 1, k, log =>
    if 0 ≤ k ∧ k < (min_vertices : Int) then
      match findPathBody flags isFormulaSat graphs k.toNat with
      | .error e => .error e
      | .ok (leave, events) =>
        if leave then .ok (log ++ events)
        else findPathLoop flags isFormulaSat graphs min_vertices step remaining (k + step)
          (log ++ events)
    else .error .outOfBounds

/-- Lines 142-191 of main.c. -/
def findPath (flags : Flags) (isFormulaSat : Solver) (graphs : List Graph) :
    Except Fault (List Event) :=
  match graphs with
  | [] => .error .outOfBounds
  | graph0 :: rest =>
    let min_vertices := minVertices (orderG graph0) rest
    if flags.DECREASING_ORDER then
      findPathLoop flags isFormulaSat graphs min_vertices (-1) min_vertices
        ((min_vertices : Int) - 1) []
    else findPathLoop flags isFormulaSat graphs min_vertices 1 min_vertices 0 []

/-- The lengths for which a formula was built, in the order of the run. -/
def tried (log : List Event) : List Nat :=
  log.filterMap (fun e => match e with
    | .build k => some k
    | _ => none)

/-- The loop of `findPath` over the list of the lengths it visits. -/
def visitLengths (flags : Flags) (isFormulaSat : Solver) (graphs : List Graph) :
    List Nat → List Event → Except Fault (List Event)
  | [], log => .ok log
  | k :: lengths, log =>
    match findPathBody flags isFormulaSat graphs k with
    | .error e => .error e
    | .ok (leave, events) =>
      if leave then .ok (log ++ events)
      else visitLengths flags isFormulaSat graphs lengths (log ++ events)

/-- The lengths `0..min_vertices-1` in the order of the flag `DECREASING_ORDER`. -/
def lengthsInOrder (flags : Flags) (min_vertices : Nat) : List Nat :=
  if flags.DECREASING_ORDER then (List.range min_vertices).reverse
  else List.range min_vertices

/-- The verdict `Z3_L_TRUE` of the solver on the formula of length `k`. -/
def verdictTrue (isFormulaSat : Solver) (graphs : List Graph) (k : Nat) : Bool :=
  decide (isFormulaSat (formulaOf (graphsToPathFormula graphs k)) = .Z3_L_TRUE)

/-- The solver that answers `Z3_L_TRUE` to the formulas the assignment `v` makes true
and `Z3_L_UNDEF` to the others. -/
def modelSolver (v : Z3_model) : Solver :=
  fun f => if f.eval v then .Z3_L_TRUE else .Z3_L_UNDEF

/-- The flags of the option `-s` alone. -/
def flagsSeparately : Flags where
  PRINT_PATH := false
  WRITE_PATH_IN_DOT_FILE := false
  TEST_SEPARATLY_BY_DEEPTH := true
  TEST_ALL := false
  PRINT_FORMULA := false
  DECREASING_ORDER := false

/-- The flags of the options `-s -a`. -/
def flagsAll : Flags where
  PRINT_PATH := false
  WRITE_PATH_IN_DOT_FILE := false
  TEST_SEPARATLY_BY_DEEPTH := true
  TEST_ALL := true
  PRINT_FORMULA := false
  DECREASING_ORDER := false

/-- The complete graph on `n` nodes, with source 0 and target 1. -/
def graphK (n : Nat) : Graph where
  order := n
  edge := fun u v => u != v
  source := fun x => x == 0
  target := fun x => x == 1

/-- The loop of the pruner (lines 528-557) on the candidates recorded and the
elements queued: whether it ends in the branch "full file" of `push` within `fuel`
iterations. -/
def queueOverflows (graph : Graph) (pathLength : Nat) :
    Nat → (Nat → List Nat) → List fileElement_t → Bool
  | 0, _, _ => false
  | _ + 1, _, [] => false
  | fuel + 1, cands, element :: rest =>
    if element.position > pathLength then false
    else if element.node ∈ cands element.position then
      queueOverflows graph pathLength fuel cands rest
    else if (element :: rest).length + (newElements graph element).length ≤ FILE_SIZE then
      queueOverflows graph pathLength fuel
        (Function.update cands element.position (cands element.position ++ [element.node]))
        (rest ++ newElements graph element)
    else true

/-! ## Declared lengths of buffers -/

/-- The statement `tab[indice++] = value` on an array declared with `declared`
entries, of which `written` lists the entries at the indices below `indice`: the
write at an index that is not below the declared length is out of the array. -/
def writeNext {α : Type} (declared : Nat) (written : List α) (value : α) :
    Except Fault (List α) :=
  if written.length < declared then .ok (written ++ [value]) else .error .outOfBounds

/-- The statement `tab[indice++] = value` for the values of a list, one after the
other. -/
def writeAll {α : Type} (declared : Nat) (written : List α) : List α → Except Fault (List α)
  | [] => .ok written
  | value :: rest =>
    match writeNext declared written value with
    | .error e => .error e
    | .ok written1 => writeAll declared written1 rest

/-- Solving.c lines 461-481 with the declared length of `tabOr` (line 470,
`Z3_ast tabOr[numberNeighbours]`): the entries of `tabOr` after the writes of
lines 475 and 480 for candidate `i` of `pos`. -/
def tabOrWrites (graph : Graph) (number pathLength : Nat) (nodeTab : List (List Int))
    (pos i : Nat) : Except Fault (List Z3_ast) :=
  let tabNeighbour := (List.range (orderG graph)).filter
    (fun (node : Nat) => isEdge graph (nodeTabAt nodeTab pos i).toNat node)
  let numberNeighbours := tabNeighbour.length
  match writeNext numberNeighbours []
      (Z3_mk_not (getNodeVariable number pos pathLength (nodeTabAt nodeTab pos i))) with
  | .error e => .error e
  | .ok tabOr =>
    writeAll numberNeighbours tabOr (tabNeighbour.map
      (fun (neighbour : Nat) => getNodeVariable number ((pos : Int) + 1) pathLength neighbour))

/-- The number of bytes `sprintf(varName, "X%d,%d,%d,%d", ...)` writes into
`varName` (Solving.c lines 153-154, 207-208 and 262-263): the characters of the
name and the terminating byte. -/
def bytesWritten (number position k node : Int) : Nat :=
  (sprintfVarName number position k node).length + 1

/-- The loop of the pruner (lines 528-557) together with the record of the elements
it reads at the top of the queue, in the order of the run; the flag of an element
tells whether it was expanded (`exist == 0`: its node was recorded and the pushes of
its successors started). Returns how the loop ended and the record. -/
def pruneLoopLog (graph : Graph) (pathLength : Nat) :
    Nat → List (List Int) → File_t →
      Except Fault (List (List Int)) × List (fileElement_t × Bool)
  | 0, _, _ => (.error .outOfFuel, [])
  | fuel + 1, possibilities, file =>
    if isEmpty file then (.ok possibilities, [])
    else
      match top file with
      | .error e => (.error e, [])
      | .ok element =>
        if element.position > pathLength then (.ok possibilities, [(element, false)])
        else
          match possibilities[element.position]? with
          | none => (.error .outOfBounds, [(element, false)])
          | some row =>
            match recordNode element.node (orderG graph) 0 row with
            | .error e => (.error e, [(element, false)])
            | .ok (row1, exist) =>
              match (if exist then .ok file else pushAll file (newElements graph element)) with
              | .error e => (.error e, [(element, !exist)])
              | .ok file1 =>
                match pull file1 with
                | .error e => (.error e, [(element, !exist)])
                | .ok file2 =>
                  ((pruneLoopLog graph pathLength fuel
                      (possibilities.set element.position row1) file2).1,
                    (element, !exist) ::
                      (pruneLoopLog graph pathLength fuel
                        (possibilities.set element.position row1) file2).2)

/-- Lines 506-557 with the record of the elements read at the top of the queue. -/
def prunedTableLog (graph : Graph) (pathLength : Nat) :
    Except Fault (List (List Int)) × List (fileElement_t × Bool) :=
  match push ⟨[]⟩ ⟨getSouceNode graph, 0⟩ with
  | .error e => (.error e, [])
  | .ok file =>
    pruneLoopLog graph pathLength (pruneFuel graph pathLength)
      (List.replicate (pathLength + 1) (List.replicate MAX_ORDER_G (-1))) file

/-- The elements of a record that were expanded. -/
def expanded (log : List (fileElement_t × Bool)) : List fileElement_t :=
  (log.filter (fun x => x.2)).map (fun x => x.1)

/-- The count of the queued elements of each position together with the candidates
already recorded at that position: at most one for position 0, and for position
`q + 1` at most `orderG graph - 1` for each candidate recorded at position `q` (an
element is queued for each successor, other than itself, of a node recorded). -/
structure QueueCount (graph : Graph) (cands : Nat → List Nat)
    (queue : List fileElement_t) : Prop where
  zero : queue.countP (fun e => e.position == 0) + (cands 0).length ≤ 1
  succ : ∀ q, queue.countP (fun e => e.position == q + 1) + (cands (q + 1)).length ≤
    (cands q).length * (orderG graph - 1)

/-- The graph 0 -> 1, 1 -> 4, 0 -> 2, 2 -> 3 with source 0 and target 4: node 3 is
a candidate at position 2 only, and there is no edge 0 -> 3. -/
def graphBranches : Graph where
  order := 5
  edge := fun u v =>
    (u == 0 && v == 1) || (u == 1 && v == 4) || (u == 0 && v == 2) || (u == 2 && v == 3)
  source := fun n => n == 0
  target := fun n => n == 4

/-- A model of the pruned length-2 formula of `graphBranches`: the path 0, 1, 4 and,
besides, node 3 at position 1. -/
def crossModel : Z3_model :=
  fun s => s == "X0,0,2,0" || s == "X0,1,2,1" || s == "X0,2,2,4" || s == "X0,1,2,3"

/-! ## Lemmas on the fault monad and on arrays -/

theorem readArray_length {α : Type} (written : List α) :
    readArray written.length written = .ok written := by
  simp [readArray]

theorem readArray_ok {α : Type} {n : Nat} {written read : List α}
    (h : readArray n written = .ok read) : n ≤ written.length ∧ read = written.take n := by
  unfold readArray at h
  split at h
  · rename_i hle
    cases h
    exact ⟨hle, rfl⟩
  · cases h

theorem Z3_mk_and_length (args : List Z3_ast) (n : Nat) (h : n = args.length) :
    Z3_mk_and n args = .ok (.and args) := by
  subst h
  simp [Z3_mk_and, readArray_length]

theorem Z3_mk_or_length (args : List Z3_ast) (n : Nat) (h : n = args.length) :
    Z3_mk_or n args = .ok (.or args) := by
  subst h
  simp [Z3_mk_or, readArray_length]

theorem fillArray_ok {α : Type} (body : Nat → Except Fault α) (g : Nat → α) (l : List Nat)
    (h : ∀ i ∈ l, body i = .ok (g i)) : fillArray body l = .ok (l.map g) := by
  induction l with
  | nil => rfl
  | cons i rest ih =>
    have h1 := h i (List.mem_cons_self _ _)
    have h2 := ih (fun j hj => h j (List.mem_cons_of_mem _ hj))
    simp [fillArray, h1, h2]

theorem fillArray_inv {α : Type} (body : Nat → Except Fault α) (l : List Nat) (r : List α)
    (h : fillArray body l = .ok r) : List.Forall₂ (fun i a => body i = .ok a) l r := by
  induction l generalizing r with
  | nil =>
    simp [fillArray] at h
    subst h
    exact List.Forall₂.nil
  | cons i rest ih =>
    unfold fillArray at h
    cases hb : body i with
    | error e => simp [hb] at h
    | ok a =>
      cases hr : fillArray body rest with
      | error e => simp [hb, hr] at h
      | ok w =>
        simp [hb, hr] at h
        subst h
        exact List.Forall₂.cons hb (ih w hr)

/-! ## Lemmas on evaluation -/

theorem evalAll_iff (v : Z3_model) (l : List Z3_ast) :
    Z3_ast.evalAll v l = true ↔ ∀ f ∈ l, f.eval v = true := by
  induction l with
  | nil => simp [Z3_ast.evalAll]
  | cons a rest ih => simp [Z3_ast.evalAll, ih]

theorem evalAny_iff (v : Z3_model) (l : List Z3_ast) :
    Z3_ast.evalAny v l = true ↔ ∃ f ∈ l, f.eval v = true := by
  induction l with
  | nil => simp [Z3_ast.evalAny]
  | cons a rest ih => simp [Z3_ast.evalAny, ih]

theorem eval_and_iff (v : Z3_model) (l : List Z3_ast) :
    (Z3_ast.and l).eval v = true ↔ ∀ f ∈ l, f.eval v = true := by
  simp [Z3_ast.eval, evalAll_iff]

theorem eval_or_iff (v : Z3_model) (l : List Z3_ast) :
    (Z3_ast.or l).eval v = true ↔ ∃ f ∈ l, f.eval v = true := by
  simp [Z3_ast.eval, evalAny_iff]

theorem eval_not_iff (v : Z3_model) (a : Z3_ast) :
    (Z3_mk_not a).eval v = true ↔ a.eval v = false := by
  simp [Z3_mk_not, Z3_ast.eval]

theorem eval_getNodeVariable (v : Z3_model) (g p k n : Int) :
    (getNodeVariable g p k n).eval v = v (sprintfVarName g p k n) := by
  simp [getNodeVariable, mk_bool_var, Z3_ast.eval]

/-! ## Lemmas on variable names -/

theorem digitValue_digitChar (d : Nat) (h : d < 10) : digitValue (digitChar d) = d := by
  interval_cases d <;> decide

theorem digitChar_ne_comma (d : Nat) (h : d < 10) : digitChar d ≠ ',' := by
  interval_cases d <;> decide

theorem decimalDigits_append (fuel n : Nat) (acc : List Char) :
    decimalDigits fuel n acc = decimalDigits fuel n [] ++ acc := by
  induction fuel generalizing n acc with
  | zero => simp [decimalDigits]
  | succ fuel ih =>
    unfold decimalDigits
    split
    · simp
    · rw [ih (n / 10) (digitChar (n % 10) :: acc), ih (n / 10) [digitChar (n % 10)]]
      simp

theorem decimalDigits_no_comma (fuel n : Nat) :
    ∀ c ∈ decimalDigits fuel n [], c ≠ ',' := by
  induction fuel generalizing n with
  | zero => simp [decimalDigits]
  | succ fuel ih =>
    unfold decimalDigits
    split
    · rename_i h
      intro c hc
      simp at hc
      subst hc
      exact digitChar_ne_comma n h
    · rw [decimalDigits_append]
      intro c hc
      simp at hc
      rcases hc with hc | hc
      · exact ih _ c hc
      · subst hc
        exact digitChar_ne_comma _ (Nat.mod_lt _ (by norm_num))

theorem parseDigits_snoc (l : List Char) (c : Char) :
    parseDigits (l ++ [c]) = 10 * parseDigits l + digitValue c := by
  simp [parseDigits, List.foldl_append]

theorem parseDigits_decimalDigits (fuel n : Nat) (h : n < fuel) :
    parseDigits (decimalDigits fuel n []) = n := by
  induction fuel generalizing n with
  | zero => omega
  | succ fuel ih =>
    unfold decimalDigits
    split
    · rename_i h10
      simp [parseDigits, digitValue_digitChar n h10]
    · rw [decimalDigits_append, parseDigits_snoc, ih (n / 10) (by omega),
        digitValue_digitChar _ (Nat.mod_lt _ (by norm_num))]
      omega

theorem fmt_d_natCast (n : Nat) : fmt_d (n : Int) = decimalDigits (n + 1) n [] := rfl

theorem fmt_d_natCast_injective (a b : Nat) (h : fmt_d (a : Int) = fmt_d (b : Int)) : a = b := by
  rw [fmt_d_natCast, fmt_d_natCast] at h
  have := congrArg parseDigits h
  rwa [parseDigits_decimalDigits _ _ (by omega), parseDigits_decimalDigits _ _ (by omega)] at this

theorem fmt_d_natCast_no_comma (n : Nat) : ∀ c ∈ fmt_d (n : Int), c ≠ ',' := by
  rw [fmt_d_natCast]
  exact decimalDigits_no_comma _ _

theorem split_at_comma (l1 l2 r1 r2 : List Char) (h1 : ∀ c ∈ l1, c ≠ ',')
    (h2 : ∀ c ∈ l2, c ≠ ',') (h : l1 ++ ',' :: r1 = l2 ++ ',' :: r2) : l1 = l2 ∧ r1 = r2 := by
  induction l1 generalizing l2 with
  | nil =>
    cases l2 with
    | nil => simpa using h
    | cons c l2 =>
      simp at h
      exact absurd h.1.symm (h2 c (List.mem_cons_self _ _))
  | cons c l1 ih =>
    cases l2 with
    | nil =>
      simp at h
      exact absurd h.1 (h1 c (List.mem_cons_self _ _))
    | cons d l2 =>
      simp at h
      obtain ⟨hcd, hrest⟩ := h
      have := ih l2 (fun x hx => h1 x (List.mem_cons_of_mem _ hx))
        (fun x hx => h2 x (List.mem_cons_of_mem _ hx)) hrest
      exact ⟨by rw [hcd, this.1], this.2⟩

theorem sprintfVarName_inj (g p k n g1 p1 k1 n1 : Nat)
    (h : sprintfVarName g p k n = sprintfVarName g1 p1 k1 n1) :
    g = g1 ∧ p = p1 ∧ k = k1 ∧ n = n1 := by
  unfold sprintfVarName at h
  have h0 := congrArg String.data h
  simp only [List.cons_append, List.append_assoc, List.cons.injEq, true_and] at h0
  obtain ⟨e1, h1⟩ := split_at_comma _ _ _ _ (fmt_d_natCast_no_comma g)
    (fmt_d_natCast_no_comma g1) h0
  obtain ⟨e2, h2⟩ := split_at_comma _ _ _ _ (fmt_d_natCast_no_comma p)
    (fmt_d_natCast_no_comma p1) h1
  obtain ⟨e3, h3⟩ := split_at_comma _ _ _ _ (fmt_d_natCast_no_comma k)
    (fmt_d_natCast_no_comma k1) h2
  exact ⟨fmt_d_natCast_injective _ _ e1, fmt_d_natCast_injective _ _ e2,
    fmt_d_natCast_injective _ _ e3, fmt_d_natCast_injective _ _ h3⟩

/-- C8: the name `X<g>,<p>,<k>,<n>` that `getNodeVariable` gives to a 4-tuple of
non-negative integers determines the tuple, the same tuple always gets the same
variable, and the variable the decoders build from the name they format
themselves is the variable of `getNodeVariable`. -/
theorem getNodeVariable_injective (g p k n g1 p1 k1 n1 : Nat) :
    (sprintfVarName g p k n = sprintfVarName g1 p1 k1 n1 ↔
        g = g1 ∧ p = p1 ∧ k = k1 ∧ n = n1) ∧
      (getNodeVariable g p k n = getNodeVariable g1 p1 k1 n1 ↔
        g = g1 ∧ p = p1 ∧ k = k1 ∧ n = n1) ∧
      mk_bool_var (sprintfVarName g p k n) = getNodeVariable g p k n := by
  refine ⟨⟨sprintfVarName_inj g p k n g1 p1 k1 n1, ?_⟩, ⟨?_, ?_⟩, rfl⟩
  · rintro ⟨rfl, rfl, rfl, rfl⟩
    rfl
  · intro h
    unfold getNodeVariable mk_bool_var at h
    exact sprintfVarName_inj g p k n g1 p1 k1 n1 (Z3_ast.var.inj h)
  · rintro ⟨rfl, rfl, rfl, rfl⟩
    rfl

/-! ## Lemmas on the rows of the candidate table -/

theorem sentinelIndex_append (l : List Nat) (rest : List Int) :
    sentinelIndex (List.map (fun (n : Nat) => (n : Int)) l ++ rest) =
      match sentinelIndex rest with
      | .error e => .error e
      | .ok size => .ok (size + l.length) := by
  induction l with
  | nil =>
    cases h : sentinelIndex rest <;> simp [h]
  | cons n l ih =>
    have hn : ¬ ((n : Int) = -1) := by omega
    simp only [List.map_cons, List.cons_append]
    rw [sentinelIndex]
    simp only [hn, if_false]
    rw [ih]
    cases sentinelIndex rest with
    | error e => rfl
    | ok size => simp [Nat.add_assoc]

theorem sentinelIndex_encodeRow (l : List Nat) (h : l.length < MAX_ORDER_G) :
    sentinelIndex (encodeRow l) = .ok l.length := by
  unfold encodeRow
  rw [sentinelIndex_append]
  obtain ⟨m, hm⟩ : ∃ m, MAX_ORDER_G - l.length = m + 1 := ⟨MAX_ORDER_G - l.length - 1, by omega⟩
  simp [hm, List.replicate_succ, sentinelIndex]

theorem sentinelIndex_encodeRow_full (l : List Nat) (h : MAX_ORDER_G ≤ l.length) :
    sentinelIndex (encodeRow l) = .error .outOfBounds := by
  unfold encodeRow
  rw [sentinelIndex_append]
  have : MAX_ORDER_G - l.length = 0 := by omega
  simp [this, sentinelIndex]

theorem encodeRow_getElem?_lt (l : List Nat) (i : Nat) (h : i < l.length) :
    (encodeRow l)[i]? = some ((l[i] : Nat) : Int) := by
  unfold encodeRow
  rw [List.getElem?_append_left (by simpa using h)]
  simp [List.getElem?_eq_getElem h]

theorem encodeRow_getElem?_length (l : List Nat) (h : l.length < MAX_ORDER_G) :
    (encodeRow l)[l.length]? = some (-1) := by
  unfold encodeRow
  rw [List.getElem?_append_right (by simp)]
  simp only [List.length_map, Nat.sub_self]
  rw [List.getElem?_replicate]
  simp
  omega

theorem encodeRow_getElem?_full (l : List Nat) (h : MAX_ORDER_G ≤ l.length) :
    (encodeRow l)[l.length]? = none := by
  unfold encodeRow
  have : MAX_ORDER_G - l.length = 0 := by omega
  simp [this]

theorem set_append_cons {α : Type} (a b : List α) (x y : α) :
    (a ++ x :: b).set a.length y = a ++ y :: b := by
  induction a with
  | nil => rfl
  | cons c a ih => simp [ih]

theorem encodeRow_set (l : List Nat) (node : Nat) (h : l.length < MAX_ORDER_G) :
    (encodeRow l).set l.length (node : Int) = encodeRow (l ++ [node]) := by
  unfold encodeRow
  obtain ⟨m, hm⟩ : ∃ m, MAX_ORDER_G - l.length = m + 1 := ⟨MAX_ORDER_G - l.length - 1, by omega⟩
  have hm2 : MAX_ORDER_G - (l ++ [node]).length = m := by
    simp
    omega
  rw [hm, hm2, List.replicate_succ]
  have := set_append_cons (List.map (fun (n : Nat) => (n : Int)) l) (List.replicate m (-1)) (-1) (node : Int)
  simp only [List.length_map] at this
  rw [this]
  simp

theorem recordNode_encodeRow (node : Nat) (l : List Nat) (remaining i : Nat)
    (hi : i ≤ l.length) :
    recordNode node remaining i (encodeRow l) =
      if node ∈ (l.drop i).take remaining then .ok (encodeRow l, true)
      else if i + remaining ≤ l.length then .ok (encodeRow l, false)
      else if l.length < MAX_ORDER_G then .ok (encodeRow (l ++ [node]), false)
      else .error .outOfBounds := by
  induction remaining generalizing i with
  | zero => simp [recordNode, hi]
  | succ remaining ih =>
    unfold recordNode
    rcases Nat.lt_or_ge i l.length with hlt | hge
    · rw [encodeRow_getElem?_lt l i hlt]
      have hdrop : l.drop i = l[i] :: l.drop (i + 1) := List.drop_eq_getElem_cons hlt
      simp only [hdrop, List.take_succ_cons, List.mem_cons]
      by_cases hn : l[i] = node
      · simp [hn]
      · have hn1 : ¬ (((l[i] : Nat) : Int) = (node : Int)) := by
          intro h
          exact hn (by exact_mod_cast h)
        have hn2 : ¬ (((l[i] : Nat) : Int) = -1) := by omega
        have hn3 : ¬ node = l[i] := fun h => hn h.symm
        simp only [hn1, hn2, hn3, if_false, false_or]
        rw [ih (i + 1) hlt]
        have : i + 1 + remaining = i + (remaining + 1) := by omega
        rw [this]
    · have hil : i = l.length := by omega
      subst hil
      have hmem : ¬ node ∈ List.take (remaining + 1) (List.drop l.length l) := by simp
      have hle : ¬ l.length + (remaining + 1) ≤ l.length := by omega
      simp only [hmem, hle, if_false]
      by_cases hfull : l.length < MAX_ORDER_G
      · rw [encodeRow_getElem?_length l hfull]
        have h1 : ¬ ((-1 : Int) = (node : Int)) := by omega
        simp [h1, hfull, encodeRow_set l node hfull]
      · rw [encodeRow_getElem?_full l (by omega)]
        simp [hfull]

theorem encodeTable_getElem?_eq (k : Nat) (cands : Nat → List Nat) (p : Nat) :
    (encodeTable k cands)[p]? = if p ≤ k then some (encodeRow (cands p)) else none := by
  unfold encodeTable
  rw [List.getElem?_map]
  by_cases h : p ≤ k
  · rw [List.getElem?_range (by omega), if_pos h]
    rfl
  · rw [if_neg h, List.getElem?_eq_none (by simp; omega)]
    rfl

theorem encodeTable_getElem? (k : Nat) (cands : Nat → List Nat) (p : Nat) (h : p ≤ k) :
    (encodeTable k cands)[p]? = some (encodeRow (cands p)) := by
  rw [encodeTable_getElem?_eq, if_pos h]

theorem encodeTable_length (k : Nat) (cands : Nat → List Nat) :
    (encodeTable k cands).length = k + 1 := by
  simp [encodeTable]

theorem encodeTable_set (k : Nat) (cands : Nat → List Nat) (p : Nat) (l : List Nat) :
    (encodeTable k cands).set p (encodeRow l) = encodeTable k (Function.update cands p l) := by
  apply List.ext_getElem?
  intro i
  rw [List.getElem?_set, encodeTable_getElem?_eq, encodeTable_getElem?_eq, encodeTable_length]
  by_cases hp : p = i
  · subst hp
    by_cases hi : p ≤ k
    · simp [hi, Nat.lt_succ_of_le hi]
    · simp [hi]
      omega
  · simp [hp, Function.update_noteq (Ne.symm hp)]

theorem encodeTable_empty (k : Nat) :
    List.replicate (k + 1) (List.replicate MAX_ORDER_G (-1)) = encodeTable k (fun _ => []) := by
  unfold encodeTable encodeRow
  simp

theorem pushAll_eq (queue l : List fileElement_t) (hq : queue.length ≤ FILE_SIZE) :
    pushAll ⟨queue⟩ l =
      if queue.length + l.length ≤ FILE_SIZE then .ok ⟨queue ++ l⟩ else .error .exitFailure := by
  induction l generalizing queue with
  | nil => simp [pushAll, hq]
  | cons e l ih =>
    unfold pushAll push
    simp only [File_t.currentPos]
    by_cases h : queue.length < FILE_SIZE
    · simp only [h, if_true]
      rw [ih _ (by simp; omega)]
      have : (queue ++ [e]).length + l.length = queue.length + (e :: l).length := by
        simp
        omega
      rw [this]
      simp
    · simp only [h, if_false]
      have : ¬ queue.length + (e :: l).length ≤ FILE_SIZE := by
        simp only [List.length_cons]
        omega
      rw [if_neg this]

/-! ## The invariant of the pruner -/

theorem length_lt_of_not_mem (order : Nat) (l : List Nat) (node : Nat) (hnd : l.Nodup)
    (hb : ∀ n ∈ l, n < order) (hn : node < order) (hmem : node ∉ l) : l.length < order := by
  have hnd2 : (node :: l).Nodup := List.nodup_cons.mpr ⟨hmem, hnd⟩
  have hsub : (node :: l) ⊆ List.range order := by
    intro x hx
    rcases List.mem_cons.mp hx with rfl | hx
    · exact List.mem_range.mpr hn
    · exact List.mem_range.mpr (hb x hx)
  have := (List.subperm_of_subset hnd2 hsub).length_le
  simp at this
  omega

theorem length_le_of_bound (order : Nat) (l : List Nat) (hnd : l.Nodup)
    (hb : ∀ n ∈ l, n < order) : l.length ≤ order := by
  have hsub : l ⊆ List.range order := fun x hx => List.mem_range.mpr (hb x hx)
  have := (List.subperm_of_subset hnd hsub).length_le
  simpa using this

theorem mem_newElements (graph : Graph) (e x : fileElement_t) :
    x ∈ newElements graph e ↔
      x.position = e.position + 1 ∧ x.node < orderG graph ∧
        isEdge graph e.node x.node = true ∧ x.node ≠ e.node := by
  unfold newElements
  simp only [List.mem_map, List.mem_filter, List.mem_range, Bool.and_eq_true, bne_iff_ne]
  constructor
  · rintro ⟨m, ⟨hm, he, hne⟩, rfl⟩
    exact ⟨rfl, hm, he, hne⟩
  · rintro ⟨hp, hm, he, hne⟩
    refine ⟨x.node, ⟨hm, he, hne⟩, ?_⟩
    cases x
    simp at hp
    simp [hp]

theorem length_newElements_le (graph : Graph) (e : fileElement_t) :
    (newElements graph e).length ≤ orderG graph := by
  unfold newElements
  rw [List.length_map]
  calc _ ≤ (List.range (orderG graph)).length := List.length_filter_le _ _
    _ = orderG graph := List.length_range _

theorem Level_zero_eq (graph : Graph) (n : Nat) (h : Level graph 0 n) : n = getSouceNode graph := by
  cases h
  rfl

theorem PruneInv.pop_existing {graph : Graph} {cands : Nat → List Nat} {e : fileElement_t}
    {rest : List fileElement_t} (inv : PruneInv graph cands (e :: rest))
    (hmem : e.node ∈ cands e.position) : PruneInv graph cands rest where
  nodup := inv.nodup
  bound := inv.bound
  short := inv.short
  level := inv.level
  qbound := fun x hx => inv.qbound x (List.mem_cons_of_mem _ hx)
  qlevel := fun x hx => inv.qlevel x (List.mem_cons_of_mem _ hx)
  sorted := (List.pairwise_cons.mp inv.sorted).2
  near := by
    intro h hh x hx
    have h1 := inv.near e (by simp) x (List.mem_cons_of_mem _ hx)
    have h2 := (List.pairwise_cons.mp inv.sorted).1 h (List.mem_of_mem_head? hh)
    omega
  cap := by
    have := inv.cap
    simp at this
    omega
  source := by
    rcases inv.source with h | h
    · exact Or.inl h
    · rcases List.mem_cons.mp h with h | h
      · left
        rw [← h] at hmem
        exact hmem
      · exact Or.inr h
  closed := by
    intro p n hn m hm he hne
    rcases inv.closed p n hn m hm he hne with h | h
    · exact Or.inl h
    · rcases List.mem_cons.mp h with h | h
      · left
        rw [← h] at hmem
        exact hmem
      · exact Or.inr h

theorem PruneInv.pop_new {graph : Graph} {cands : Nat → List Nat} {e : fileElement_t}
    {rest : List fileElement_t} (inv : PruneInv graph cands (e :: rest))
    (hmem : e.node ∉ cands e.position) (hshort : (cands e.position).length < MAX_ORDER_G)
    (hcap : rest.length + (newElements graph e).length ≤ FILE_SIZE) :
    PruneInv graph (Function.update cands e.position (cands e.position ++ [e.node]))
      (rest ++ newElements graph e) := by
  have hsub : ∀ p n, n ∈ cands p →
      n ∈ Function.update cands e.position (cands e.position ++ [e.node]) p := by
    intro p n hn
    by_cases hp : p = e.position
    · subst hp
      simp [hn]
    · rw [Function.update_noteq hp]
      exact hn
  have hcases : ∀ p n, n ∈ Function.update cands e.position (cands e.position ++ [e.node]) p →
      n ∈ cands p ∨ (p = e.position ∧ n = e.node) := by
    intro p n hn
    by_cases hp : p = e.position
    · subst hp
      simp at hn
      rcases hn with hn | hn
      · exact Or.inl hn
      · exact Or.inr ⟨rfl, hn⟩
    · rw [Function.update_noteq hp] at hn
      exact Or.inl hn
  have he_mem : e ∈ e :: rest := List.mem_cons_self _ _
  refine
    { nodup := ?_, bound := ?_, short := ?_, level := ?_, qbound := ?_, qlevel := ?_,
      sorted := ?_, near := ?_, cap := ?_, source := ?_, closed := ?_ }
  · intro p
    by_cases hp : p = e.position
    · subst hp
      simp only [Function.update_same]
      exact List.Nodup.append (inv.nodup _) (List.nodup_singleton _) (by simpa using hmem)
    · rw [Function.update_noteq hp]
      exact inv.nodup p
  · intro p n hn
    rcases hcases p n hn with h | ⟨_, rfl⟩
    · exact inv.bound p n h
    · exact inv.qbound e he_mem
  · intro p
    by_cases hp : p = e.position
    · subst hp
      simp only [Function.update_same, List.length_append, List.length_singleton]
      omega
    · rw [Function.update_noteq hp]
      exact inv.short p
  · intro p n hn
    rcases hcases p n hn with h | ⟨rfl, rfl⟩
    · exact inv.level p n h
    · exact inv.qlevel e he_mem
  · intro x hx
    rcases List.mem_append.mp hx with hx | hx
    · exact inv.qbound x (List.mem_cons_of_mem _ hx)
    · exact ((mem_newElements graph e x).mp hx).2.1
  · intro x hx
    rcases List.mem_append.mp hx with hx | hx
    · exact inv.qlevel x (List.mem_cons_of_mem _ hx)
    · obtain ⟨hp, hm, hedge, hne⟩ := (mem_newElements graph e x).mp hx
      rw [hp]
      exact Level.step (inv.qlevel e he_mem) hm hedge hne
  · rw [List.pairwise_append]
    refine ⟨(List.pairwise_cons.mp inv.sorted).2, ?_, ?_⟩
    · apply List.pairwise_of_forall_mem_list
      intro a ha b hb
      have h1 := ((mem_newElements graph e a).mp ha).1
      have h2 := ((mem_newElements graph e b).mp hb).1
      omega
    · intro a ha b hb
      have h1 := inv.near e (by simp) a (List.mem_cons_of_mem _ ha)
      have h2 := ((mem_newElements graph e b).mp hb).1
      omega
  · intro h hh x hx
    have hpos : e.position ≤ h.position := by
      rcases List.mem_append.mp (List.mem_of_mem_head? hh) with h1 | h1
      · exact (List.pairwise_cons.mp inv.sorted).1 h h1
      · have := ((mem_newElements graph e h).mp h1).1
        omega
    rcases List.mem_append.mp hx with hx | hx
    · have h1 := inv.near e (by simp) x (List.mem_cons_of_mem _ hx)
      omega
    · have := ((mem_newElements graph e x).mp hx).1
      omega
  · simpa using hcap
  · rcases inv.source with h | h
    · exact Or.inl (hsub 0 _ h)
    · rcases List.mem_cons.mp h with h | h
      · left
        have h0 : e.position = 0 := by rw [← h]
        have h1 : e.node = getSouceNode graph := by rw [← h]
        rw [← h0, ← h1]
        simp
      · exact Or.inr (List.mem_append_left _ h)
  · intro p n hn m hm hedge hne
    rcases hcases p n hn with h | ⟨rfl, rfl⟩
    · rcases inv.closed p n h m hm hedge hne with h | h
      · exact Or.inl (hsub _ _ h)
      · rcases List.mem_cons.mp h with h | h
        · left
          have h0 : e.position = p + 1 := by rw [← h]
          have h1 : e.node = m := by rw [← h]
          rw [← h0, ← h1]
          simp
        · exact Or.inr (List.mem_append_left _ h)
    · right
      apply List.mem_append_right
      exact (mem_newElements graph e ⟨m, e.position + 1⟩).mpr ⟨rfl, hm, hedge, hne⟩

theorem PruneInv.initial (graph : Graph) (hs : getSouceNode graph < orderG graph) :
    PruneInv graph (fun _ => []) [⟨getSouceNode graph, 0⟩] where
  nodup := fun _ => List.nodup_nil
  bound := by simp
  short := by simp
  level := by simp
  qbound := by simpa using hs
  qlevel := by
    intro e he
    simp at he
    subst he
    exact Level.zero
  sorted := by simp
  near := by simp
  cap := by simp [FILE_SIZE]
  source := Or.inr (by simp)
  closed := by simp

theorem PruneInv.final {graph : Graph} {cands : Nat → List Nat} {queue : List fileElement_t}
    (k : Nat) (inv : PruneInv graph cands queue)
    (hq : ∀ e ∈ queue.head?, k < e.position) : GoodTable graph k cands := by
  have hall : ∀ x ∈ queue, k < x.position := by
    intro x hx
    cases queue with
    | nil => simp at hx
    | cons e rest =>
      have h1 := hq e (by simp)
      rcases List.mem_cons.mp hx with rfl | hx
      · exact h1
      · have := (List.pairwise_cons.mp inv.sorted).1 x hx
        omega
  refine { nodup := inv.nodup, bound := inv.bound, short := inv.short, source := ?_, closed := ?_ }
  · rcases inv.source with h | h
    · exact h
    · have := hall _ h
      simp at this
  · intro p hp n hn m hm hedge hne
    rcases inv.closed p n hn m hm hedge hne with h | h
    · exact h
    · have := hall _ h
      simp at this
      omega

theorem freeSlots_le (graph : Graph) (k : Nat) (cands : Nat → List Nat) :
    freeSlots graph k cands ≤ (k + 1) * orderG graph := by
  unfold freeSlots
  calc _ ≤ (Finset.range (k + 1) ×ˢ Finset.range (orderG graph)).card := Finset.card_filter_le _ _
    _ = (k + 1) * orderG graph := by simp

theorem freeSlots_update_lt (graph : Graph) (k : Nat) (cands : Nat → List Nat) (p node : Nat)
    (hp : p ≤ k) (hn : node < orderG graph) (hmem : node ∉ cands p) :
    freeSlots graph k (Function.update cands p (cands p ++ [node])) < freeSlots graph k cands := by
  unfold freeSlots
  apply Finset.card_lt_card
  rw [Finset.ssubset_iff_of_subset]
  · refine ⟨(p, node), ?_, ?_⟩
    · simp [hmem, hn]
      omega
    · simp
  · intro x hx
    simp only [Finset.mem_filter] at hx ⊢
    refine ⟨hx.1, ?_⟩
    intro h
    apply hx.2
    by_cases hxp : x.1 = p
    · rw [hxp]
      simp
      left
      rw [← hxp]
      exact h
    · rw [Function.update_noteq hxp]
      exact h

/-- The loop of the pruner never runs out of the fuel it is given, and a table it
returns is a good table of candidates whose nodes are reachable. -/
theorem pruneLoop_spec (graph : Graph) (k : Nat) (fuel : Nat) (cands : Nat → List Nat)
    (queue : List fileElement_t) (inv : PruneInv graph cands queue)
    (hfuel : queue.length + orderG graph * freeSlots graph k cands < fuel) :
    pruneLoop graph k fuel (encodeTable k cands) ⟨queue⟩ ≠ .error .outOfFuel ∧
      ∀ table, pruneLoop graph k fuel (encodeTable k cands) ⟨queue⟩ = .ok table →
        ∃ cands1, table = encodeTable k cands1 ∧ GoodTable graph k cands1 ∧
          ∀ p, ∀ n ∈ cands1 p, Level graph p n := by
  induction fuel generalizing cands queue with
  | zero => omega
  | succ fuel ih =>
    cases queue with
    | nil =>
      simp only [pruneLoop, isEmpty, File_t.currentPos, List.length_nil, beq_self_eq_true, if_true]
      refine ⟨by simp, ?_⟩
      intro table ht
      cases ht
      exact ⟨cands, rfl, inv.final k (by simp), inv.level⟩
    | cons e rest =>
      have hne : isEmpty ⟨e :: rest⟩ = false := by simp [isEmpty, File_t.currentPos]
      simp only [pruneLoop, hne, top, Bool.false_eq_true, if_false]
      by_cases hpos : e.position > k
      · simp only [hpos, if_true]
        refine ⟨by simp, ?_⟩
        intro table ht
        cases ht
        exact ⟨cands, rfl, inv.final k (by simpa using hpos), inv.level⟩
      · simp only [hpos, if_false]
        have hpk : e.position ≤ k := by omega
        rw [encodeTable_getElem? k cands e.position hpk]
        simp only []
        rw [recordNode_encodeRow e.node (cands e.position) (orderG graph) 0 (Nat.zero_le _)]
        have hlen := length_le_of_bound (orderG graph) (cands e.position) (inv.nodup _)
          (inv.bound _)
        have hnode := inv.qbound e (List.mem_cons_self _ _)
        simp only [List.drop_zero, Nat.zero_add, List.take_of_length_le hlen]
        by_cases hmem : e.node ∈ cands e.position
        · simp only [hmem, if_true, pull]
          rw [encodeTable_set, Function.update_eq_self]
          have hlen2 : (e :: rest).length = rest.length + 1 := by simp
          exact ih cands rest (inv.pop_existing hmem) (by omega)
        · have hlt := length_lt_of_not_mem (orderG graph) (cands e.position) e.node
            (inv.nodup _) (inv.bound _) hnode hmem
          have hnle : ¬ orderG graph ≤ (cands e.position).length := by omega
          simp only [hmem, hnle, if_false]
          by_cases hshort : (cands e.position).length < MAX_ORDER_G
          · simp only [hshort, if_true, Bool.false_eq_true, if_false]
            rw [pushAll_eq _ _ inv.cap]
            by_cases hcap : (e :: rest).length + (newElements graph e).length ≤ FILE_SIZE
            · simp only [hcap, if_true, pull, List.cons_append]
              rw [encodeTable_set]
              have hcap2 : rest.length + (newElements graph e).length ≤ FILE_SIZE := by
                simp at hcap
                omega
              apply ih _ _ (inv.pop_new hmem hshort hcap2)
              have h1 := freeSlots_update_lt graph k cands e.position e.node hpk hnode hmem
              have h2 := length_newElements_le graph e
              have h3 : orderG graph *
                  freeSlots graph k (Function.update cands e.position
                    (cands e.position ++ [e.node])) + orderG graph ≤
                  orderG graph * freeSlots graph k cands := by
                calc _ = orderG graph * (freeSlots graph k (Function.update cands e.position
                    (cands e.position ++ [e.node])) + 1) := by ring
                  _ ≤ _ := Nat.mul_le_mul_left _ h1
              simp only [List.length_cons, List.length_append] at hfuel ⊢
              omega
            · rw [if_neg hcap]
              simp
          · simp [hshort]

theorem prunedTable_spec (graph : Graph) (k : Nat) (hs : getSouceNode graph < orderG graph) :
    prunedTable graph k ≠ .error .outOfFuel ∧
      ∀ table, prunedTable graph k = .ok table →
        ∃ cands, table = encodeTable k cands ∧ GoodTable graph k cands ∧
          ∀ p, ∀ n ∈ cands p, Level graph p n := by
  unfold prunedTable push
  simp only [File_t.currentPos, List.length_nil, List.nil_append]
  have h0 : (0 : Nat) < FILE_SIZE := by decide
  simp only [h0, if_true]
  rw [encodeTable_empty]
  apply pruneLoop_spec graph k _ _ _ (PruneInv.initial graph hs)
  have := freeSlots_le graph k (fun _ => [])
  have h2 : orderG graph * freeSlots graph k (fun _ => []) ≤
      (k + 1) * orderG graph * orderG graph := by
    calc _ ≤ orderG graph * ((k + 1) * orderG graph) := Nat.mul_le_mul_left _ this
      _ = _ := by ring
  simp only [pruneFuel, List.length_singleton]
  omega

/-! ## The meaning of the formulas built over a table -/

theorem eval_var (v : Z3_model) (number k p n : Nat) :
    (getNodeVariable number p k n).eval v = holds v number k p n := by
  simp [eval_getNodeVariable, holds]

theorem eval_var_zero (v : Z3_model) (number k n : Nat) :
    (getNodeVariable number 0 k n).eval v = holds v number k 0 n := by
  simp [eval_getNodeVariable, holds]

theorem eval_var_succ (v : Z3_model) (number k p n : Nat) :
    (getNodeVariable number ((p : Int) + 1) k n).eval v = holds v number k (p + 1) n := by
  simp [eval_getNodeVariable, holds]

theorem length_filter_ne (n a : Nat) (h : a < n) :
    ((List.range n).filter (fun j => j != a)).length = n - 1 := by
  rw [← (List.nodup_range n).erase_eq_filter a, List.length_erase_of_mem (List.mem_range.mpr h)]
  simp

theorem length_filter_ne_flip (n a : Nat) (h : a < n) :
    ((List.range n).filter (fun j => a != j)).length = n - 1 := by
  rw [← length_filter_ne n a h]
  congr 1
  apply List.filter_congr
  intro x _
  simp [bne, eq_comm]

theorem nodeTabAt_encodeTable (k : Nat) (cands : Nat → List Nat) (p i : Nat) (hp : p ≤ k)
    (hi : i < (cands p).length) :
    nodeTabAt (encodeTable k cands) p i = (((cands p)[i] : Nat) : Int) := by
  unfold nodeTabAt
  simp only [List.getD_eq_getElem?_getD, encodeTable_getElem? k cands p hp, Option.getD_some,
    encodeRow_getElem?_lt _ _ hi]

theorem rowSize_encodeTable (k : Nat) (cands : Nat → List Nat) (p : Nat) (hp : p ≤ k)
    (hshort : (cands p).length < MAX_ORDER_G) :
    rowSize (encodeTable k cands) p = .ok (cands p).length := by
  unfold rowSize
  rw [encodeTable_getElem? k cands p hp]
  exact sentinelIndex_encodeRow _ hshort

theorem rowSize_encodeTable_full (k : Nat) (cands : Nat → List Nat) (p : Nat) (hp : p ≤ k)
    (hfull : MAX_ORDER_G ≤ (cands p).length) :
    rowSize (encodeTable k cands) p = .error .outOfBounds := by
  unfold rowSize
  rw [encodeTable_getElem? k cands p hp]
  exact sentinelIndex_encodeRow_full _ hfull

theorem fillArray_exists {α : Type} (body : Nat → Except Fault α) (P : Nat → α → Prop)
    (l : List Nat) (h : ∀ i ∈ l, ∃ a, body i = .ok a ∧ P i a) :
    ∃ r, fillArray body l = .ok r ∧ List.Forall₂ P l r := by
  induction l with
  | nil => exact ⟨[], rfl, List.Forall₂.nil⟩
  | cons i rest ih =>
    obtain ⟨a, ha, hPa⟩ := h i (List.mem_cons_self _ _)
    obtain ⟨r, hr, hPr⟩ := ih (fun j hj => h j (List.mem_cons_of_mem _ hj))
    exact ⟨a :: r, by simp [fillArray, ha, hr], List.Forall₂.cons hPa hPr⟩

theorem forall₂_all (v : Z3_model) (Q : Nat → Prop) (l : List Nat) (r : List Z3_ast)
    (h : List.Forall₂ (fun i a => (a.eval v = true ↔ Q i)) l r) :
    (∀ a ∈ r, a.eval v = true) ↔ ∀ i ∈ l, Q i := by
  induction h with
  | nil => simp
  | cons h1 _ ih => simp [ih, h1]

theorem forall₂_any (v : Z3_model) (Q : Nat → Prop) (l : List Nat) (r : List Z3_ast)
    (h : List.Forall₂ (fun i a => (a.eval v = true ↔ Q i)) l r) :
    (∃ a ∈ r, a.eval v = true) ↔ ∃ i ∈ l, Q i := by
  induction h with
  | nil => simp
  | cons h1 _ ih => simp [ih, h1]

theorem makeValidFormula_spec (graph : Graph) (number k : Nat)
    (ht : getTargetNode graph < orderG graph) :
    ∃ f, makeValidFormula graph number k = .ok f ∧
      ∀ v, f.eval v = true ↔ ValidHolds graph v number k := by
  unfold makeValidFormula
  simp only []
  rw [Z3_mk_and_length]
  · refine ⟨_, rfl, ?_⟩
    intro v
    rw [eval_and_iff]
    simp only [List.cons_append, List.nil_append, List.mem_cons, List.mem_map, List.mem_filter,
      List.mem_range, bne_iff_ne, forall_eq_or_imp, ValidHolds, eval_var, eval_var_zero]
    constructor
    · rintro ⟨h1, h2, h3⟩
      refine ⟨h1, h2, ?_⟩
      intro n hn hne
      have := h3 _ ⟨n, ⟨hn, hne⟩, rfl⟩
      rwa [eval_not_iff, eval_var] at this
    · rintro ⟨h1, h2, h3⟩
      refine ⟨h1, h2, ?_⟩
      rintro f ⟨n, ⟨hn, hne⟩, rfl⟩
      rw [eval_not_iff, eval_var]
      exact h3 n hn hne
  · simp only [List.cons_append, List.nil_append, List.length_cons, List.length_map]
    rw [length_filter_ne _ _ ht]
    omega

theorem simpleConjunction_spec (number k : Nat) (cands : Nat → List Nat) (p i : Nat)
    (hp : p ≤ k) (hi : i < (cands p).length) (hnd : (cands p).Nodup) :
    ∃ f, simpleConjunction number k (encodeTable k cands) p (cands p).length i = .ok f ∧
      ∀ v, f.eval v = true ↔
        (holds v number k p (cands p)[i] = true ∧
          (∀ m ∈ cands p, m ≠ (cands p)[i] → holds v number k p m = false) ∧
          ∀ q, q ≤ k → q ≠ p → holds v number k q (cands p)[i] = false) := by
  unfold simpleConjunction
  simp only []
  rw [Z3_mk_and_length]
  · refine ⟨_, rfl, ?_⟩
    intro v
    rw [eval_and_iff]
    simp only [List.cons_append, List.nil_append, List.mem_cons, List.mem_append, List.mem_map,
      List.mem_filter, List.mem_range, bne_iff_ne, forall_eq_or_imp,
      nodeTabAt_encodeTable k cands p i hp hi, eval_var]
    constructor
    · rintro ⟨h1, h2⟩
      refine ⟨h1, ?_, ?_⟩
      · intro m hm hne
        obtain ⟨j, hj, rfl⟩ := List.getElem_of_mem hm
        have hij : i ≠ j := by
          rintro rfl
          exact hne rfl
        have := h2 _ (Or.inl ⟨j, ⟨hj, hij⟩, rfl⟩)
        rwa [eval_not_iff, nodeTabAt_encodeTable k cands p j hp hj, eval_var] at this
      · intro q hq hne
        have := h2 _ (Or.inr ⟨q, ⟨by omega, hne⟩, rfl⟩)
        rwa [eval_not_iff, eval_var] at this
    · rintro ⟨h1, h2, h3⟩
      refine ⟨h1, ?_⟩
      rintro f (⟨j, ⟨hj, hij⟩, rfl⟩ | ⟨q, ⟨hq, hne⟩, rfl⟩)
      · rw [eval_not_iff, nodeTabAt_encodeTable k cands p j hp hj, eval_var]
        apply h2 _ (List.getElem_mem _)
        intro h
        exact hij ((hnd.getElem_inj_iff).mp h).symm
      · rw [eval_not_iff, eval_var]
        exact h3 q (by omega) hne
  · simp only [List.cons_append, List.nil_append, List.length_cons, List.length_append,
      List.length_map]
    rw [length_filter_ne_flip _ _ hi, length_filter_ne _ _ (by omega : p < k + 1)]
    omega

theorem simplePosition_spec (number k : Nat) (cands : Nat → List Nat) (p : Nat)
    (hp : p ≤ k) (hshort : (cands p).length < MAX_ORDER_G) (hnd : (cands p).Nodup) :
    ∃ f, simplePosition number k (encodeTable k cands) p = .ok f ∧
      ∀ v, f.eval v = true ↔
        ∃ n ∈ cands p, holds v number k p n = true ∧
          (∀ m ∈ cands p, m ≠ n → holds v number k p m = false) ∧
          ∀ q, q ≤ k → q ≠ p → holds v number k q n = false := by
  unfold simplePosition
  rw [rowSize_encodeTable k cands p hp hshort]
  simp only []
  obtain ⟨r, hr, hP⟩ := fillArray_exists
    (simpleConjunction number k (encodeTable k cands) p (cands p).length)
    (fun i f => ∀ v, f.eval v = true ↔
      ∃ h : i < (cands p).length,
        (holds v number k p (cands p)[i] = true ∧
          (∀ m ∈ cands p, m ≠ (cands p)[i] → holds v number k p m = false) ∧
          ∀ q, q ≤ k → q ≠ p → holds v number k q (cands p)[i] = false))
    (List.range (cands p).length)
    (by
      intro i hi
      have hi2 := List.mem_range.mp hi
      obtain ⟨f, hf, hs⟩ := simpleConjunction_spec number k cands p i hp hi2 hnd
      exact ⟨f, hf, fun v => by rw [hs v]; simp [hi2]⟩)
  rw [hr]
  simp only []
  have hlen : r.length = (cands p).length := by
    have := hP.length_eq
    simpa using this.symm
  have key : ∀ v, (∃ a ∈ r, a.eval v = true) ↔
      ∃ n ∈ cands p, holds v number k p n = true ∧
        (∀ m ∈ cands p, m ≠ n → holds v number k p m = false) ∧
        ∀ q, q ≤ k → q ≠ p → holds v number k q n = false := by
    intro v
    rw [forall₂_any v _ _ r (hP.imp (fun i a h => h v))]
    constructor
    · rintro ⟨i, _, hi, h⟩
      exact ⟨_, List.getElem_mem _, h⟩
    · rintro ⟨n, hn, h⟩
      obtain ⟨i, hi, rfl⟩ := List.getElem_of_mem hn
      exact ⟨i, List.mem_range.mpr hi, hi, h⟩
  by_cases h1 : (cands p).length = 1
  · have hne : ((cands p).length != 1) = false := by simp [h1]
    simp only [hne, Bool.false_eq_true, if_false]
    obtain ⟨a, rfl⟩ : ∃ a, r = [a] := List.length_eq_one.mp (by omega)
    refine ⟨a, by simp, ?_⟩
    intro v
    rw [← key v]
    simp
  · have hne : ((cands p).length != 1) = true := by simp [h1]
    simp only [hne, if_true]
    rw [Z3_mk_or_length _ _ hlen.symm]
    refine ⟨_, rfl, ?_⟩
    intro v
    rw [eval_or_iff, key v]

theorem makeSimpleFormula_spec (number k : Nat) (cands : Nat → List Nat)
    (hshort : ∀ p, p ≤ k → (cands p).length < MAX_ORDER_G) (hnd : ∀ p, (cands p).Nodup) :
    ∃ f, makeSimpleFormula number k (encodeTable k cands) = .ok f ∧
      ∀ v, f.eval v = true ↔ SimpleHolds cands v number k := by
  unfold makeSimpleFormula
  obtain ⟨r, hr, hP⟩ := fillArray_exists
    (simplePosition number k (encodeTable k cands))
    (fun p f => ∀ v, f.eval v = true ↔
      (p ≤ k → ∃ n ∈ cands p, holds v number k p n = true ∧
          (∀ m ∈ cands p, m ≠ n → holds v number k p m = false) ∧
          ∀ q, q ≤ k → q ≠ p → holds v number k q n = false))
    (List.range (k + 1))
    (by
      intro p hp
      have hp2 : p ≤ k := by
        have := List.mem_range.mp hp
        omega
      obtain ⟨f, hf, hs⟩ := simplePosition_spec number k cands p hp2 (hshort p hp2) (hnd p)
      exact ⟨f, hf, fun v => by rw [hs v]; simp [hp2]⟩)
  rw [hr]
  simp only []
  have hlen : r.length = k + 1 := by
    have := hP.length_eq
    simpa using this.symm
  rw [Z3_mk_and_length _ _ hlen.symm]
  refine ⟨_, rfl, ?_⟩
  intro v
  rw [eval_and_iff, forall₂_all v _ _ r (hP.imp (fun i a h => h v))]
  unfold SimpleHolds
  constructor
  · intro h p hp
    exact h p (List.mem_range.mpr (by omega)) hp
  · intro h p _ hp
    exact h p hp

theorem pathClause_spec (graph : Graph) (number k : Nat) (cands : Nat → List Nat) (p i : Nat)
    (hp : p ≤ k) (hi : i < (cands p).length) :
    ∃ f, pathClause graph number k (encodeTable k cands) p i = .ok f ∧
      ∀ v, f.eval v = true ↔
        (holds v number k p (cands p)[i] = false ∨
          ∃ m, m < orderG graph ∧ isEdge graph (cands p)[i] m = true ∧
            holds v number k (p + 1) m = true) := by
  unfold pathClause
  simp only []
  rw [Z3_mk_or_length]
  · refine ⟨_, rfl, ?_⟩
    intro v
    rw [eval_or_iff]
    simp only [List.cons_append, List.nil_append, List.mem_cons, List.mem_map, List.mem_filter,
      List.mem_range, nodeTabAt_encodeTable k cands p i hp hi, Int.toNat_ofNat, exists_eq_or_imp,
      eval_not_iff, eval_var]
    constructor
    · rintro (h | ⟨f, ⟨m, ⟨hm, he⟩, rfl⟩, hf⟩)
      · exact Or.inl h
      · rw [eval_var_succ] at hf
        exact Or.inr ⟨m, hm, he, hf⟩
    · rintro (h | ⟨m, hm, he, hf⟩)
      · exact Or.inl h
      · exact Or.inr ⟨_, ⟨m, ⟨hm, he⟩, rfl⟩, by rw [eval_var_succ]; exact hf⟩
  · simp

theorem pathPosition_spec (graph : Graph) (number k : Nat) (cands : Nat → List Nat) (p : Nat)
    (hp : p ≤ k) (hshort : (cands p).length < MAX_ORDER_G) :
    ∃ f, pathPosition graph number k (encodeTable k cands) p = .ok f ∧
      ∀ v, f.eval v = true ↔
        ∀ n ∈ cands p, holds v number k p n = false ∨
          ∃ m, m < orderG graph ∧ isEdge graph n m = true ∧
            holds v number k (p + 1) m = true := by
  unfold pathPosition
  rw [rowSize_encodeTable k cands p hp hshort]
  simp only []
  obtain ⟨r, hr, hP⟩ := fillArray_exists
    (pathClause graph number k (encodeTable k cands) p)
    (fun i f => ∀ v, f.eval v = true ↔
      ∀ h : i < (cands p).length,
        (holds v number k p (cands p)[i] = false ∨
          ∃ m, m < orderG graph ∧ isEdge graph (cands p)[i] m = true ∧
            holds v number k (p + 1) m = true))
    (List.range (cands p).length)
    (by
      intro i hi
      have hi2 := List.mem_range.mp hi
      obtain ⟨f, hf, hs⟩ := pathClause_spec graph number k cands p i hp hi2
      exact ⟨f, hf, fun v => by rw [hs v]; simp [hi2]⟩)
  rw [hr]
  simp only []
  have hlen : r.length = (cands p).length := by
    have := hP.length_eq
    simpa using this.symm
  rw [Z3_mk_and_length _ _ hlen.symm]
  refine ⟨_, rfl, ?_⟩
  intro v
  rw [eval_and_iff, forall₂_all v _ _ r (hP.imp (fun i a h => h v))]
  constructor
  · intro h n hn
    obtain ⟨i, hi, rfl⟩ := List.getElem_of_mem hn
    exact h i (List.mem_range.mpr hi) hi
  · intro h i _ hi
    exact h _ (List.getElem_mem _)

theorem makePathFormula_spec (graph : Graph) (number k : Nat) (cands : Nat → List Nat)
    (hshort : ∀ p, p ≤ k → (cands p).length < MAX_ORDER_G) :
    ∃ f, makePathFormula graph number k (encodeTable k cands) = .ok f ∧
      ∀ v, f.eval v = true ↔ PathHolds graph cands v number k := by
  unfold makePathFormula
  obtain ⟨r, hr, hP⟩ := fillArray_exists
    (pathPosition graph number k (encodeTable k cands))
    (fun p f => ∀ v, f.eval v = true ↔
      ∀ n ∈ cands p, holds v number k p n = false ∨
        ∃ m, m < orderG graph ∧ isEdge graph n m = true ∧
          holds v number k (p + 1) m = true)
    (List.range k)
    (by
      intro p hp
      have hp2 : p ≤ k := by
        have := List.mem_range.mp hp
        omega
      exact pathPosition_spec graph number k cands p hp2 (hshort p hp2))
  rw [hr]
  simp only []
  have hlen : r.length = k := by
    have := hP.length_eq
    simpa using this.symm
  rw [Z3_mk_and_length _ _ hlen.symm]
  refine ⟨_, rfl, ?_⟩
  intro v
  rw [eval_and_iff, forall₂_all v _ _ r (hP.imp (fun i a h => h v))]
  unfold PathHolds
  simp [List.mem_range]

/-- The builders succeed on a table whose rows keep their sentinel, and the formula
means validity, exclusivity and adjacency over the candidates of the table. -/
theorem makeFormulaFromTable_spec (graph : Graph) (number k : Nat) (cands : Nat → List Nat)
    (ht : getTargetNode graph < orderG graph)
    (hshort : ∀ p, p ≤ k → (cands p).length < MAX_ORDER_G) (hnd : ∀ p, (cands p).Nodup) :
    ∃ f, makeFormulaFromTable graph number k (encodeTable k cands) = .ok f ∧
      ∀ v, f.eval v = true ↔
        (ValidHolds graph v number k ∧ SimpleHolds cands v number k ∧
          PathHolds graph cands v number k) := by
  obtain ⟨f1, h1, s1⟩ := makeValidFormula_spec graph number k ht
  obtain ⟨f2, h2, s2⟩ := makeSimpleFormula_spec number k cands hshort hnd
  obtain ⟨f3, h3, s3⟩ := makePathFormula_spec graph number k cands hshort
  refine ⟨makeAnd f3 (makeAnd f1 f2), by simp [makeFormulaFromTable, h1, h2, h3], ?_⟩
  intro v
  simp only [makeAnd, eval_and_iff, List.mem_cons, List.mem_singleton, forall_eq_or_imp,
    forall_eq, List.not_mem_nil, s1 v, s2 v, s3 v]
  tauto

theorem fillArray_ok_mem {α : Type} (body : Nat → Except Fault α) (l : List Nat) (r : List α)
    (h : fillArray body l = .ok r) : ∀ i ∈ l, ∃ a, body i = .ok a := by
  have hall := fillArray_inv body l r h
  clear h
  induction hall with
  | nil => simp
  | cons h1 _ ih =>
    intro i hi
    rcases List.mem_cons.mp hi with rfl | hi
    · exact ⟨_, h1⟩
    · exact ih i hi

/-- A table with a row of `MAX_ORDER_G` candidates has no sentinel in that row and
the builders read past it. -/
theorem makeFormulaFromTable_full (graph : Graph) (number k : Nat) (cands : Nat → List Nat)
    (p : Nat) (hp : p ≤ k) (hfull : MAX_ORDER_G ≤ (cands p).length) (f : Z3_ast) :
    makeFormulaFromTable graph number k (encodeTable k cands) ≠ .ok f := by
  intro h
  unfold makeFormulaFromTable at h
  cases h1 : makeValidFormula graph number k with
  | error e => simp [h1] at h
  | ok f1 =>
    cases h2 : makeSimpleFormula number k (encodeTable k cands) with
    | error e => simp [h1, h2] at h
    | ok f2 =>
      unfold makeSimpleFormula at h2
      cases h3 : fillArray (simplePosition number k (encodeTable k cands))
          (List.range (k + 1)) with
      | error e => simp [h3] at h2
      | ok r =>
        obtain ⟨a, ha⟩ := fillArray_ok_mem _ _ _ h3 p (List.mem_range.mpr (by omega))
        unfold simplePosition at ha
        rw [rowSize_encodeTable_full k cands p hp hfull] at ha
        simp at ha

/-! ## From a model to a path and back -/

theorem makeFormulaFromTable_meaning (graph : Graph) (number k : Nat) (cands : Nat → List Nat)
    (f : Z3_ast) (ht : getTargetNode graph < orderG graph) (good : GoodTable graph k cands)
    (h : makeFormulaFromTable graph number k (encodeTable k cands) = .ok f) :
    (∀ p, p ≤ k → (cands p).length < MAX_ORDER_G) ∧
      ∀ v, f.eval v = true ↔
        (ValidHolds graph v number k ∧ SimpleHolds cands v number k ∧
          PathHolds graph cands v number k) := by
  have hshort : ∀ p, p ≤ k → (cands p).length < MAX_ORDER_G := by
    intro p hp
    by_contra hfull
    exact makeFormulaFromTable_full graph number k cands p hp (by omega) f h
  obtain ⟨f1, h1, s1⟩ := makeFormulaFromTable_spec graph number k cands ht hshort good.nodup
  rw [h] at h1
  cases h1
  exact ⟨hshort, s1⟩

theorem isSimplePath_of_fun (graph : Graph) (k : Nat) (c : Nat → Nat)
    (h0 : c 0 = getSouceNode graph) (hk : c k = getTargetNode graph)
    (hedge : ∀ p, p < k → isEdge graph (c p) (c (p + 1)) = true)
    (hinj : ∀ p q, p ≤ k → q ≤ k → c p = c q → p = q)
    (hb : ∀ p, p ≤ k → c p < orderG graph) :
    IsSimplePath graph k ((List.range (k + 1)).map c) := by
  refine ⟨by simp, ?_, ?_, ?_, ?_, ?_⟩
  · apply List.Nodup.map_on _ (List.nodup_range _)
    intro p hp q hq h
    rw [List.mem_range] at hp hq
    exact hinj p q (by omega) (by omega) h
  · intro n hn
    obtain ⟨p, hp, rfl⟩ := List.mem_map.mp hn
    rw [List.mem_range] at hp
    exact hb p (by omega)
  · rw [List.range_succ_eq_map]
    simp [h0]
  · rw [List.range_succ]
    simp [hk]
  · rw [List.chain'_map, List.chain'_range_succ]
    exact hedge

theorem getD_map_range (k : Nat) (c : Nat → Nat) (p : Nat) (hp : p ≤ k) :
    ((List.range (k + 1)).map c).getD p 0 = c p := by
  rw [List.getD_eq_getElem?_getD, List.getElem?_map, List.getElem?_range (by omega)]
  rfl

theorem IsSimplePath.to_fun {graph : Graph} {k : Nat} {path : List Nat}
    (h : IsSimplePath graph k path) :
    path.getD 0 0 = getSouceNode graph ∧ path.getD k 0 = getTargetNode graph ∧
      (∀ p, p < k → isEdge graph (path.getD p 0) (path.getD (p + 1) 0) = true) ∧
      (∀ p q, p ≤ k → q ≤ k → path.getD p 0 = path.getD q 0 → p = q) ∧
      ∀ p, p ≤ k → path.getD p 0 < orderG graph := by
  obtain ⟨hlen, hnd, hb, hhead, hlast, hchain⟩ := h
  have hget : ∀ p, (hp : p ≤ k) → path.getD p 0 = path[p] := by
    intro p hp
    rw [List.getD_eq_getElem?_getD, List.getElem?_eq_getElem (by omega)]
    rfl
  refine ⟨?_, ?_, ?_, ?_, ?_⟩
  · rw [List.head?_eq_getElem?] at hhead
    rw [List.getD_eq_getElem?_getD, hhead]
    rfl
  · rw [List.getLast?_eq_getElem?, hlen] at hlast
    simp only [Nat.add_sub_cancel] at hlast
    rw [List.getD_eq_getElem?_getD, hlast]
    rfl
  · intro p hp
    rw [hget p (by omega), hget (p + 1) (by omega)]
    have := List.chain'_iff_get.mp hchain p (by omega)
    simpa using this
  · intro p q hp hq h
    rw [hget p hp, hget q hq] at h
    exact (hnd.getElem_inj_iff).mp h
  · intro p hp
    rw [hget p hp]
    exact hb _ (List.getElem_mem _)

/-- A model of the three sub-formulas over a good table reads as a simple path:
at every position exactly one candidate is true, and these candidates form a
simple path from the source to the target. -/
theorem path_of_model (graph : Graph) (number k : Nat) (cands : Nat → List Nat) (v : Z3_model)
    (good : GoodTable graph k cands) (hV : ValidHolds graph v number k)
    (hS : SimpleHolds cands v number k) (hP : PathHolds graph cands v number k) :
    ∃ path, IsSimplePath graph k path ∧
      ∀ p, p ≤ k → path.getD p 0 ∈ cands p ∧ holds v number k p (path.getD p 0) = true ∧
        (∀ m ∈ cands p, holds v number k p m = true → m = path.getD p 0) ∧
        ∀ q, q ≤ k → q ≠ p → holds v number k q (path.getD p 0) = false := by
  classical
  let c : Nat → Nat := fun p => if h : p ≤ k then Classical.choose (hS p h) else 0
  have hc : ∀ p, p ≤ k → c p ∈ cands p ∧ holds v number k p (c p) = true ∧
      (∀ m ∈ cands p, m ≠ c p → holds v number k p m = false) ∧
      ∀ q, q ≤ k → q ≠ p → holds v number k q (c p) = false := by
    intro p hp
    have := Classical.choose_spec (hS p hp)
    simp only [c, hp, dif_pos]
    exact this
  have huniq : ∀ p, p ≤ k → ∀ m ∈ cands p, holds v number k p m = true → m = c p := by
    intro p hp m hm hh
    by_contra hne
    have := (hc p hp).2.2.1 m hm hne
    rw [hh] at this
    cases this
  have h0 : c 0 = getSouceNode graph :=
    (huniq 0 (Nat.zero_le _) _ good.source hV.1).symm
  have hk : c k = getTargetNode graph := by
    by_contra hne
    have := hV.2.2 (c k) (good.bound k _ (hc k (le_refl _)).1) hne
    rw [(hc k (le_refl _)).2.1] at this
    cases this
  have hedge : ∀ p, p < k → isEdge graph (c p) (c (p + 1)) = true := by
    intro p hp
    rcases hP p hp (c p) (hc p (by omega)).1 with h | ⟨m, hm, he, hh⟩
    · rw [(hc p (by omega)).2.1] at h
      cases h
    · have hne : m ≠ c p := by
        rintro rfl
        have := (hc p (by omega)).2.2.2 (p + 1) (by omega) (by omega)
        rw [hh] at this
        cases this
      have hmem := good.closed p hp (c p) (hc p (by omega)).1 m hm he hne
      rw [← huniq (p + 1) (by omega) m hmem hh]
      exact he
  have hinj : ∀ p q, p ≤ k → q ≤ k → c p = c q → p = q := by
    intro p q hp hq h
    by_contra hne
    have := (hc p hp).2.2.2 q hq (fun h => hne h.symm)
    rw [h, (hc q hq).2.1] at this
    cases this
  refine ⟨(List.range (k + 1)).map c, isSimplePath_of_fun graph k c h0 hk hedge hinj
    (fun p hp => good.bound p _ (hc p hp).1), ?_⟩
  intro p hp
  rw [getD_map_range k c p hp]
  exact ⟨(hc p hp).1, (hc p hp).2.1, huniq p hp, (hc p hp).2.2.2⟩

/-- A simple path satisfies the three sub-formulas over a good table, under every
model that makes true, among the variables of the positions up to `k`, exactly
those of the nodes of the path. -/
theorem model_of_path (graph : Graph) (number k : Nat) (cands : Nat → List Nat) (v : Z3_model)
    (path : List Nat) (good : GoodTable graph k cands) (hpath : IsSimplePath graph k path)
    (hv : ∀ p, p ≤ k → ∀ n, holds v number k p n = true ↔ n = path.getD p 0) :
    ValidHolds graph v number k ∧ SimpleHolds cands v number k ∧
      PathHolds graph cands v number k := by
  obtain ⟨h0, hk, hedge, hinj, hb⟩ := hpath.to_fun
  have hfalse : ∀ p, p ≤ k → ∀ n, n ≠ path.getD p 0 → holds v number k p n = false := by
    intro p hp n hne
    cases hh : holds v number k p n with
    | false => rfl
    | true => exact absurd ((hv p hp n).mp hh) hne
  have hmem : ∀ p, p ≤ k → path.getD p 0 ∈ cands p := by
    intro p
    induction p with
    | zero =>
      intro _
      rw [h0]
      exact good.source
    | succ p ih =>
      intro hp
      refine good.closed p (by omega) _ (ih (by omega)) _ (hb _ hp) (hedge p (by omega)) ?_
      intro h
      have := hinj _ _ hp (by omega) h
      omega
  refine ⟨⟨?_, ?_, ?_⟩, ?_, ?_⟩
  · exact (hv 0 (Nat.zero_le _) _).mpr h0.symm
  · exact (hv k (le_refl _) _).mpr hk.symm
  · intro n _ hne
    exact hfalse k (le_refl _) n (by rw [hk]; exact hne)
  · intro p hp
    refine ⟨path.getD p 0, hmem p hp, (hv p hp _).mpr rfl, ?_, ?_⟩
    · intro m _ hne
      exact hfalse p hp m hne
    · intro q hq hne
      apply hfalse q hq
      intro h
      exact hne (hinj _ _ hp hq h).symm
  · intro p hp n _
    cases hh : holds v number k p n with
    | false => exact Or.inl rfl
    | true =>
      right
      have hn := (hv p (by omega) n).mp hh
      subst hn
      exact ⟨_, hb _ (by omega), hedge p hp, (hv (p + 1) (by omega) _).mpr rfl⟩

theorem holds_pathModel (number k : Nat) (path : List Nat) (p n : Nat) :
    holds (pathModel number k path) number k p n = true ↔ p ≤ k ∧ n = path.getD p 0 := by
  unfold holds pathModel
  simp only [List.any_eq_true, List.mem_range, beq_iff_eq]
  constructor
  · rintro ⟨q, hq, h⟩
    obtain ⟨_, h1, _, h2⟩ := sprintfVarName_inj _ _ _ _ _ _ _ _ h
    subst h1
    exact ⟨by omega, h2⟩
  · rintro ⟨hp, rfl⟩
    exact ⟨p, by omega, rfl⟩

/-- Over a good table the formula is satisfiable exactly when the graph has a
simple path of `k` edges from its source to its target. -/
theorem satisfiable_iff_of_goodTable (graph : Graph) (number k : Nat) (cands : Nat → List Nat)
    (f : Z3_ast) (ht : getTargetNode graph < orderG graph) (good : GoodTable graph k cands)
    (h : makeFormulaFromTable graph number k (encodeTable k cands) = .ok f) :
    Satisfiable f ↔ HasSimplePath graph k := by
  obtain ⟨_, hmean⟩ := makeFormulaFromTable_meaning graph number k cands f ht good h
  constructor
  · rintro ⟨v, hv⟩
    obtain ⟨hV, hS, hP⟩ := (hmean v).mp hv
    obtain ⟨path, hpath, _⟩ := path_of_model graph number k cands v good hV hS hP
    exact ⟨path, hpath⟩
  · rintro ⟨path, hpath⟩
    refine ⟨pathModel number k path, (hmean _).mpr ?_⟩
    apply model_of_path graph number k cands _ path good hpath
    intro p hp n
    rw [holds_pathModel]
    simp [hp]

theorem optimizeAndMakeFormula_table (graph : Graph) (number k : Nat) (f : Z3_ast)
    (hs : getSouceNode graph < orderG graph)
    (h : optimizeAndMakeFormula graph number k = .ok f) :
    ∃ cands, prunedTable graph k = .ok (encodeTable k cands) ∧ GoodTable graph k cands ∧
      (∀ p, ∀ n ∈ cands p, Level graph p n) ∧
      makeFormulaFromTable graph number k (encodeTable k cands) = .ok f := by
  unfold optimizeAndMakeFormula optimizeAndMakeFormulaWith at h
  simp only [OPTIMIZE, if_true] at h
  cases ht : prunedTable graph k with
  | error e => simp [ht] at h
  | ok table =>
    obtain ⟨cands, rfl, good, hlevel⟩ := (prunedTable_spec graph k hs).2 table ht
    simp only [ht] at h
    exact ⟨cands, rfl, good, hlevel, h⟩

theorem makeFormulaFromTable_inv (graph : Graph) (number k : Nat) (table : List (List Int))
    (f : Z3_ast) (h : makeFormulaFromTable graph number k table = .ok f) :
    ∃ formulaValide formulaSimple formulaPath,
      makeValidFormula graph number k = .ok formulaValide ∧
      makeSimpleFormula number k table = .ok formulaSimple ∧
      makePathFormula graph number k table = .ok formulaPath ∧
      f = makeAnd formulaPath (makeAnd formulaValide formulaSimple) := by
  unfold makeFormulaFromTable at h
  cases h1 : makeValidFormula graph number k with
  | error e => simp [h1] at h
  | ok f1 =>
    cases h2 : makeSimpleFormula number k table with
    | error e => simp [h1, h2] at h
    | ok f2 =>
      cases h3 : makePathFormula graph number k table with
      | error e => simp [h1, h2, h3] at h
      | ok f3 =>
        simp only [h1, h2, h3, Except.ok.injEq] at h
        exact ⟨f1, f2, f3, rfl, rfl, rfl, h.symm⟩

/-- C1: whenever `optimizeAndMakeFormula` returns a formula for a graph with a
flagged source and target (no capacity of the pruner was exceeded), that formula
is the conjunction of the adjacency, validity and exclusivity formulas built over
the table of the pruner, and it is satisfiable if and only if the graph has a
walk of exactly `k` edges from its source to its target that visits `k + 1`
pairwise distinct nodes. -/
theorem optimizeAndMakeFormula_satisfiable_iff (graph : Graph) (number k : Nat) (f : Z3_ast)
    (hs : getSouceNode graph < orderG graph) (ht : getTargetNode graph < orderG graph)
    (h : optimizeAndMakeFormula graph number k = .ok f) :
    (∃ table formulaValide formulaSimple formulaPath,
      prunedTable graph k = .ok table ∧
      makeValidFormula graph number k = .ok formulaValide ∧
      makeSimpleFormula number k table = .ok formulaSimple ∧
      makePathFormula graph number k table = .ok formulaPath ∧
      f = makeAnd formulaPath (makeAnd formulaValide formulaSimple)) ∧
      (Satisfiable f ↔ HasSimplePath graph k) := by
  obtain ⟨cands, htab, good, _, hf⟩ := optimizeAndMakeFormula_table graph number k f hs h
  obtain ⟨f1, f2, f3, h1, h2, h3, hand⟩ := makeFormulaFromTable_inv graph number k _ f hf
  exact ⟨⟨_, f1, f2, f3, htab, h1, h2, h3, hand⟩,
    satisfiable_iff_of_goodTable graph number k cands f ht good hf⟩

theorem graphABC_no_path_1 : ¬ HasSimplePath graphABC 1 := by
  rintro ⟨path, hlen, _, _, hhead, hlast, hchain⟩
  match path, hlen with
  | [a, b], _ =>
    have ha : a = 0 := by simpa [getSouceNode, firstFlagged, isSource, graphABC] using hhead
    have hb : b = 2 := by
      simpa [getTargetNode, firstFlagged, isTarget, graphABC, orderG] using hlast
    subst ha hb
    simp [isEdge, graphABC] at hchain

theorem graphABC_path_2 : HasSimplePath graphABC 2 :=
  ⟨[0, 1, 2], by
    simp [IsSimplePath, isEdge, graphABC, getSouceNode, getTargetNode, firstFlagged, isSource,
      isTarget, orderG]⟩

/-- The concrete scenario of C1: on A -> B -> C with A the source and C the target
the length-1 formula is unsatisfiable and the length-2 formula is satisfiable. -/
theorem optimizeAndMakeFormula_graphABC :
    (optimizeAndMakeFormula graphABC 0 1 = .ok (formulaABC 1) ∧ ¬ Satisfiable (formulaABC 1)) ∧
      (optimizeAndMakeFormula graphABC 0 2 = .ok (formulaABC 2) ∧ Satisfiable (formulaABC 2)) :=
  ⟨⟨by rfl, fun h => graphABC_no_path_1
      ((optimizeAndMakeFormula_satisfiable_iff graphABC 0 1 (formulaABC 1) (by decide)
        (by decide) (by rfl)).2.mp h)⟩,
    ⟨by rfl, (optimizeAndMakeFormula_satisfiable_iff graphABC 0 2 (formulaABC 2) (by decide)
        (by decide) (by rfl)).2.mpr graphABC_path_2⟩⟩

/-! ## The candidates of the pruner are reachable -/

theorem Level.walk {graph : Graph} {p n : Nat} (h : Level graph p n) :
    ∃ walk, IsWalk graph p walk n := by
  induction h with
  | zero => exact ⟨[getSouceNode graph], by simp [IsWalk]⟩
  | @step p n m _ _ hedge _ ih =>
    obtain ⟨walk, hlen, hhead, hlast, hchain⟩ := ih
    refine ⟨walk ++ [m], by simp [hlen], ?_, by simp, ?_⟩
    · cases walk with
      | nil => simp at hlen
      | cons a l => simpa using hhead
    · rw [List.chain'_append]
      refine ⟨hchain, by simp, ?_⟩
      intro x hx y hy
      simp only [List.head?_cons, Option.mem_def, Option.some.injEq] at hy
      rw [Option.mem_def, hlast, Option.some.injEq] at hx
      subst hx hy
      exact hedge

theorem eq_singleton_of_forall_eq (l : List Nat) (s : Nat) (hnd : l.Nodup) (hmem : s ∈ l)
    (hall : ∀ n ∈ l, n = s) : l = [s] := by
  match l, hnd, hmem, hall with
  | [a], _, _, hall => rw [hall a (by simp)]
  | a :: b :: rest, hnd, _, hall =>
    have ha := hall a (by simp)
    have hb := hall b (by simp)
    rw [ha, hb] at hnd
    simp at hnd

/-- C9: when the pruning loop hands over its table for a graph with a flagged
source, the table holds, for each position `p` up to `k`, a list of candidates
followed by the sentinel; every candidate at `p` ends a walk of exactly `p` edges
from the source, and the candidates at position 0 are exactly the source. -/
theorem prunedTable_reachable (graph : Graph) (k : Nat) (table : List (List Int))
    (hs : getSouceNode graph < orderG graph) (h : prunedTable graph k = .ok table) :
    ∃ cands : Nat → List Nat, table = encodeTable k cands ∧
      cands 0 = [getSouceNode graph] ∧
      ∀ p, p ≤ k → ∀ n ∈ cands p, ∃ walk, IsWalk graph p walk n := by
  obtain ⟨cands, rfl, good, hlevel⟩ := (prunedTable_spec graph k hs).2 table h
  refine ⟨cands, rfl, ?_, fun p _ n hn => (hlevel p n hn).walk⟩
  exact eq_singleton_of_forall_eq _ _ (good.nodup 0) good.source
    (fun n hn => Level_zero_eq graph n (hlevel 0 n hn))

/-- The pruner on A -> B -> C at length 2: one candidate per position, each at
the end of a walk from A. -/
theorem prunedTable_reachable_graphABC :
    ∃ cands : Nat → List Nat,
      encodeTable 2 (fun p => [p]) = encodeTable 2 cands ∧
      cands 0 = [getSouceNode graphABC] ∧
      ∀ p, p ≤ 2 → ∀ n ∈ cands p, ∃ walk, IsWalk graphABC p walk n :=
  prunedTable_reachable graphABC 2 (encodeTable 2 (fun p => [p])) (by decide) (by rfl)

/-! ## Length 0 -/

theorem prunedTable_zero (graph : Graph) (hs : getSouceNode graph < orderG graph)
    (hcap : orderG graph ≤ MAX_ORDER_G) :
    prunedTable graph 0 =
      .ok (encodeTable 0 (Function.update (fun _ => []) 0 [getSouceNode graph])) := by
  unfold prunedTable push
  simp only [File_t.currentPos, List.length_nil, List.nil_append]
  have h0 : (0 : Nat) < FILE_SIZE := by decide
  simp only [h0, if_true]
  rw [encodeTable_empty]
  have hfuel : pruneFuel graph 0 = orderG graph * orderG graph + 1 + 1 := by
    simp [pruneFuel]
  rw [hfuel]
  have hne : isEmpty ⟨[⟨getSouceNode graph, 0⟩]⟩ = false := by simp [isEmpty, File_t.currentPos]
  rw [pruneLoop]
  simp only [hne, top, Bool.false_eq_true, if_false, gt_iff_lt, Nat.lt_irrefl]
  rw [encodeTable_getElem? 0 _ 0 (le_refl _)]
  simp only []
  rw [recordNode_encodeRow _ [] (orderG graph) 0 (Nat.zero_le _)]
  have h1 : ¬ (0 + orderG graph ≤ ([] : List Nat).length) := by
    simp
    omega
  have h2 : ([] : List Nat).length < MAX_ORDER_G := by decide
  simp only [List.drop_nil, List.take_nil, List.not_mem_nil, if_false, h1, h2, if_true,
    Bool.false_eq_true, List.nil_append]
  rw [pushAll_eq _ _ (by simp [FILE_SIZE])]
  have h3 := length_newElements_le graph ⟨getSouceNode graph, 0⟩
  have h4 : [(⟨getSouceNode graph, 0⟩ : fileElement_t)].length +
      (newElements graph ⟨getSouceNode graph, 0⟩).length ≤ FILE_SIZE := by
    simp only [List.length_singleton, FILE_SIZE]
    simp only [MAX_ORDER_G] at hcap
    omega
  simp only [h4, if_true, pull, List.singleton_append]
  rw [encodeTable_set]
  cases hnew : newElements graph ⟨getSouceNode graph, 0⟩ with
  | nil => simp [pruneLoop, isEmpty, File_t.currentPos]
  | cons e rest =>
    have he : e.position = 1 := by
      have := (mem_newElements graph ⟨getSouceNode graph, 0⟩ e).mp (by rw [hnew]; simp)
      simpa using this.1
    simp [pruneLoop, isEmpty, File_t.currentPos, top, he]

theorem hasSimplePath_zero (graph : Graph) (hs : getSouceNode graph < orderG graph) :
    HasSimplePath graph 0 ↔ getSouceNode graph = getTargetNode graph := by
  constructor
  · rintro ⟨path, hlen, _, _, hhead, hlast, _⟩
    match path, hlen with
    | [a], _ =>
      simp at hhead hlast
      omega
  · intro h
    exact ⟨[getSouceNode graph], by simp [IsSimplePath, hs, ← h]⟩

theorem holds_sourceOnlyModel (graph : Graph) (number p n : Nat) :
    holds (sourceOnlyModel graph number) number 0 p n = true ↔
      p = 0 ∧ n = getSouceNode graph := by
  unfold holds sourceOnlyModel
  simp only [beq_iff_eq]
  constructor
  · intro h
    obtain ⟨_, h1, _, h2⟩ := sprintfVarName_inj _ _ _ _ _ _ _ _ h
    exact ⟨h1, h2⟩
  · rintro ⟨rfl, rfl⟩
    rfl

/-- C10: for a graph with a flagged source and target and at most `MAX_ORDER_G`
nodes, the length-0 formula is returned; it is satisfiable exactly when the source
and the target are the same node; its adjacency part is the empty conjunction;
and when source and target coincide, the assignment whose only true variable is
`(number, 0, 0, source)` satisfies the validity and the exclusivity parts. -/
theorem optimizeAndMakeFormula_zero (graph : Graph) (number : Nat)
    (hs : getSouceNode graph < orderG graph) (ht : getTargetNode graph < orderG graph)
    (hcap : orderG graph ≤ MAX_ORDER_G) :
    ∃ table formulaValide formulaSimple,
      prunedTable graph 0 = .ok table ∧
      makeValidFormula graph number 0 = .ok formulaValide ∧
      makeSimpleFormula number 0 table = .ok formulaSimple ∧
      makePathFormula graph number 0 table = .ok (.and []) ∧
      optimizeAndMakeFormula graph number 0 =
        .ok (makeAnd (.and []) (makeAnd formulaValide formulaSimple)) ∧
      (Satisfiable (makeAnd (.and []) (makeAnd formulaValide formulaSimple)) ↔
        getSouceNode graph = getTargetNode graph) ∧
      (getSouceNode graph = getTargetNode graph →
        formulaValide.eval (sourceOnlyModel graph number) = true ∧
        formulaSimple.eval (sourceOnlyModel graph number) = true ∧
        ∀ name, sourceOnlyModel graph number name = true ↔
          name = sprintfVarName number 0 0 (getSouceNode graph)) := by
  have htab := prunedTable_zero graph hs hcap
  have hshort : ∀ p, p ≤ 0 →
      (Function.update (fun _ => ([] : List Nat)) 0 [getSouceNode graph] p).length <
        MAX_ORDER_G := by
    intro p hp
    have : p = 0 := by omega
    subst this
    simp [MAX_ORDER_G]
  have hnd : ∀ p, (Function.update (fun _ => ([] : List Nat)) 0 [getSouceNode graph] p).Nodup := by
    intro p
    by_cases hp : p = 0
    · subst hp
      simp
    · rw [Function.update_noteq hp]
      exact List.nodup_nil
  obtain ⟨f1, h1, s1⟩ := makeValidFormula_spec graph number 0 ht
  obtain ⟨f2, h2, s2⟩ := makeSimpleFormula_spec number 0 _ hshort hnd
  have h3 : makePathFormula graph number 0
      (encodeTable 0 (Function.update (fun _ => []) 0 [getSouceNode graph])) = .ok (.and []) := by
    simp [makePathFormula, fillArray, Z3_mk_and, readArray]
  have hopt : optimizeAndMakeFormula graph number 0 = .ok (makeAnd (.and []) (makeAnd f1 f2)) := by
    simp [optimizeAndMakeFormula, optimizeAndMakeFormulaWith, OPTIMIZE, htab,
      makeFormulaFromTable, h1, h2, h3]
  refine ⟨_, f1, f2, htab, h1, h2, h3, hopt, ?_, ?_⟩
  · obtain ⟨cands, _, good, _, hf⟩ := optimizeAndMakeFormula_table graph number 0 _ hs hopt
    rw [satisfiable_iff_of_goodTable graph number 0 cands _ ht good hf]
    exact hasSimplePath_zero graph hs
  · intro hst
    refine ⟨(s1 _).mpr ⟨?_, ?_, ?_⟩, (s2 _).mpr ?_, ?_⟩
    · exact (holds_sourceOnlyModel graph number 0 _).mpr ⟨rfl, rfl⟩
    · exact (holds_sourceOnlyModel graph number 0 _).mpr ⟨rfl, hst.symm⟩
    · intro n _ hne
      cases hh : holds (sourceOnlyModel graph number) number 0 0 n with
      | false => rfl
      | true =>
        have := ((holds_sourceOnlyModel graph number 0 n).mp hh).2
        exact absurd (this.trans hst) hne
    · intro p hp
      have hp0 : p = 0 := by omega
      subst hp0
      refine ⟨getSouceNode graph, by simp,
        (holds_sourceOnlyModel graph number 0 _).mpr ⟨rfl, rfl⟩, ?_, ?_⟩
      · intro m hm hne
        simp at hm
        exact absurd hm hne
      · intro q hq hne
        omega
    · intro name
      simp [sourceOnlyModel]

/-- The graph with the single node 0, both source and target. -/
theorem optimizeAndMakeFormula_zero_single :
    ∃ table formulaValide formulaSimple,
      prunedTable graphSingle 0 = .ok table ∧
      makeValidFormula graphSingle 0 0 =
        .ok formulaValide ∧
      makeSimpleFormula 0 0 table = .ok formulaSimple ∧
      makePathFormula graphSingle 0 0 table =
        .ok (.and []) ∧
      optimizeAndMakeFormula graphSingle 0 0 =
        .ok (makeAnd (.and []) (makeAnd formulaValide formulaSimple)) ∧
      (Satisfiable (makeAnd (.and []) (makeAnd formulaValide formulaSimple)) ↔
        getSouceNode graphSingle =
          getTargetNode graphSingle) ∧
      (getSouceNode graphSingle =
          getTargetNode graphSingle →
        formulaValide.eval
          (sourceOnlyModel graphSingle 0) = true ∧
        formulaSimple.eval
          (sourceOnlyModel graphSingle 0) = true ∧
        ∀ name, sourceOnlyModel graphSingle 0 name = true ↔
          name = sprintfVarName 0 0 0
            (getSouceNode graphSingle)) :=
  optimizeAndMakeFormula_zero graphSingle 0
    (by decide) (by decide) (by decide)

/-! ## Several graphs at one length -/

theorem pathModel_name (j k : Nat) (path : List Nat) (i p k1 n : Nat) :
    pathModel j k path (sprintfVarName i p k1 n) = true ↔
      i = j ∧ k1 = k ∧ p ≤ k ∧ n = path.getD p 0 := by
  unfold pathModel
  simp only [List.any_eq_true, List.mem_range, beq_iff_eq]
  constructor
  · rintro ⟨q, hq, h⟩
    obtain ⟨h0, h1, h3, h2⟩ := sprintfVarName_inj _ _ _ _ _ _ _ _ h
    subst h1
    exact ⟨h0, h3, by omega, h2⟩
  · rintro ⟨rfl, rfl, hp, rfl⟩
    exact ⟨p, by omega, rfl⟩

theorem holds_pathsModel (k : Nat) (paths : Nat → List Nat) (numGraphs i p n : Nat) :
    holds (pathsModel k paths numGraphs) i k p n = true ↔
      i < numGraphs ∧ p ≤ k ∧ n = (paths i).getD p 0 := by
  unfold holds pathsModel
  simp only [List.any_eq_true, List.mem_range, pathModel_name]
  constructor
  · rintro ⟨j, hj, rfl, _, hp, hn⟩
    exact ⟨hj, hp, hn⟩
  · rintro ⟨hi, hp, hn⟩
    exact ⟨i, hi, rfl, trivial, hp, hn⟩

theorem graphsToPathFormula_inv (graphs : List Graph) (k : Nat) (f : Z3_ast)
    (h : graphsToPathFormula graphs k = .ok f) :
    ∃ tabFormula, f = .and tabFormula ∧ tabFormula.length = graphs.length ∧
      ∀ i graph, graphs[i]? = some graph →
        ∃ fi, tabFormula[i]? = some fi ∧ optimizeAndMakeFormula graph i k = .ok fi := by
  unfold graphsToPathFormula at h
  cases hfill : fillArray (fun i =>
      match graphs[i]? with
      | none => .error .outOfBounds
      | some graph => optimizeAndMakeFormula graph i k) (List.range graphs.length) with
  | error e => simp [hfill] at h
  | ok tab =>
    simp only [hfill] at h
    have hall := fillArray_inv _ _ _ hfill
    obtain ⟨hlen, hget⟩ := List.forall₂_iff_get.mp hall
    simp only [List.length_range] at hlen
    rw [Z3_mk_and_length _ _ hlen] at h
    cases h
    refine ⟨tab, rfl, hlen.symm, ?_⟩
    intro i graph hg
    have hi : i < graphs.length := by
      by_contra hn
      rw [List.getElem?_eq_none (by omega)] at hg
      cases hg
    have := hget i (by simpa using hi) (by omega)
    simp only [List.get_eq_getElem, List.getElem_range, hg] at this
    have hi2 : i < tab.length := by omega
    exact ⟨tab[i], List.getElem?_eq_getElem hi2, this⟩

theorem optimizeAndMakeFormula_local (graph : Graph) (number k : Nat) (f : Z3_ast)
    (v w : Z3_model) (hs : getSouceNode graph < orderG graph)
    (ht : getTargetNode graph < orderG graph)
    (h : optimizeAndMakeFormula graph number k = .ok f)
    (hvw : ∀ p n, holds v number k p n = holds w number k p n) : f.eval v = f.eval w := by
  obtain ⟨cands, _, good, _, hf⟩ := optimizeAndMakeFormula_table graph number k f hs h
  obtain ⟨_, hmean⟩ := makeFormulaFromTable_meaning graph number k cands f ht good hf
  have hiff : f.eval v = true ↔ f.eval w = true := by
    rw [hmean v, hmean w]
    simp only [ValidHolds, SimpleHolds, PathHolds, hvw]
  cases hv : f.eval v <;> cases hw : f.eval w <;> simp_all

theorem graphsToPathFormula_sat_iff_paths (graphs : List Graph) (k : Nat) (f : Z3_ast)
    (hflag : ∀ g ∈ graphs, getSouceNode g < orderG g ∧ getTargetNode g < orderG g)
    (h : graphsToPathFormula graphs k = .ok f) :
    Satisfiable f ↔ ∀ g ∈ graphs, HasSimplePath g k := by
  obtain ⟨tab, rfl, hlen, hget⟩ := graphsToPathFormula_inv graphs k f h
  constructor
  · rintro ⟨v, hv⟩ g hg
    rw [eval_and_iff] at hv
    obtain ⟨i, hi, rfl⟩ := List.getElem_of_mem hg
    obtain ⟨fi, hfi, hopt⟩ := hget i _ (List.getElem?_eq_getElem hi)
    have hflagi := hflag _ hg
    obtain ⟨cands, _, good, _, hf⟩ := optimizeAndMakeFormula_table _ i k fi hflagi.1 hopt
    exact (satisfiable_iff_of_goodTable _ i k cands fi hflagi.2 good hf).mp
      ⟨v, hv fi (List.getElem?_mem hfi)⟩
  · intro hall
    classical
    let paths : Nat → List Nat := fun i =>
      if hi : i < graphs.length then Classical.choose (hall _ (List.getElem_mem hi)) else []
    have hpaths : ∀ i (hi : i < graphs.length), IsSimplePath graphs[i] k (paths i) := by
      intro i hi
      simp only [paths, hi, dif_pos]
      exact Classical.choose_spec (hall _ (List.getElem_mem hi))
    refine ⟨pathsModel k paths graphs.length, ?_⟩
    rw [eval_and_iff]
    intro fi hfi
    obtain ⟨i, hi, rfl⟩ := List.getElem_of_mem hfi
    have hig : i < graphs.length := by omega
    obtain ⟨fi, hfi2, hopt⟩ := hget i _ (List.getElem?_eq_getElem hig)
    rw [List.getElem?_eq_getElem hi, Option.some.injEq] at hfi2
    rw [hfi2]
    have hflagi := hflag _ (List.getElem_mem hig)
    obtain ⟨cands, _, good, _, hf⟩ := optimizeAndMakeFormula_table _ i k fi hflagi.1 hopt
    obtain ⟨_, hmean⟩ := makeFormulaFromTable_meaning _ i k cands fi hflagi.2 good hf
    rw [hmean]
    apply model_of_path _ i k cands _ (paths i) good (hpaths i hig)
    intro p hp n
    rw [holds_pathsModel]
    simp [hig, hp]

/-- C2: a formula returned by `graphsToPathFormula` for graphs with flagged source
and target is the conjunction of the formulas `optimizeAndMakeFormula` builds for
each graph under its index; the formula of graph `i` depends on the variables
named with the index `i` only; and the conjunction is satisfiable if and only if
every graph of the list has a simple source-to-target path of exactly `k` edges. -/
theorem graphsToPathFormula_satisfiable_iff (graphs : List Graph) (k : Nat) (f : Z3_ast)
    (hflag : ∀ g ∈ graphs, getSouceNode g < orderG g ∧ getTargetNode g < orderG g)
    (h : graphsToPathFormula graphs k = .ok f) :
    (∃ tabFormula, f = .and tabFormula ∧ tabFormula.length = graphs.length ∧
      ∀ i graph, graphs[i]? = some graph →
        ∃ fi, tabFormula[i]? = some fi ∧ optimizeAndMakeFormula graph i k = .ok fi ∧
          ∀ v w : Z3_model, (∀ p n, holds v i k p n = holds w i k p n) →
            fi.eval v = fi.eval w) ∧
      (Satisfiable f ↔ ∀ g ∈ graphs, HasSimplePath g k) := by
  refine ⟨?_, graphsToPathFormula_sat_iff_paths graphs k f hflag h⟩
  obtain ⟨tab, rfl, hlen, hget⟩ := graphsToPathFormula_inv graphs k f h
  refine ⟨tab, rfl, hlen, ?_⟩
  intro i graph hg
  obtain ⟨fi, hfi, hopt⟩ := hget i graph hg
  have hflagi := hflag graph (List.getElem?_mem hg)
  exact ⟨fi, hfi, hopt, fun v w hvw =>
    optimizeAndMakeFormula_local graph i k fi v w hflagi.1 hflagi.2 hopt hvw⟩

theorem flagged_pair : ∀ g ∈ [graphABC, graphChain4],
    getSouceNode g < orderG g ∧ getTargetNode g < orderG g := by
  intro g hg
  simp only [List.mem_cons, List.mem_singleton, List.not_mem_nil, or_false] at hg
  rcases hg with rfl | rfl <;> decide

/-- The two graphs A -> B -> C and 0 -> 1 -> 2 -> 3 at length 2. -/
theorem graphsToPathFormula_pair :
    (∃ tabFormula, formulaPair 2 = .and tabFormula ∧
      tabFormula.length = [graphABC, graphChain4].length ∧
      ∀ i graph, [graphABC, graphChain4][i]? = some graph →
        ∃ fi, tabFormula[i]? = some fi ∧ optimizeAndMakeFormula graph i 2 = .ok fi ∧
          ∀ v w : Z3_model, (∀ p n, holds v i 2 p n = holds w i 2 p n) →
            fi.eval v = fi.eval w) ∧
      (Satisfiable (formulaPair 2) ↔ ∀ g ∈ [graphABC, graphChain4], HasSimplePath g 2) :=
  graphsToPathFormula_satisfiable_iff [graphABC, graphChain4] 2 (formulaPair 2) flagged_pair
    (by rfl)

/-! ## The full formula -/

theorem fullFormulaLoop_exhausted (isFormulaSat : Solver) (graphs : List Graph)
    (remaining k : Nat) (tab : List Z3_ast)
    (hall : ∀ j, k ≤ j → j < k + remaining →
      ∃ f, graphsToPathFormula graphs j = .ok f ∧ isFormulaSat f ≠ .Z3_L_TRUE) :
    ∃ tab1, fullFormulaLoop isFormulaSat graphs remaining k tab = .ok (k + remaining, tab1) ∧
      tab1.length = tab.length + remaining := by
  induction remaining generalizing k tab with
  | zero => exact ⟨tab, rfl, rfl⟩
  | succ remaining ih =>
    obtain ⟨f, hf, hne⟩ := hall k (le_refl _) (by omega)
    obtain ⟨tab1, h1, h2⟩ := ih (k + 1) (tab ++ [f]) (fun j hj1 hj2 => hall j (by omega) (by omega))
    refine ⟨tab1, ?_, ?_⟩
    · rw [fullFormulaLoop]
      simp only [hf, hne, if_false]
      rw [h1]
      congr 2
      omega
    · rw [h2]
      simp
      omega

/-- When no length below the least order gets the verdict `Z3_L_TRUE`, the loop of
`graphsToFullFormula` ends with `k = min_vertices` and `Z3_mk_or` is asked for
`min_vertices + 1` entries of an array of which `min_vertices` were written. -/
theorem graphsToFullFormula_exhausted (isFormulaSat : Solver) (graph0 : Graph)
    (rest : List Graph)
    (hall : ∀ j, j < minVertices (orderG graph0) rest →
      ∃ f, graphsToPathFormula (graph0 :: rest) j = .ok f ∧ isFormulaSat f ≠ .Z3_L_TRUE) :
    graphsToFullFormula isFormulaSat (graph0 :: rest) = .error .outOfBounds := by
  obtain ⟨tab1, h1, h2⟩ := fullFormulaLoop_exhausted isFormulaSat (graph0 :: rest)
    (minVertices (orderG graph0) rest) 0 [] (fun j _ hj => hall j (by omega))
  unfold graphsToFullFormula
  simp only [h1]
  simp only [Nat.zero_add, List.length_nil] at h2 ⊢
  simp [Z3_mk_or, readArray, h2]

theorem graphABC_no_path_0 : ¬ HasSimplePath graphABC 0 := by
  rw [hasSimplePath_zero graphABC (by decide)]
  decide

theorem graphChain4_no_path_2 : ¬ HasSimplePath graphChain4 2 := by
  rintro ⟨path, hlen, _, _, hhead, hlast, hchain⟩
  match path, hlen with
  | [a, b, c], _ =>
    have ha : a = 0 := by simpa [getSouceNode, firstFlagged, isSource, graphChain4] using hhead
    have hc : c = 3 := by
      simpa [getTargetNode, firstFlagged, isTarget, graphChain4, orderG] using hlast
    subst ha hc
    simp [isEdge, graphChain4] at hchain
    omega

theorem formulaPair_unsat (k : Nat) (hk : k < 3) : ¬ Satisfiable (formulaPair k) := by
  intro hsat
  interval_cases k
  · have := ((graphsToPathFormula_sat_iff_paths [graphABC, graphChain4] 0 (formulaPair 0)
      flagged_pair (by rfl)).mp hsat) graphABC (by simp)
    exact graphABC_no_path_0 this
  · have := ((graphsToPathFormula_sat_iff_paths [graphABC, graphChain4] 1 (formulaPair 1)
      flagged_pair (by rfl)).mp hsat) graphABC (by simp)
    exact graphABC_no_path_1 this
  · have := ((graphsToPathFormula_sat_iff_paths [graphABC, graphChain4] 2 (formulaPair 2)
      flagged_pair (by rfl)).mp hsat) graphChain4 (by simp)
    exact graphChain4_no_path_2 this

/-- C3 (code): for the two graphs A -> B -> C (only a length-2 path) and
0 -> 1 -> 2 -> 3 (only a length-3 path) and every sound solver,
`graphsToFullFormula` returns no formula: no length 0, 1, 2 is satisfiable, the
loop ends with `k = 3` and `Z3_mk_or(ctx, k+1, tabFormula)` reads `tabFormula[3]`
of the 3-entry array. -/
theorem graphsToFullFormula_no_common_length (isFormulaSat : Solver)
    (hsound : isFormulaSat.Sound) :
    graphsToFullFormula isFormulaSat [graphABC, graphChain4] = .error .outOfBounds := by
  apply graphsToFullFormula_exhausted
  intro j hj
  have hj3 : j < 3 := by
    simpa [minVertices, orderG, graphABC, graphChain4] using hj
  refine ⟨formulaPair j, ?_, ?_⟩
  · interval_cases j <;> rfl
  · intro htrue
    exact formulaPair_unsat j hj3 ((hsound _).1 htrue)

theorem undecidedSolver_sound : undecidedSolver.Sound := by
  intro f
  constructor <;> intro h <;> cases h

/-- The run of C3 with the solver that answers `Z3_L_UNDEF` to every formula. -/
theorem graphsToFullFormula_no_common_length_undecided :
    graphsToFullFormula undecidedSolver [graphABC, graphChain4] = .error .outOfBounds :=
  graphsToFullFormula_no_common_length undecidedSolver undecidedSolver_sound

theorem fullFormulaLoop_inv (isFormulaSat : Solver) (graphs : List Graph)
    (remaining k : Nat) (tab : List Z3_ast) (k1 : Nat) (tab1 : List Z3_ast)
    (hlen : tab.length = k)
    (h : fullFormulaLoop isFormulaSat graphs remaining k tab = .ok (k1, tab1)) :
    tab1.length = k1 ∨
      (tab1.length = k1 + 1 ∧ ∃ f ∈ tab1, isFormulaSat f = .Z3_L_TRUE) := by
  induction remaining generalizing k tab with
  | zero =>
    simp only [fullFormulaLoop, Except.ok.injEq, Prod.mk.injEq] at h
    obtain ⟨rfl, rfl⟩ := h
    exact Or.inl hlen
  | succ remaining ih =>
    rw [fullFormulaLoop] at h
    cases hf : graphsToPathFormula graphs k with
    | error e => simp [hf] at h
    | ok f =>
      simp only [hf] at h
      by_cases htrue : isFormulaSat f = .Z3_L_TRUE
      · simp only [htrue, if_true, Except.ok.injEq, Prod.mk.injEq] at h
        obtain ⟨rfl, rfl⟩ := h
        exact Or.inr ⟨by simp [hlen], f, by simp, htrue⟩
      · simp only [htrue, if_false] at h
        exact ih (k + 1) (tab ++ [f]) (by simp [hlen]) h

/-- A formula that `graphsToFullFormula` returns has a disjunct that the solver
found satisfiable: with a sound solver a returned formula is satisfiable. -/
theorem graphsToFullFormula_ok_satisfiable (isFormulaSat : Solver) (graphs : List Graph)
    (f : Z3_ast) (hsound : isFormulaSat.Sound)
    (h : graphsToFullFormula isFormulaSat graphs = .ok f) : Satisfiable f := by
  unfold graphsToFullFormula at h
  cases graphs with
  | nil => simp at h
  | cons graph0 rest =>
    simp only [] at h
    cases hloop : fullFormulaLoop isFormulaSat (graph0 :: rest)
        (minVertices (orderG graph0) rest) 0 [] with
    | error e => simp [hloop] at h
    | ok r =>
      obtain ⟨k1, tab1⟩ := r
      simp only [hloop] at h
      rcases fullFormulaLoop_inv isFormulaSat _ _ 0 [] k1 tab1 rfl hloop with hl | ⟨hl, g, hg, htrue⟩
      · simp [Z3_mk_or, readArray, hl] at h
      · rw [Z3_mk_or_length _ _ hl.symm] at h
        cases h
        obtain ⟨v, hv⟩ := (hsound g).1 htrue
        exact ⟨v, (eval_or_iff v tab1).mpr ⟨g, hg, hv⟩⟩

/-! ## The default mode of main -/

/-- C4 (code): the test `if(isFormulaSat(context, fullFormula))` prints "OUI" for
every verdict whose value is not zero, and `Z3_L_FALSE` is -1: on the verdict
unsatisfiable `main` reports "OUI"; "NON" is reported on `Z3_L_UNDEF` only. -/
theorem reportVerdict_unsat :
    reportVerdict .Z3_L_FALSE = "OUI" ∧
      ∀ verdict, reportVerdict verdict = "NON" ↔ verdict = .Z3_L_UNDEF := by
  refine ⟨by decide, ?_⟩
  intro verdict
  cases verdict <;> decide

/-! ## The path decoder -/

theorem find?_range_unique (P : Nat → Bool) (N p : Nat) (hp : p < N) (hP : P p = true)
    (huniq : ∀ q, q < N → P q = true → q = p) : (List.range N).find? P = some p := by
  cases h : (List.range N).find? P with
  | none =>
    rw [List.find?_eq_none] at h
    have := h p (List.mem_range.mpr hp)
    simp [hP] at this
  | some q =>
    have h1 := List.find?_some h
    have h2 := List.mem_range.mp (List.mem_of_find?_eq_some h)
    rw [huniq q h2 h1]

theorem firstTruePosition_eq (v : Z3_model) (number k n : Nat) :
    firstTruePosition v number k n =
      (List.range (k + 1)).find? (fun p => holds v number k p n) := by
  unfold firstTruePosition
  congr 1

theorem list_eq_map_range {α : Type} (l : List α) (d : α) :
    l = (List.range l.length).map (fun p => l.getD p d) := by
  apply List.ext_getElem?
  intro i
  by_cases hi : i < l.length
  · simp [List.getElem?_range hi, List.getElem?_eq_getElem hi, hi]
  · rw [List.getElem?_eq_none (Nat.le_of_not_lt hi),
      List.getElem?_eq_none (by simp; omega)]

/-- The decoding loop under a model that, at the positions up to `k`, makes true
exactly the nodes `c p` among the nodes scanned. -/
theorem decodeNodes_exact (v : Z3_model) (number k : Nat) (c : Nat → Nat) (order : Nat)
    (hinj : ∀ p q, p ≤ k → q ≤ k → c p = c q → p = q)
    (hexact : ∀ p, p ≤ k → ∀ n, n < order → (holds v number k p n = true ↔ n = c p))
    (ns : List Nat) (hns : ∀ n ∈ ns, n < order) (init : List (Option Nat))
    (hinit : init.length = k + 1) :
    decodeNodes v number k ns init =
      (List.range (k + 1)).map (fun p => if c p ∈ ns then some (c p) else init.getD p none) := by
  induction ns generalizing init with
  | nil =>
    simp only [decodeNodes, List.not_mem_nil, if_false]
    rw [← hinit]
    exact list_eq_map_range init none
  | cons n ns ih =>
    have hn := hns n (List.mem_cons_self _ _)
    have hns2 : ∀ m ∈ ns, m < order := fun m hm => hns m (List.mem_cons_of_mem _ hm)
    rw [decodeNodes, firstTruePosition_eq]
    by_cases hex : ∃ p, p ≤ k ∧ n = c p
    · obtain ⟨p, hp, hnp⟩ := hex
      have hfind : (List.range (k + 1)).find? (fun q => holds v number k q n) = some p := by
        apply find?_range_unique _ _ p (by omega) ((hexact p hp n hn).mpr hnp)
        intro q hq hh
        have := (hexact q (by omega) n hn).mp hh
        exact hinj q p (by omega) hp (by rw [← this, ← hnp])
      rw [hfind]
      simp only []
      rw [ih hns2 _ (by simp [hinit])]
      apply List.map_congr_left
      intro q hq
      have hq2 : q ≤ k := by
        have := List.mem_range.mp hq
        omega
      by_cases hmem : c q ∈ ns
      · simp [hmem]
      · simp only [hmem, if_false, List.mem_cons, or_false]
        by_cases hqp : q = p
        · subst hqp
          simp [hnp, List.getD_eq_getElem?_getD, List.getElem?_set, hinit, Nat.lt_succ_of_le hq2]
        · have hne : ¬ c q = n := by
            intro h
            exact hqp (hinj q p hq2 hp (by rw [h, hnp]))
          simp [hne, List.getD_eq_getElem?_getD, List.getElem?_set, Ne.symm hqp]
    · have hfind : (List.range (k + 1)).find? (fun q => holds v number k q n) = none := by
        rw [List.find?_eq_none]
        intro q hq hh
        have hq2 : q ≤ k := by
          have := List.mem_range.mp hq
          omega
        exact hex ⟨q, hq2, (hexact q hq2 n hn).mp hh⟩
      rw [hfind]
      simp only []
      rw [ih hns2 init hinit]
      apply List.map_congr_left
      intro q hq
      have hq2 : q ≤ k := by
        have := List.mem_range.mp hq
        omega
      have hne : ¬ c q = n := fun h => hex ⟨q, hq2, h.symm⟩
      simp [hne]

/-- The decoders return the path when the model makes true, among the nodes of the
graph and at the positions up to `k`, exactly the nodes of the path. -/
theorem decodedPath_exact (v : Z3_model) (graph : Graph) (number k : Nat) (path : List Nat)
    (hpath : IsSimplePath graph k path)
    (hexact : ∀ p, p ≤ k → ∀ n, n < orderG graph →
      (holds v number k p n = true ↔ n = path.getD p 0)) :
    decodedPath v graph number k = path.map some := by
  obtain ⟨_, _, _, hinj, hb⟩ := hpath.to_fun
  unfold decodedPath
  rw [decodeNodes_exact v number k (fun p => path.getD p 0) (orderG graph) hinj hexact _
    (fun n hn => List.mem_range.mp hn) _ (by simp)]
  have hlen := hpath.1
  conv_rhs => rw [list_eq_map_range path 0]
  rw [List.map_map, hlen]
  apply List.map_congr_left
  intro p hp
  have hp2 : p ≤ k := by
    have := List.mem_range.mp hp
    omega
  have := hb p hp2
  simp only [List.getD_eq_getElem?_getD] at this
  simp [List.mem_range, this]

/-- What a model of the formula of one graph says: its true candidates form a
simple path, which the table of the pruner describes. -/
theorem path_of_optimizeAndMakeFormula (graph : Graph) (number k : Nat) (f : Z3_ast)
    (v : Z3_model) (hs : getSouceNode graph < orderG graph)
    (ht : getTargetNode graph < orderG graph)
    (h : optimizeAndMakeFormula graph number k = .ok f) (hv : f.eval v = true) :
    ∃ cands path, GoodTable graph k cands ∧ ValidHolds graph v number k ∧
      IsSimplePath graph k path ∧
      ∀ p, p ≤ k → path.getD p 0 ∈ cands p ∧ holds v number k p (path.getD p 0) = true ∧
        (∀ m ∈ cands p, holds v number k p m = true → m = path.getD p 0) ∧
        ∀ q, q ≤ k → q ≠ p → holds v number k q (path.getD p 0) = false := by
  obtain ⟨cands, _, good, _, hf⟩ := optimizeAndMakeFormula_table graph number k f hs h
  obtain ⟨_, hmean⟩ := makeFormulaFromTable_meaning graph number k cands f ht good hf
  obtain ⟨hV, hS, hP⟩ := (hmean v).mp hv
  obtain ⟨path, hpath, hprop⟩ := path_of_model graph number k cands v good hV hS hP
  exact ⟨cands, path, good, hV, hpath, hprop⟩

/-- C5 (code): the length-2 formula of the graph 0 -> 1, 0 -> 2, 1 -> 3 is
satisfied by a model that also makes node 2 true at position 0; the decoders read
the sequence 2, 1, 3 from it, which does not start at the source 0 and is no
simple path of the graph. -/
theorem decodedPath_forkModel :
    graphsToPathFormula [graphFork] 2 = .ok (formulaOf (graphsToPathFormula [graphFork] 2)) ∧
      (formulaOf (graphsToPathFormula [graphFork] 2)).eval forkModel = true ∧
      decodedPath forkModel graphFork 0 2 = [some 2, some 1, some 3] ∧
      ¬ ∃ path, decodedPath forkModel graphFork 0 2 = path.map some ∧
        IsSimplePath graphFork 2 path := by
  have hdec : decodedPath forkModel graphFork 0 2 = [some 2, some 1, some 3] := by rfl
  refine ⟨by rfl, by rfl, hdec, ?_⟩
  rintro ⟨path, hmap, _, _, _, hhead, _⟩
  rw [hdec] at hmap
  match path, hmap with
  | [a, b, c], hmap =>
    simp only [List.map_cons, List.map_nil, List.cons.injEq, Option.some.injEq] at hmap
    obtain ⟨ha, _⟩ := hmap
    subst ha
    simp [getSouceNode, firstFlagged, isSource, graphFork] at hhead

/-- For every model that satisfies `graphsToPathFormula(graphs, k)`
and makes at most one node of each graph true at each position, the sequence the
decoders read for each graph has its `k + 1` positions filled, repeats no node,
starts at the source, ends at the target, and each consecutive pair is an edge. -/
theorem decodedPath_valid (graphs : List Graph) (k : Nat) (f : Z3_ast) (v : Z3_model)
    (hflag : ∀ g ∈ graphs, getSouceNode g < orderG g ∧ getTargetNode g < orderG g)
    (h : graphsToPathFormula graphs k = .ok f) (hv : f.eval v = true)
    (hone : ∀ i graph, graphs[i]? = some graph → OneNodePerPosition v graph i k) :
    ∀ i graph, graphs[i]? = some graph →
      ∃ path, decodedPath v graph i k = path.map some ∧ IsSimplePath graph k path := by
  intro i graph hg
  obtain ⟨tab, rfl, _, hget⟩ := graphsToPathFormula_inv graphs k f h
  obtain ⟨fi, hfi, hopt⟩ := hget i graph hg
  have hflagi := hflag graph (List.getElem?_mem hg)
  have hvi : fi.eval v = true := (eval_and_iff v tab).mp hv fi (List.getElem?_mem hfi)
  obtain ⟨cands, path, _, _, hpath, hprop⟩ :=
    path_of_optimizeAndMakeFormula graph i k fi v hflagi.1 hflagi.2 hopt hvi
  refine ⟨path, ?_, hpath⟩
  apply decodedPath_exact v graph i k path hpath
  intro p hp n hn
  constructor
  · intro hh
    exact hone i graph hg p hp n _ hn (hpath.to_fun.2.2.2.2 p hp) hh (hprop p hp).2.1
  · rintro rfl
    exact (hprop p hp).2.1

theorem oneNodePerPosition_pathModel (graph : Graph) (number k : Nat) (path : List Nat) :
    OneNodePerPosition (pathModel number k path) graph number k := by
  intro p _ n m _ _ hn hm
  rw [holds_pathModel] at hn hm
  rw [hn.2, hm.2]

/-- The decoders on A -> B -> C with the model of the path A, B, C. -/
theorem decodedPath_valid_graphABC :
    ∃ path, decodedPath (pathModel 0 2 [0, 1, 2]) graphABC 0 2 = path.map some ∧
      IsSimplePath graphABC 2 path :=
  decodedPath_valid [graphABC] 2 (formulaOf (graphsToPathFormula [graphABC] 2))
    (pathModel 0 2 [0, 1, 2]) (by simp; decide) (by rfl) (by rfl)
    (by
      intro i graph hg
      have hi : i = 0 := by
        by_contra hne
        rw [List.getElem?_eq_none (by simp; omega)] at hg
        cases hg
      subst hi
      exact oneNodePerPosition_pathModel graph 0 2 [0, 1, 2])
    0 graphABC (by rfl)

/-! ## The length decoder -/

theorem value_getNodeVariable_zero (v : Z3_model) (k p n : Nat) :
    valueOfVarInModel v (getNodeVariable 0 p k n) = holds v 0 k p n := by
  simp [valueOfVarInModel, eval_getNodeVariable, holds]

theorem value_getNodeVariable_zero_zero (v : Z3_model) (k n : Nat) :
    valueOfVarInModel v (getNodeVariable 0 0 k n) = holds v 0 k 0 n := by
  simp [valueOfVarInModel, eval_getNodeVariable, holds]

theorem value_getNodeVariable_zero_succ (v : Z3_model) (k p n : Nat) :
    valueOfVarInModel v (getNodeVariable 0 ((p : Int) + 1) k n) = holds v 0 k (p + 1) n := by
  simp [valueOfVarInModel, eval_getNodeVariable, holds]

theorem walkModel_clean (v : Z3_model) (graph : Graph) (L remaining pos cur : Nat)
    (hclean : ∀ p n, holds v 0 L p n = false) :
    walkModel v graph L remaining pos cur = false := by
  cases remaining with
  | zero => rfl
  | succ remaining =>
    rw [walkModel]
    by_cases hpos : pos = L
    · simp [hpos, value_getNodeVariable_zero_zero, hclean]
    · have hnone : nextNode v graph L pos cur = none := by
        unfold nextNode
        rw [List.find?_eq_none]
        intro nb _
        simp [value_getNodeVariable_zero_succ, hclean]
      simp [hpos, hnone]

theorem walkModel_follow (v : Z3_model) (graph : Graph) (k : Nat) (cands : Nat → List Nat)
    (path : List Nat) (good : GoodTable graph k cands) (hV : ValidHolds graph v 0 k)
    (hpath : IsSimplePath graph k path)
    (hprop : ∀ p, p ≤ k → path.getD p 0 ∈ cands p ∧ holds v 0 k p (path.getD p 0) = true ∧
        (∀ m ∈ cands p, holds v 0 k p m = true → m = path.getD p 0) ∧
        ∀ q, q ≤ k → q ≠ p → holds v 0 k q (path.getD p 0) = false)
    (d pos : Nat) (hd : pos + d = k) :
    walkModel v graph k (d + 1) pos (path.getD pos 0) = true := by
  obtain ⟨_, _, hedge, hinj, hb⟩ := hpath.to_fun
  induction d generalizing pos with
  | zero =>
    have hpk : pos = k := by omega
    rw [walkModel]
    simp only [hpk, if_true, value_getNodeVariable_zero_zero, value_getNodeVariable_zero]
    simp [hV.1, hV.2.1]
  | succ d ih =>
    have hpk : pos ≠ k := by omega
    rw [walkModel]
    simp only [hpk, if_false]
    have hnext : nextNode v graph k pos (path.getD pos 0) = some (path.getD (pos + 1) 0) := by
      unfold nextNode
      apply find?_range_unique _ _ _ (hb (pos + 1) (by omega))
      · simp only [value_getNodeVariable_zero_succ, hedge pos (by omega),
          (hprop (pos + 1) (by omega)).2.1, Bool.and_self]
      · intro q hq hh
        simp only [value_getNodeVariable_zero_succ, Bool.and_eq_true] at hh
        have hne : q ≠ path.getD pos 0 := by
          rintro rfl
          have := (hprop pos (by omega)).2.2.2 (pos + 1) (by omega) (by omega)
          rw [hh.2] at this
          cases this
        have hmem := good.closed pos (by omega) _ (hprop pos (by omega)).1 q hq hh.1 hne
        exact (hprop (pos + 1) (by omega)).2.2.1 q hmem hh.2
    rw [hnext]
    have hne : ¬ path.getD (pos + 1) 0 = path.getD pos 0 := by
      intro h
      have := hinj _ _ (by omega) (by omega) h
      omega
    simp only [hne, if_false]
    exact ih (pos + 1) (by omega)

theorem solutionLengthLoop_reach (v : Z3_model) (graph : Graph) (k : Nat)
    (hclean : ∀ L, L < k → ∀ p n, holds v 0 L p n = false)
    (hwalk : walkModel v graph k (k + 1) 0 (getSouceNode graph) = true)
    (d L remaining : Nat) (hd : L + d = k) (hrem : k < L + remaining) :
    solutionLengthLoop v graph remaining L = .ok k := by
  induction d generalizing L remaining with
  | zero =>
    have hL : L = k := by omega
    subst hL
    obtain ⟨r, rfl⟩ : ∃ r, remaining = r + 1 := ⟨remaining - 1, by omega⟩
    rw [solutionLengthLoop]
    simp [hwalk]
  | succ d ih =>
    obtain ⟨r, rfl⟩ : ∃ r, remaining = r + 1 := ⟨remaining - 1, by omega⟩
    rw [solutionLengthLoop]
    rw [walkModel_clean v graph L _ _ _ (hclean L (by omega))]
    simp only [Bool.false_eq_true, if_false]
    exact ih (L + 1) r (by omega) (by omega)

/-- C6 (counterexample): the model of the length-2 formula of the graph
0 -> 1, 0 -> 2, 1 -> 3 that also makes true the two length-0 variables of the
source and of the target; `getSolutionLengthFromModel` returns 0 for it, not 2. -/
theorem getSolutionLengthFromModel_staleModel :
    graphsToPathFormula [graphFork] 2 = .ok (formulaOf (graphsToPathFormula [graphFork] 2)) ∧
      (formulaOf (graphsToPathFormula [graphFork] 2)).eval staleModel = true ∧
      2 < orderG graphFork ∧
      getSolutionLengthFromModel staleModel [graphFork] = .ok 0 :=
  ⟨by rfl, by rfl, by decide, by rfl⟩

/-- C6 (amended): for every model that satisfies `graphsToPathFormula(graphs, k)`
and makes false every variable of graph 0 whose length component is below `k`,
`getSolutionLengthFromModel` returns exactly `k`. -/
theorem getSolutionLengthFromModel_eq (graph0 : Graph) (rest : List Graph) (k : Nat)
    (f : Z3_ast) (v : Z3_model)
    (hflag : ∀ g ∈ graph0 :: rest, getSouceNode g < orderG g ∧ getTargetNode g < orderG g)
    (h : graphsToPathFormula (graph0 :: rest) k = .ok f) (hv : f.eval v = true)
    (hclean : ∀ L, L < k → ∀ p n, holds v 0 L p n = false) :
    getSolutionLengthFromModel v (graph0 :: rest) = .ok k := by
  obtain ⟨tab, rfl, _, hget⟩ := graphsToPathFormula_inv (graph0 :: rest) k f h
  obtain ⟨f0, hf0, hopt⟩ := hget 0 graph0 (by simp)
  have hflag0 := hflag graph0 (List.mem_cons_self _ _)
  have hv0 : f0.eval v = true := (eval_and_iff v tab).mp hv f0 (List.getElem?_mem hf0)
  obtain ⟨cands, path, good, hV, hpath, hprop⟩ :=
    path_of_optimizeAndMakeFormula graph0 0 k f0 v hflag0.1 hflag0.2 hopt hv0
  have hwalk := walkModel_follow v graph0 k cands path good hV hpath hprop k 0 (by omega)
  rw [hpath.to_fun.1] at hwalk
  have hk : k < orderG graph0 := by
    have := length_le_of_bound (orderG graph0) path hpath.2.1 hpath.2.2.1
    rw [hpath.1] at this
    omega
  unfold getSolutionLengthFromModel
  exact solutionLengthLoop_reach v graph0 k hclean hwalk k 0 (orderG graph0) (by omega)
    (by omega)

/-- The length decoder on A -> B -> C with the model of the path A, B, C. -/
theorem getSolutionLengthFromModel_graphABC :
    getSolutionLengthFromModel (pathModel 0 2 [0, 1, 2]) [graphABC] = .ok 2 :=
  getSolutionLengthFromModel_eq graphABC [] 2 (formulaOf (graphsToPathFormula [graphABC] 2))
    (pathModel 0 2 [0, 1, 2]) (by simp; decide) (by rfl) (by rfl)
    (by
      intro L hL p n
      cases hh : holds (pathModel 0 2 [0, 1, 2]) 0 L p n with
      | false => rfl
      | true =>
        have := (pathModel_name 0 2 [0, 1, 2] 0 p L n).mp hh
        omega)

/-! ## The pruned and the unpruned formula -/

theorem fullRow_eq (order : Nat) :
    (List.range MAX_ORDER_G).map (fun (j : Nat) => if j < order then (j : Int) else -1) =
      encodeRow (List.range (min order MAX_ORDER_G)) := by
  unfold encodeRow
  apply List.ext_getElem?
  intro i
  rw [List.getElem?_map]
  by_cases hi : i < MAX_ORDER_G
  · rw [List.getElem?_range hi]
    by_cases hio : i < order
    · rw [List.getElem?_append_left (by simp; omega)]
      simp [List.getElem?_range, hio, hi]
    · rw [List.getElem?_append_right (by simp; omega)]
      simp only [Option.map_some', hio, if_false, List.length_map, List.length_range]
      rw [List.getElem?_replicate]
      have : i - min order MAX_ORDER_G < MAX_ORDER_G - min order MAX_ORDER_G := by omega
      simp [this]
  · rw [List.getElem?_eq_none (by simp; omega), List.getElem?_eq_none (by simp; omega)]
    rfl

theorem fullTable_eq (graph : Graph) (k : Nat) :
    fullTable graph k = encodeTable k (fun _ => List.range (min (orderG graph) MAX_ORDER_G)) := by
  unfold fullTable encodeTable
  simp only [fullRow_eq]

theorem goodTable_full (graph : Graph) (k : Nat) (hs : getSouceNode graph < orderG graph)
    (hcap : orderG graph ≤ MAX_ORDER_G) :
    GoodTable graph k (fun _ => List.range (orderG graph)) where
  nodup := fun _ => List.nodup_range _
  bound := fun _ n hn => List.mem_range.mp hn
  short := fun _ => by simpa using hcap
  source := List.mem_range.mpr hs
  closed := fun _ _ _ _ m hm _ _ => List.mem_range.mpr hm

theorem unpruned_table (graph : Graph) (number k : Nat) (f : Z3_ast)
    (hs : getSouceNode graph < orderG graph)
    (h : optimizeAndMakeFormulaWith false graph number k = .ok f) :
    GoodTable graph k (fun _ => List.range (orderG graph)) ∧
      makeFormulaFromTable graph number k
        (encodeTable k (fun _ => List.range (orderG graph))) = .ok f := by
  unfold optimizeAndMakeFormulaWith at h
  simp only [Bool.false_eq_true, if_false, fullTable_eq] at h
  have hlt : orderG graph < MAX_ORDER_G := by
    by_contra hge
    exact makeFormulaFromTable_full graph number k _ 0 (Nat.zero_le _)
      (by simp; omega) f h
  have hmin : min (orderG graph) MAX_ORDER_G = orderG graph := by omega
  rw [hmin] at h
  exact ⟨goodTable_full graph k hs (by omega), h⟩

/-- Every model of the unpruned formula makes exactly one node true per position,
and the decoders read a simple source-to-target path from it. -/
theorem unpruned_model_decodes (graph : Graph) (number k : Nat) (f : Z3_ast) (v : Z3_model)
    (hs : getSouceNode graph < orderG graph) (ht : getTargetNode graph < orderG graph)
    (h : optimizeAndMakeFormulaWith false graph number k = .ok f) (hv : f.eval v = true) :
    ∃ path, IsSimplePath graph k path ∧ decodedPath v graph number k = path.map some := by
  obtain ⟨good, hf⟩ := unpruned_table graph number k f hs h
  obtain ⟨_, hmean⟩ := makeFormulaFromTable_meaning graph number k _ f ht good hf
  obtain ⟨hV, hS, hP⟩ := (hmean v).mp hv
  obtain ⟨path, hpath, hprop⟩ := path_of_model graph number k _ v good hV hS hP
  refine ⟨path, hpath, decodedPath_exact v graph number k path hpath ?_⟩
  intro p hp n hn
  constructor
  · exact (hprop p hp).2.2.1 n (List.mem_range.mpr hn)
  · rintro rfl
    exact (hprop p hp).2.1

/-! ## The pruner returns on small graphs -/

theorem length_eq_countP_two (l : List fileElement_t) (p : Nat)
    (h : ∀ x ∈ l, x.position = p ∨ x.position = p + 1) :
    l.length = l.countP (fun e => e.position == p) + l.countP (fun e => e.position == p + 1) := by
  induction l with
  | nil => rfl
  | cons a l ih =>
    have ih2 := ih (fun x hx => h x (List.mem_cons_of_mem _ hx))
    rcases h a (List.mem_cons_self _ _) with ha | ha
    · have h1 : (a.position == p) = true := by simp [ha]
      have h2 : (a.position == p + 1) = false := by simp [ha]
      rw [List.countP_cons, List.countP_cons]
      simp only [h1, h2, if_true, Bool.false_eq_true, if_false, List.length_cons]
      omega
    · have h1 : (a.position == p) = false := by simp [ha]
      have h2 : (a.position == p + 1) = true := by simp [ha]
      rw [List.countP_cons, List.countP_cons]
      simp only [h1, h2, if_true, Bool.false_eq_true, if_false, List.length_cons]
      omega

theorem countP_newElements (graph : Graph) (e : fileElement_t) (q : Nat) (hq : q ≠ e.position + 1) :
    (newElements graph e).countP (fun x => x.position == q) = 0 := by
  rw [List.countP_eq_zero]
  intro x hx
  have := ((mem_newElements graph e x).mp hx).1
  simp only [beq_iff_eq]
  omega

theorem QueueBound.atStart (graph : Graph) :
    QueueBound graph (fun _ => []) [⟨getSouceNode graph, 0⟩] where
  zero := by simp [List.countP_cons]
  succ := by
    intro q
    simp [List.countP_cons]

theorem QueueBound.after_existing {graph : Graph} {cands : Nat → List Nat} {e : fileElement_t}
    {rest : List fileElement_t} (qb : QueueBound graph cands (e :: rest)) :
    QueueBound graph cands rest where
  zero := by
    have := qb.zero
    rw [List.countP_cons] at this
    omega
  succ := by
    intro q
    have := qb.succ q
    rw [List.countP_cons] at this
    omega

theorem QueueBound.after_new {graph : Graph} {cands : Nat → List Nat} {e : fileElement_t}
    {rest : List fileElement_t} (qb : QueueBound graph cands (e :: rest)) :
    QueueBound graph (Function.update cands e.position (cands e.position ++ [e.node]))
      (rest ++ newElements graph e) where
  zero := by
    have := qb.zero
    rw [List.countP_cons] at this
    rw [List.countP_append, countP_newElements graph e 0 (by omega)]
    omega
  succ := by
    intro q
    have h1 := qb.succ q
    rw [List.countP_cons] at h1
    rw [List.countP_append]
    by_cases hq : q = e.position
    · subst hq
      have h2 : (newElements graph e).countP (fun x => x.position == e.position + 1) ≤
          orderG graph :=
        le_trans (List.countP_le_length _) (length_newElements_le graph e)
      simp only [Function.update_same, List.length_append, List.length_singleton]
      rw [Nat.add_mul, Nat.one_mul]
      omega
    · rw [countP_newElements graph e (q + 1) (by omega), Function.update_noteq hq]
      omega

/-- The queue never holds more than `2 * order * order` elements, the element
being expanded and its successors included. -/
theorem queue_length_le {graph : Graph} {cands : Nat → List Nat} {e : fileElement_t}
    {rest : List fileElement_t} (inv : PruneInv graph cands (e :: rest))
    (qb : QueueBound graph cands (e :: rest)) (hmem : e.node ∉ cands e.position) :
    (e :: rest).length + (newElements graph e).length ≤ 2 * orderG graph * orderG graph := by
  have hnode := inv.qbound e (List.mem_cons_self _ _)
  have hlenle : ∀ q, (cands q).length ≤ orderG graph := fun q =>
    length_le_of_bound (orderG graph) (cands q) (inv.nodup q) (inv.bound q)
  have hpos : ∀ x ∈ e :: rest, x.position = e.position ∨ x.position = e.position + 1 := by
    intro x hx
    have h1 := inv.near e (by simp) x hx
    rcases List.mem_cons.mp hx with rfl | hx
    · exact Or.inl rfl
    · have h2 := (List.pairwise_cons.mp inv.sorted).1 x hx
      omega
  rw [length_eq_countP_two (e :: rest) e.position hpos]
  have hnew := length_newElements_le graph e
  have hsq : 1 ≤ orderG graph * orderG graph := Nat.mul_pos (by omega) (by omega)
  have hmul : ∀ q, (cands q).length * orderG graph ≤ orderG graph * orderG graph := fun q =>
    Nat.mul_le_mul_right _ (hlenle q)
  have hfirst : (e :: rest).countP (fun x => x.position == e.position) ≤
      orderG graph * orderG graph := by
    cases hp : e.position with
    | zero =>
      have := qb.zero
      omega
    | succ q =>
      have := qb.succ q
      have := hmul q
      omega
  have hsecond : (e :: rest).countP (fun x => x.position == e.position + 1) +
      (newElements graph e).length ≤ orderG graph * orderG graph := by
    have hlt := length_lt_of_not_mem (orderG graph) (cands e.position) e.node
      (inv.nodup _) (inv.bound _) hnode hmem
    have h1 := qb.succ e.position
    have h2 : ((cands e.position).length + 1) * orderG graph ≤ orderG graph * orderG graph :=
      Nat.mul_le_mul_right _ hlt
    rw [Nat.add_mul, Nat.one_mul] at h2
    omega
  have : 2 * orderG graph * orderG graph = orderG graph * orderG graph + orderG graph * orderG graph := by
    ring
  omega

/-- On a graph with a flagged source and `2 * order * order <= FILE_SIZE` the loop
of the pruner returns a table: the queue never overflows, no row is read past its
end, and the fuel is not exhausted. -/
theorem pruneLoop_ok (graph : Graph) (k : Nat) (fuel : Nat) (cands : Nat → List Nat)
    (queue : List fileElement_t) (inv : PruneInv graph cands queue)
    (qb : QueueBound graph cands queue)
    (hcap : 2 * orderG graph * orderG graph ≤ FILE_SIZE) (hord : orderG graph ≤ MAX_ORDER_G)
    (hfuel : queue.length + orderG graph * freeSlots graph k cands < fuel) :
    ∃ table, pruneLoop graph k fuel (encodeTable k cands) ⟨queue⟩ = .ok table := by
  induction fuel generalizing cands queue with
  | zero => omega
  | succ fuel ih =>
    cases queue with
    | nil =>
      exact ⟨encodeTable k cands, by simp [pruneLoop, isEmpty, File_t.currentPos]⟩
    | cons e rest =>
      have hne : isEmpty ⟨e :: rest⟩ = false := by simp [isEmpty, File_t.currentPos]
      simp only [pruneLoop, hne, top, Bool.false_eq_true, if_false]
      by_cases hpos : e.position > k
      · simp only [hpos, if_true]
        exact ⟨_, rfl⟩
      · simp only [hpos, if_false]
        have hpk : e.position ≤ k := by omega
        rw [encodeTable_getElem? k cands e.position hpk]
        simp only []
        rw [recordNode_encodeRow e.node (cands e.position) (orderG graph) 0 (Nat.zero_le _)]
        have hlen := length_le_of_bound (orderG graph) (cands e.position) (inv.nodup _)
          (inv.bound _)
        have hnode := inv.qbound e (List.mem_cons_self _ _)
        simp only [List.drop_zero, Nat.zero_add, List.take_of_length_le hlen]
        by_cases hmem : e.node ∈ cands e.position
        · simp only [hmem, if_true, pull]
          rw [encodeTable_set, Function.update_eq_self]
          have hlen2 : (e :: rest).length = rest.length + 1 := by simp
          exact ih cands rest (inv.pop_existing hmem) qb.after_existing (by omega)
        · have hlt := length_lt_of_not_mem (orderG graph) (cands e.position) e.node
            (inv.nodup _) (inv.bound _) hnode hmem
          have hnle : ¬ orderG graph ≤ (cands e.position).length := by omega
          have hshort : (cands e.position).length < MAX_ORDER_G := by omega
          simp only [hmem, hnle, if_false, hshort, if_true, Bool.false_eq_true]
          rw [pushAll_eq _ _ inv.cap]
          have hcap1 : (e :: rest).length + (newElements graph e).length ≤ FILE_SIZE :=
            le_trans (queue_length_le inv qb hmem) hcap
          simp only [hcap1, if_true, pull, List.cons_append]
          rw [encodeTable_set]
          have hcap2 : rest.length + (newElements graph e).length ≤ FILE_SIZE := by
            simp at hcap1
            omega
          apply ih _ _ (inv.pop_new hmem hshort hcap2) qb.after_new
          have h1 := freeSlots_update_lt graph k cands e.position e.node hpk hnode hmem
          have h2 := length_newElements_le graph e
          have h3 : orderG graph *
              freeSlots graph k (Function.update cands e.position
                (cands e.position ++ [e.node])) + orderG graph ≤
              orderG graph * freeSlots graph k cands := by
            calc _ = orderG graph * (freeSlots graph k (Function.update cands e.position
                (cands e.position ++ [e.node])) + 1) := by ring
              _ ≤ _ := Nat.mul_le_mul_left _ h1
          simp only [List.length_cons, List.length_append] at hfuel ⊢
          omega

theorem prunedTable_ok (graph : Graph) (k : Nat) (hs : getSouceNode graph < orderG graph)
    (hcap : 2 * orderG graph * orderG graph ≤ FILE_SIZE) (hord : orderG graph ≤ MAX_ORDER_G) :
    ∃ table, prunedTable graph k = .ok table := by
  unfold prunedTable push
  simp only [File_t.currentPos, List.length_nil, List.nil_append]
  have h0 : (0 : Nat) < FILE_SIZE := by decide
  simp only [h0, if_true]
  rw [encodeTable_empty]
  apply pruneLoop_ok graph k _ _ _ (PruneInv.initial graph hs) (QueueBound.atStart graph) hcap hord
  have := freeSlots_le graph k (fun _ => [])
  have h2 : orderG graph * freeSlots graph k (fun _ => []) ≤
      (k + 1) * orderG graph * orderG graph := by
    calc _ ≤ orderG graph * ((k + 1) * orderG graph) := Nat.mul_le_mul_left _ this
      _ = _ := by ring
  simp only [pruneFuel, List.length_singleton]
  omega

/-- On a graph with a flagged source and target and at most 22 nodes
(`2 * order * order <= FILE_SIZE`), `optimizeAndMakeFormula` returns a formula for
every length: no capacity is exceeded and the fuel of the model is enough. -/
theorem optimizeAndMakeFormula_returns (graph : Graph) (number k : Nat)
    (hs : getSouceNode graph < orderG graph) (ht : getTargetNode graph < orderG graph)
    (hcap : 2 * orderG graph * orderG graph ≤ FILE_SIZE) :
    ∃ f, optimizeAndMakeFormula graph number k = .ok f := by
  have hord : orderG graph < MAX_ORDER_G := by
    by_contra hge
    have h100 : MAX_ORDER_G ≤ orderG graph := by omega
    have := Nat.mul_le_mul h100 h100
    rw [Nat.mul_assoc] at hcap
    simp only [MAX_ORDER_G, FILE_SIZE] at this hcap
    omega
  obtain ⟨table, htab⟩ := prunedTable_ok graph k hs hcap (by omega)
  obtain ⟨cands, rfl, good, _⟩ := (prunedTable_spec graph k hs).2 table htab
  have hshort : ∀ p, p ≤ k → (cands p).length < MAX_ORDER_G := by
    intro p _
    have := length_le_of_bound (orderG graph) (cands p) (good.nodup p) (good.bound p)
    omega
  obtain ⟨f, hf, _⟩ := makeFormulaFromTable_spec graph number k cands ht hshort good.nodup
  exact ⟨f, by simp [optimizeAndMakeFormula, optimizeAndMakeFormulaWith, OPTIMIZE, htab, hf]⟩

/-- On graphs with a flagged source and target and at most 22 nodes each,
`graphsToPathFormula` returns a formula for every length. -/
theorem graphsToPathFormula_returns (graphs : List Graph) (k : Nat)
    (hflag : ∀ g ∈ graphs, getSouceNode g < orderG g ∧ getTargetNode g < orderG g)
    (hcap : ∀ g ∈ graphs, 2 * orderG g * orderG g ≤ FILE_SIZE) :
    ∃ f, graphsToPathFormula graphs k = .ok f := by
  unfold graphsToPathFormula
  obtain ⟨r, hr, hP⟩ := fillArray_exists
    (fun i =>
      match graphs[i]? with
      | none => .error .outOfBounds
      | some graph => optimizeAndMakeFormula graph i k)
    (fun _ _ => True) (List.range graphs.length)
    (by
      intro i hi
      have hi2 := List.mem_range.mp hi
      have hmem := List.getElem_mem hi2
      obtain ⟨f, hf⟩ := optimizeAndMakeFormula_returns graphs[i] i k (hflag _ hmem).1
        (hflag _ hmem).2 (hcap _ hmem)
      exact ⟨f, by simp [List.getElem?_eq_getElem hi2, hf], trivial⟩)
  rw [hr]
  have hlen : r.length = graphs.length := by
    have := hP.length_eq
    simpa using this.symm
  exact ⟨_, Z3_mk_and_length _ _ hlen.symm⟩

/-! ## What holds of the full formula and of the report -/

theorem fullFormulaLoop_members (isFormulaSat : Solver) (graphs : List Graph)
    (remaining k : Nat) (tab : List Z3_ast) (k1 : Nat) (tab1 : List Z3_ast)
    (h : fullFormulaLoop isFormulaSat graphs remaining k tab = .ok (k1, tab1)) :
    ∀ f ∈ tab1, f ∈ tab ∨ ∃ j, graphsToPathFormula graphs j = .ok f := by
  induction remaining generalizing k tab with
  | zero =>
    simp only [fullFormulaLoop, Except.ok.injEq, Prod.mk.injEq] at h
    obtain ⟨_, rfl⟩ := h
    exact fun f hf => Or.inl hf
  | succ remaining ih =>
    rw [fullFormulaLoop] at h
    cases hf : graphsToPathFormula graphs k with
    | error e => simp [hf] at h
    | ok g =>
      simp only [hf] at h
      have hmem : ∀ f ∈ tab ++ [g], f ∈ tab ∨ ∃ j, graphsToPathFormula graphs j = .ok f := by
        intro f hfm
        rcases List.mem_append.mp hfm with hfm | hfm
        · exact Or.inl hfm
        · rw [List.mem_singleton] at hfm
          subst hfm
          exact Or.inr ⟨k, hf⟩
      by_cases htrue : isFormulaSat g = .Z3_L_TRUE
      · simp only [htrue, if_true, Except.ok.injEq, Prod.mk.injEq] at h
        obtain ⟨_, rfl⟩ := h
        exact hmem
      · simp only [htrue, if_false] at h
        intro f hfm
        rcases ih (k + 1) (tab ++ [g]) h f hfm with h1 | h1
        · exact hmem f h1
        · exact Or.inr h1

/-- The part of C3 that the code keeps: with a sound solver, a formula that
`graphsToFullFormula` returns is satisfiable and some single length `k` gives
every graph a simple source-to-target path of `k` edges. -/
theorem graphsToFullFormula_ok_common_length (isFormulaSat : Solver) (graphs : List Graph)
    (f : Z3_ast) (hsound : isFormulaSat.Sound)
    (hflag : ∀ g ∈ graphs, getSouceNode g < orderG g ∧ getTargetNode g < orderG g)
    (h : graphsToFullFormula isFormulaSat graphs = .ok f) :
    Satisfiable f ∧ ∃ k, ∀ g ∈ graphs, HasSimplePath g k := by
  refine ⟨graphsToFullFormula_ok_satisfiable isFormulaSat graphs f hsound h, ?_⟩
  unfold graphsToFullFormula at h
  cases graphs with
  | nil => simp at h
  | cons graph0 rest =>
    simp only [] at h
    cases hloop : fullFormulaLoop isFormulaSat (graph0 :: rest)
        (minVertices (orderG graph0) rest) 0 [] with
    | error e => simp [hloop] at h
    | ok r =>
      obtain ⟨k1, tab1⟩ := r
      simp only [hloop] at h
      rcases fullFormulaLoop_inv isFormulaSat _ _ 0 [] k1 tab1 rfl hloop with hl | ⟨_, g, hg, htrue⟩
      · simp [Z3_mk_or, readArray, hl] at h
      · rcases fullFormulaLoop_members isFormulaSat _ _ 0 [] k1 tab1 hloop g hg with hnil | ⟨j, hj⟩
        · simp at hnil
        · exact ⟨j, (graphsToPathFormula_sat_iff_paths _ j g hflag hj).mp ((hsound g).1 htrue)⟩

/-- With a sound solver, the default mode of `main` prints a line only after the
verdict `Z3_L_TRUE` ("OUI") or `Z3_L_UNDEF` ("NON"): the verdict `Z3_L_FALSE` can
only follow the read of `graphsToFullFormula` past its array. -/
theorem mainDefaultMode_of_sound (isFormulaSat : Solver) (graphs : List Graph) (line : String)
    (hsound : isFormulaSat.Sound) (h : mainDefaultMode isFormulaSat graphs = .ok line) :
    ∃ f, graphsToFullFormula isFormulaSat graphs = .ok f ∧
      ((isFormulaSat f = .Z3_L_TRUE ∧ line = "OUI") ∨
        (isFormulaSat f = .Z3_L_UNDEF ∧ line = "NON")) := by
  unfold mainDefaultMode at h
  cases hf : graphsToFullFormula isFormulaSat graphs with
  | error e => simp [hf] at h
  | ok f =>
    simp only [hf, Except.ok.injEq] at h
    refine ⟨f, rfl, ?_⟩
    have hsat := graphsToFullFormula_ok_satisfiable isFormulaSat graphs f hsound hf
    cases hverdict : isFormulaSat f with
    | Z3_L_FALSE => exact absurd hsat ((hsound f).2 hverdict)
    | Z3_L_UNDEF =>
      rw [hverdict] at h
      exact Or.inr ⟨rfl, h.symm⟩
    | Z3_L_TRUE =>
      rw [hverdict] at h
      exact Or.inl ⟨rfl, h.symm⟩

/-! ## The flagged source and target -/

theorem firstFlagged_spec (flag : Nat → Bool) (remaining node : Nat) :
    node ≤ firstFlagged flag remaining node ∧
      firstFlagged flag remaining node ≤ node + remaining ∧
      (firstFlagged flag remaining node < node + remaining →
        flag (firstFlagged flag remaining node) = true) ∧
      ∀ n, node ≤ n → n < firstFlagged flag remaining node → flag n = false := by
  induction remaining generalizing node with
  | zero =>
    simp only [firstFlagged]
    exact ⟨le_refl _, le_refl _, fun h => absurd h (by omega), fun n h1 h2 => by omega⟩
  | succ remaining ih =>
    rw [firstFlagged]
    by_cases hf : flag node = true
    · rw [if_pos hf]
      exact ⟨le_refl _, by omega, fun _ => hf, fun n h1 h2 => by omega⟩
    · rw [if_neg hf]
      obtain ⟨h1, h2, h3, h4⟩ := ih (node + 1)
      refine ⟨by omega, by omega, fun h => h3 (by omega), ?_⟩
      intro n hn1 hn2
      by_cases hn : n = node
      · subst hn
        simpa using hf
      · exact h4 n (by omega) hn2

/-- The source is flagged: `getSouceNode` returns a node of the graph exactly when
some node carries the source flag, and it returns the first such node. -/
theorem getSouceNode_lt_iff (graph : Graph) :
    getSouceNode graph < orderG graph ↔ ∃ n, n < orderG graph ∧ isSource graph n = true := by
  obtain ⟨_, h2, h3, h4⟩ := firstFlagged_spec (isSource graph) (orderG graph) 0
  constructor
  · intro h
    exact ⟨_, h, h3 (by simpa [getSouceNode] using h)⟩
  · rintro ⟨n, hn, hflag⟩
    by_contra hge
    have := h4 n (Nat.zero_le _) (by
      have : orderG graph ≤ getSouceNode graph := by omega
      exact lt_of_lt_of_le hn this)
    rw [hflag] at this
    cases this

/-- The target is flagged: `getTargetNode` returns a node of the graph exactly when
some node carries the target flag, and it returns the first such node. -/
theorem getTargetNode_lt_iff (graph : Graph) :
    getTargetNode graph < orderG graph ↔ ∃ n, n < orderG graph ∧ isTarget graph n = true := by
  obtain ⟨_, h2, h3, h4⟩ := firstFlagged_spec (isTarget graph) (orderG graph) 0
  constructor
  · intro h
    exact ⟨_, h, h3 (by simpa [getTargetNode] using h)⟩
  · rintro ⟨n, hn, hflag⟩
    by_contra hge
    have := h4 n (Nat.zero_le _) (by
      have : orderG graph ≤ getTargetNode graph := by omega
      exact lt_of_lt_of_le hn this)
    rw [hflag] at this
    cases this

/-! ## The lookup of the source and of the target -/

theorem firstFlagged_lookup (flag : Nat → Bool) (order : Nat) :
    firstFlagged flag order 0 ≤ order ∧
      (firstFlagged flag order 0 = order ↔ ∀ n, n < order → flag n = false) ∧
      ∀ n, n < order → flag n = true →
        firstFlagged flag order 0 ≤ n ∧ flag (firstFlagged flag order 0) = true := by
  obtain ⟨_, h2, h3, h4⟩ := firstFlagged_spec flag order 0
  rw [Nat.zero_add] at h2 h3
  refine ⟨h2, ⟨?_, ?_⟩, ?_⟩
  · intro heq n hn
    exact h4 n (Nat.zero_le _) (by omega)
  · intro hall
    by_contra hne
    have hlt : firstFlagged flag order 0 < order := by omega
    have := hall _ hlt
    rw [h3 hlt] at this
    cases this
  · intro n hn hflag
    have hle : firstFlagged flag order 0 ≤ n := by
      by_contra hgt
      have := h4 n (Nat.zero_le _) (by omega)
      rw [hflag] at this
      cases this
    exact ⟨hle, h3 (by omega)⟩

/-- C13: `getSouceNode` (resp. `getTargetNode`) returns a value in `0..orderG graph`;
it returns `orderG graph` exactly when no node of the graph carries the source
(resp. target) flag; and when some node carries the flag it returns the smallest
flagged node. -/
theorem getSouceNode_getTargetNode_lookup (graph : Graph) :
    (getSouceNode graph ≤ orderG graph ∧
      (getSouceNode graph = orderG graph ↔ ∀ n, n < orderG graph → isSource graph n = false) ∧
      ∀ n, n < orderG graph → isSource graph n = true →
        getSouceNode graph ≤ n ∧ isSource graph (getSouceNode graph) = true) ∧
      (getTargetNode graph ≤ orderG graph ∧
        (getTargetNode graph = orderG graph ↔
          ∀ n, n < orderG graph → isTarget graph n = false) ∧
        ∀ n, n < orderG graph → isTarget graph n = true →
          getTargetNode graph ≤ n ∧ isTarget graph (getTargetNode graph) = true) :=
  ⟨firstFlagged_lookup (isSource graph) (orderG graph),
    firstFlagged_lookup (isTarget graph) (orderG graph)⟩

/-! ## The exclusivity formula -/

/-- C16: over a candidate table (each row a list of distinct nodes followed by the
sentinel), `makeSimpleFormula` returns a formula that is true under a truth
assignment exactly when, at every position `p` of `0..k`, exactly one candidate of
`p` has its variable true at `p` and the variable of that node is false at every
other position; a position without candidate makes the formula unsatisfiable; and
for a single candidate the entry is the conjunction itself, with the same meaning. -/
theorem makeSimpleFormula_exactly_one (number k : Nat) (cands : Nat → List Nat)
    (hshort : ∀ p, p ≤ k → (cands p).length < MAX_ORDER_G) (hnd : ∀ p, (cands p).Nodup) :
    ∃ f, makeSimpleFormula number k (encodeTable k cands) = .ok f ∧
      (∀ v : Z3_model, f.eval v = true ↔
        ∀ p, p ≤ k → ∃ n ∈ cands p, holds v number k p n = true ∧
          (∀ m ∈ cands p, holds v number k p m = true → m = n) ∧
          ∀ q, q ≤ k → q ≠ p → holds v number k q n = false) ∧
      ((∃ p, p ≤ k ∧ cands p = []) → ¬ Satisfiable f) ∧
      (∀ p n, p ≤ k → cands p = [n] →
        ∃ conjunction,
          simpleConjunction number k (encodeTable k cands) p 1 0 = .ok conjunction ∧
          simplePosition number k (encodeTable k cands) p = .ok conjunction) := by
  obtain ⟨f, hf, hmean⟩ := makeSimpleFormula_spec number k cands hshort hnd
  have hmean2 : ∀ v : Z3_model, f.eval v = true ↔
      ∀ p, p ≤ k → ∃ n ∈ cands p, holds v number k p n = true ∧
        (∀ m ∈ cands p, holds v number k p m = true → m = n) ∧
        ∀ q, q ≤ k → q ≠ p → holds v number k q n = false := by
    intro v
    rw [hmean v]
    unfold SimpleHolds
    constructor
    · intro h p hp
      obtain ⟨n, hn, h1, h2, h3⟩ := h p hp
      refine ⟨n, hn, h1, ?_, h3⟩
      intro m hm hh
      by_contra hne
      rw [h2 m hm hne] at hh
      cases hh
    · intro h p hp
      obtain ⟨n, hn, h1, h2, h3⟩ := h p hp
      refine ⟨n, hn, h1, ?_, h3⟩
      intro m hm hne
      cases hh : holds v number k p m with
      | false => rfl
      | true => exact absurd (h2 m hm hh) hne
  refine ⟨f, hf, hmean2, ?_, ?_⟩
  · rintro ⟨p, hp, hempty⟩ ⟨v, hv⟩
    obtain ⟨n, hn, _⟩ := (hmean2 v).mp hv p hp
    rw [hempty] at hn
    cases hn
  · intro p n hp hpn
    have hlen : (cands p).length = 1 := by rw [hpn]; rfl
    obtain ⟨conj, hconj, _⟩ := simpleConjunction_spec number k cands p 0 hp (by omega) (hnd p)
    rw [hlen] at hconj
    refine ⟨conj, hconj, ?_⟩
    unfold simplePosition
    rw [rowSize_encodeTable k cands p hp (hshort p hp), hlen]
    simp [fillArray, hconj]

/-- The table of the pruner for A -> B -> C at length 2. -/
theorem makeSimpleFormula_exactly_one_graphABC :
    ∃ f, makeSimpleFormula 0 2 (encodeTable 2 (fun p => [p])) = .ok f ∧
      (∀ v : Z3_model, f.eval v = true ↔
        ∀ p, p ≤ 2 → ∃ n ∈ [p], holds v 0 2 p n = true ∧
          (∀ m ∈ [p], holds v 0 2 p m = true → m = n) ∧
          ∀ q, q ≤ 2 → q ≠ p → holds v 0 2 q n = false) ∧
      ((∃ p, p ≤ 2 ∧ [p] = []) → ¬ Satisfiable f) ∧
      (∀ p n, p ≤ 2 → [p] = [n] →
        ∃ conjunction,
          simpleConjunction 0 2 (encodeTable 2 (fun p => [p])) p 1 0 = .ok conjunction ∧
          simplePosition 0 2 (encodeTable 2 (fun p => [p])) p = .ok conjunction) :=
  makeSimpleFormula_exactly_one 0 2 (fun p => [p]) (by intro p _; simp [MAX_ORDER_G]) (by simp)
/-! ## The number of disjuncts of the full formula -/

theorem fullFormulaLoop_first_sat (isFormulaSat : Solver) (graphs : List Graph)
    (fs : Nat → Z3_ast) (k0 : Nat) (remaining k : Nat) (tab : List Z3_ast)
    (hk : k ≤ k0) (hk0 : k0 < k + remaining)
    (hf : ∀ j, k ≤ j → j ≤ k0 → graphsToPathFormula graphs j = .ok (fs j))
    (hno : ∀ j, k ≤ j → j < k0 → isFormulaSat (fs j) ≠ .Z3_L_TRUE)
    (hyes : isFormulaSat (fs k0) = .Z3_L_TRUE) :
    fullFormulaLoop isFormulaSat graphs remaining k tab =
      .ok (k0, tab ++ (List.range' k (k0 + 1 - k)).map fs) := by
  induction remaining generalizing k tab with
  | zero => omega
  | succ remaining ih =>
    rw [fullFormulaLoop]
    simp only [hf k (le_refl _) hk]
    by_cases heq : k = k0
    · subst heq
      simp [hyes]
    · have hlt : k < k0 := by omega
      rw [if_neg (hno k (le_refl _) hlt)]
      rw [ih (k + 1) (tab ++ [fs k]) (by omega) (by omega)
        (fun j h1 h2 => hf j (by omega) h2) (fun j h1 h2 => hno j (by omega) h2)]
      have : k0 + 1 - k = (k0 + 1 - (k + 1)) + 1 := by omega
      rw [this, List.range'_succ]
      simp

/-- When `k0` is the first length with the verdict `Z3_L_TRUE`, `graphsToFullFormula`
returns the disjunction of the formulas of the lengths `0..k0`. -/
theorem graphsToFullFormula_first_sat (isFormulaSat : Solver) (graph0 : Graph)
    (rest : List Graph) (fs : Nat → Z3_ast) (k0 : Nat)
    (hk0 : k0 < minVertices (orderG graph0) rest)
    (hf : ∀ j, j ≤ k0 → graphsToPathFormula (graph0 :: rest) j = .ok (fs j))
    (hno : ∀ j, j < k0 → isFormulaSat (fs j) ≠ .Z3_L_TRUE)
    (hyes : isFormulaSat (fs k0) = .Z3_L_TRUE) :
    graphsToFullFormula isFormulaSat (graph0 :: rest) =
      .ok (.or ((List.range (k0 + 1)).map fs)) := by
  unfold graphsToFullFormula
  simp only [fullFormulaLoop_first_sat isFormulaSat (graph0 :: rest) fs k0
    (minVertices (orderG graph0) rest) 0 [] (Nat.zero_le _) (by omega)
    (fun j _ h => hf j h) (fun j _ h => hno j h) hyes]
  rw [List.nil_append, Nat.sub_zero, ← List.range_eq_range']
  exact Z3_mk_or_length _ _ (by simp)

/-- C17 (code): for the two graphs A -> B -> C and 0 -> 1 -> 2 -> 3 (least order 3)
and every sound solver, no length 0, 1, 2 is satisfiable: the loop of
`graphsToFullFormula` fills the 3 slots of `tabFormula`, ends with `k = 3`, and the
call `Z3_mk_or(ctx, k+1, tabFormula)` asks for 4 disjuncts, one more than the slots
filled and than the length of the array. -/
theorem graphsToFullFormula_disjunct_count (isFormulaSat : Solver)
    (hsound : isFormulaSat.Sound) :
    minVertices (orderG graphABC) [graphChain4] = 3 ∧
      ∃ tabFormula,
        fullFormulaLoop isFormulaSat [graphABC, graphChain4] 3 0 [] = .ok (3, tabFormula) ∧
        tabFormula.length = 3 ∧
        Z3_mk_or (3 + 1) tabFormula = .error .outOfBounds := by
  refine ⟨by rfl, ?_⟩
  obtain ⟨tab1, h1, h2⟩ := fullFormulaLoop_exhausted isFormulaSat [graphABC, graphChain4] 3 0 []
    (fun j _ hj => ⟨formulaPair j, by
      have hj3 : j < 3 := by omega
      interval_cases j <;> rfl, fun htrue =>
      formulaPair_unsat j (by omega) ((hsound _).1 htrue)⟩)
  refine ⟨tab1, h1, by simpa using h2, ?_⟩
  simp only [List.length_nil, Nat.zero_add] at h2
  simp [Z3_mk_or, readArray, h2]

/-- The run of C17 with the solver that answers `Z3_L_UNDEF` to every formula. -/
theorem graphsToFullFormula_disjunct_count_undecided :
    minVertices (orderG graphABC) [graphChain4] = 3 ∧
      ∃ tabFormula,
        fullFormulaLoop undecidedSolver [graphABC, graphChain4] 3 0 [] = .ok (3, tabFormula) ∧
        tabFormula.length = 3 ∧
        Z3_mk_or (3 + 1) tabFormula = .error .outOfBounds :=
  graphsToFullFormula_disjunct_count undecidedSolver undecidedSolver_sound
/-! ## Completeness of the pruner -/

theorem Level.loopFreeWalk {graph : Graph} {p n : Nat}
    (hs : getSouceNode graph < orderG graph) (h : Level graph p n) :
    ∃ walk, IsLoopFreeWalk graph p walk n := by
  induction h with
  | zero =>
    exact ⟨[getSouceNode graph], by simp [IsWalk], by simpa using hs, by simp⟩
  | @step p n m _ hm hedge hne ih =>
    obtain ⟨walk, ⟨hlen, hhead, hlast, hchain⟩, hbound, hfree⟩ := ih
    refine ⟨walk ++ [m], ⟨by simp [hlen], ?_, by simp, ?_⟩, ?_, ?_⟩
    · cases walk with
      | nil => simp at hlen
      | cons a l => simpa using hhead
    · rw [List.chain'_append]
      refine ⟨hchain, by simp, ?_⟩
      intro x hx y hy
      simp only [List.head?_cons, Option.mem_def, Option.some.injEq] at hy
      rw [Option.mem_def, hlast, Option.some.injEq] at hx
      subst hx hy
      exact hedge
    · intro x hx
      rw [List.mem_append, List.mem_singleton] at hx
      rcases hx with hx | rfl
      · exact hbound x hx
      · exact hm
    · rw [List.chain'_append]
      refine ⟨hfree, by simp, ?_⟩
      intro x hx y hy
      simp only [List.head?_cons, Option.mem_def, Option.some.injEq] at hy
      rw [Option.mem_def, hlast, Option.some.injEq] at hx
      subst hx hy
      exact hne

theorem Level.of_loopFreeWalk {graph : Graph} (p : Nat) :
    ∀ (walk : List Nat) (n : Nat), IsLoopFreeWalk graph p walk n → Level graph p n := by
  induction p with
  | zero =>
    rintro walk n ⟨⟨hlen, hhead, hlast, _⟩, _, _⟩
    match walk, hlen with
    | [a], _ =>
      simp only [List.head?_cons, Option.some.injEq] at hhead
      simp only [List.getLast?_singleton, Option.some.injEq] at hlast
      subst hhead hlast
      exact Level.zero
  | succ p ih =>
    rintro walk n ⟨⟨hlen, hhead, hlast, hchain⟩, hbound, hfree⟩
    rcases List.eq_nil_or_concat walk with rfl | ⟨front, b, rfl⟩
    · simp at hlen
    · rw [List.concat_eq_append] at hlen hhead hlast hchain hbound hfree
      have hflen : front.length = p + 1 := by simpa using hlen
      have hb : b = n := by simpa using hlast
      subst hb
      have hne : front ≠ [] := by
        intro h
        rw [h] at hflen
        simp at hflen
      obtain ⟨u, hu⟩ : ∃ u, front.getLast? = some u :=
        ⟨front.getLast hne, List.getLast?_eq_getLast _ hne⟩
      rw [List.chain'_append] at hchain hfree
      have hfhead : front.head? = some (getSouceNode graph) := by
        cases front with
        | nil => exact absurd rfl hne
        | cons a l => simpa using hhead
      have hprev : Level graph p u :=
        ih front u ⟨⟨hflen, hfhead, hu, hchain.1⟩,
          fun x hx => hbound x (List.mem_append_left _ hx), hfree.1⟩
      exact Level.step hprev (hbound b (by simp))
        (hchain.2.2 u (by rw [Option.mem_def, hu]) b (by simp))
        (hfree.2.2 u (by rw [Option.mem_def, hu]) b (by simp))

theorem GoodTable.complete {graph : Graph} {k : Nat} {cands : Nat → List Nat}
    (good : GoodTable graph k cands) {p n : Nat} (h : Level graph p n) :
    p ≤ k → n ∈ cands p := by
  induction h with
  | zero => exact fun _ => good.source
  | @step p n m _ hm hedge hne ih =>
    intro hp
    exact good.closed p (by omega) n (ih (by omega)) m hm hedge hne

/-- C14: when the pruning loop hands over its table (the queue capacity was not
exceeded) for a graph with a flagged source, each row `p` of `0..k` lists nodes
without repetition, followed only by the sentinel `-1`, and holds every node that
ends a walk of exactly `p` edges from the source that uses no self-loop edge. -/
theorem prunedTable_complete (graph : Graph) (k : Nat) (table : List (List Int))
    (hs : getSouceNode graph < orderG graph) (h : prunedTable graph k = .ok table) :
    ∃ cands : Nat → List Nat, table = encodeTable k cands ∧
      (∀ p, (cands p).Nodup) ∧
      ∀ p, p ≤ k → ∀ n walk, IsLoopFreeWalk graph p walk n → n ∈ cands p := by
  obtain ⟨cands, rfl, good, _⟩ := (prunedTable_spec graph k hs).2 table h
  exact ⟨cands, rfl, good.nodup, fun p hp n walk hwalk =>
    good.complete (Level.of_loopFreeWalk p walk n hwalk) hp⟩

/-- The pruner on A -> B -> C at length 2: its table holds every node at the end
of a walk from A. -/
theorem prunedTable_complete_graphABC :
    ∃ cands : Nat → List Nat, encodeTable 2 (fun p => [p]) = encodeTable 2 cands ∧
      (∀ p, (cands p).Nodup) ∧
      ∀ p, p ≤ 2 → ∀ n walk, IsLoopFreeWalk graphABC p walk n → n ∈ cands p :=
  prunedTable_complete graphABC 2 (encodeTable 2 (fun p => [p])) (by decide) (by rfl)

/-- C15 (counterexample): on the graph 0 -> 1, 0 -> 2, 1 -> 2 at length 2 the pruner returns
the rows `[0]`, `[1, 2]`, `[2]`: node 2 is a candidate at position 1, its least
number of hops from the source, and at position 2 as well. -/
theorem prunedTable_graphTriangle :
    prunedTable graphTriangle 2 = .ok (encodeTable 2 candsTriangle) ∧
      2 ∈ candsTriangle 1 ∧ 2 ∈ candsTriangle 2 := by
  refine ⟨by rfl, by decide, by decide⟩

/-- C15 (amended): when the pruning loop hands over its table for a graph with a
flagged source, each node occurs at most once in the row of one position, and it is
in the row of position `p` of `0..k` exactly when it ends a walk of `p` edges from
the source that uses no self-loop edge (so a node is at every distance at which
such a walk reaches it, not only at the least one). -/
theorem prunedTable_rows (graph : Graph) (k : Nat) (table : List (List Int))
    (hs : getSouceNode graph < orderG graph) (h : prunedTable graph k = .ok table) :
    ∃ cands : Nat → List Nat, table = encodeTable k cands ∧
      (∀ p, (cands p).Nodup) ∧
      ∀ p, p ≤ k → ∀ n, n ∈ cands p ↔ ∃ walk, IsLoopFreeWalk graph p walk n := by
  obtain ⟨cands, rfl, good, hlevel⟩ := (prunedTable_spec graph k hs).2 table h
  refine ⟨cands, rfl, good.nodup, fun p hp n => ⟨fun hn => (hlevel p n hn).loopFreeWalk hs, ?_⟩⟩
  rintro ⟨walk, hwalk⟩
  exact good.complete (Level.of_loopFreeWalk p walk n hwalk) hp

/-- The rows of the pruner on the graph 0 -> 1, 0 -> 2, 1 -> 2 at length 2. -/
theorem prunedTable_rows_graphTriangle :
    ∃ cands : Nat → List Nat, encodeTable 2 candsTriangle = encodeTable 2 cands ∧
      (∀ p, (cands p).Nodup) ∧
      ∀ p, p ≤ 2 → ∀ n, n ∈ cands p ↔ ∃ walk, IsLoopFreeWalk graphTriangle p walk n :=
  prunedTable_rows graphTriangle 2 (encodeTable 2 candsTriangle) (by decide) (by rfl)
/-! ## What the decoder stores at a position -/

theorem firstTruePosition_eq_some_iff (v : Z3_model) (number k n p : Nat) :
    firstTruePosition v number k n = some p ↔ p ≤ k ∧ FirstTrueAt v number k p n := by
  rw [firstTruePosition_eq, List.find?_range_eq_some]
  simp only [List.mem_range, FirstTrueAt, Bool.not_eq_true', Bool.not_eq_eq_eq_not, Bool.not_true]
  constructor
  · rintro ⟨h1, h2, h3⟩
    exact ⟨by omega, h1, h3⟩
  · rintro ⟨h1, h2, h3⟩
    exact ⟨h2, by omega, h3⟩

theorem decodeNodes_append (v : Z3_model) (number k : Nat) (l1 l2 : List Nat)
    (init : List (Option Nat)) :
    decodeNodes v number k (l1 ++ l2) init =
      decodeNodes v number k l2 (decodeNodes v number k l1 init) := by
  induction l1 generalizing init with
  | nil => rfl
  | cons n l1 ih =>
    rw [List.cons_append, decodeNodes, decodeNodes]
    cases firstTruePosition v number k n with
    | none => exact ih init
    | some pos => exact ih _

theorem decodeNodes_length (v : Z3_model) (number k : Nat) (ns : List Nat)
    (init : List (Option Nat)) : (decodeNodes v number k ns init).length = init.length := by
  induction ns generalizing init with
  | nil => rfl
  | cons n ns ih =>
    rw [decodeNodes]
    cases firstTruePosition v number k n with
    | none => exact ih init
    | some pos =>
      simp only []
      rw [ih, List.length_set]

theorem decodeNodes_single (v : Z3_model) (number k n : Nat) (init : List (Option Nat)) :
    decodeNodes v number k [n] init =
      match firstTruePosition v number k n with
      | some posInPath => init.set posInPath (some n)
      | none => init := by
  rw [decodeNodes]
  cases firstTruePosition v number k n <;> rfl

theorem decodeNodes_range (v : Z3_model) (number k p : Nat) (hp : p ≤ k) (N : Nat) :
    (∀ n, (decodeNodes v number k (List.range N) (List.replicate (k + 1) none))[p]? =
        some (some n) ↔
      n < N ∧ FirstTrueAt v number k p n ∧
        ∀ m, n < m → m < N → ¬ FirstTrueAt v number k p m) ∧
    ((decodeNodes v number k (List.range N) (List.replicate (k + 1) none))[p]? = some none ↔
      ∀ n, n < N → ¬ FirstTrueAt v number k p n) := by
  induction N with
  | zero =>
    simp only [List.range_zero, decodeNodes]
    rw [List.getElem?_replicate_of_lt (by omega)]
    simp
  | succ N ih =>
    obtain ⟨ih1, ih2⟩ := ih
    rw [List.range_succ, decodeNodes_append]
    generalize hd : decodeNodes v number k (List.range N) (List.replicate (k + 1) none) = d
      at ih1 ih2
    have hlen : d.length = k + 1 := by
      rw [← hd, decodeNodes_length, List.length_replicate]
    rw [decodeNodes_single]
    by_cases hN : FirstTrueAt v number k p N
    · rw [(firstTruePosition_eq_some_iff v number k N p).mpr ⟨hp, hN⟩]
      simp only []
      rw [List.getElem?_set_self (by omega)]
      constructor
      · intro n
        constructor
        · intro h
          simp only [Option.some.injEq] at h
          subst h
          exact ⟨by omega, hN, fun m h1 h2 => by omega⟩
        · rintro ⟨h1, h2, h3⟩
          by_cases hn : n = N
          · rw [hn]
          · exact absurd hN (h3 N (by omega) (by omega))
      · constructor
        · intro h
          simp at h
        · intro h
          exact absurd hN (h N (by omega))
    · have hstep : ∀ x : Option Nat,
          (match firstTruePosition v number k N with
            | some posInPath => d.set posInPath (some N)
            | none => d)[p]? = some x ↔ d[p]? = some x := by
        intro x
        cases hfirst : firstTruePosition v number k N with
        | none => simp
        | some pos =>
          simp only []
          have hne : pos ≠ p := by
            intro h
            rw [h] at hfirst
            exact hN ((firstTruePosition_eq_some_iff v number k N p).mp hfirst).2
          rw [List.getElem?_set_ne hne]
      constructor
      · intro n
        rw [hstep, ih1]
        constructor
        · rintro ⟨h1, h2, h3⟩
          refine ⟨by omega, h2, fun m hm1 hm2 => ?_⟩
          by_cases hm : m = N
          · rw [hm]
            exact hN
          · exact h3 m hm1 (by omega)
        · rintro ⟨h1, h2, h3⟩
          have hn : n ≠ N := by
            rintro rfl
            exact hN h2
          exact ⟨by omega, h2, fun m hm1 hm2 => h3 m hm1 (by omega)⟩
      · rw [hstep, ih2]
        constructor
        · intro h n hn
          by_cases hnN : n = N
          · rw [hnN]
            exact hN
          · exact h n (by omega)
        · intro h n hn
          exact h n (by omega)

/-- C18 (counterexample): under a model of the length-2 formula of the graph 0 -> 1, 0 -> 2,
1 -> 3 that makes the variables of the nodes 0 and 2 true at position 0, the
smallest node true at position 0 is node 0 and the decoder stores node 2 there. -/
theorem decodedPath_not_smallest :
    (formulaOf (graphsToPathFormula [graphFork] 2)).eval forkModel = true ∧
      holds forkModel 0 2 0 0 = true ∧ holds forkModel 0 2 0 2 = true ∧
      (decodedPath forkModel graphFork 0 2)[0]? = some (some 2) := by
  refine ⟨by rfl, by rfl, by rfl, by rfl⟩

/-- C18 (amended): for every model, graph, length `k` and position `p` of `0..k`,
the node the decoder stores for position `p` is the largest node of the graph
whose first true position (the least `q` with the variable of the node true at `q`)
is `p`; the entry is left unwritten exactly when `p` is the first true position of
no node of the graph. -/
theorem decodedPath_position (v : Z3_model) (graph : Graph) (number k p : Nat)
    (hp : p ≤ k) :
    (∀ n, (decodedPath v graph number k)[p]? = some (some n) ↔
      n < orderG graph ∧ FirstTrueAt v number k p n ∧
        ∀ m, n < m → m < orderG graph → ¬ FirstTrueAt v number k p m) ∧
    ((decodedPath v graph number k)[p]? = some none ↔
      ∀ n, n < orderG graph → ¬ FirstTrueAt v number k p n) :=
  decodeNodes_range v number k p hp (orderG graph)

/-- The entry of position 0 under the model of the fork graph. -/
theorem decodedPath_position_forkModel :
    (∀ n, (decodedPath forkModel graphFork 0 2)[0]? = some (some n) ↔
      n < orderG graphFork ∧ FirstTrueAt forkModel 0 2 0 n ∧
        ∀ m, n < m → m < orderG graphFork → ¬ FirstTrueAt forkModel 0 2 0 m) ∧
    ((decodedPath forkModel graphFork 0 2)[0]? = some none ↔
      ∀ n, n < orderG graphFork → ¬ FirstTrueAt forkModel 0 2 0 n) :=
  decodedPath_position forkModel graphFork 0 2 0 (by decide)
/-! ## The search by length -/

theorem findPathLoop_eq_visit (flags : Flags) (isFormulaSat : Solver) (graphs : List Graph)
    (min_vertices : Nat) (step : Int) (lengths : List Nat) :
    ∀ (k : Int) (log : List Event),
      (∀ i a : Nat, lengths[i]? = some a → (a : Int) = k + (i : Int) * step ∧ a < min_vertices) →
      findPathLoop flags isFormulaSat graphs min_vertices step lengths.length k log =
        visitLengths flags isFormulaSat graphs lengths log := by
  induction lengths with
  | nil =>
    intro k log _
    rfl
  | cons a ls ih =>
    intro k log h
    obtain ⟨ha, hlt⟩ := h 0 a (by simp)
    simp only [Nat.cast_zero, zero_mul, add_zero] at ha
    have hguard : 0 ≤ k ∧ k < (min_vertices : Int) := by omega
    have hnat : k.toNat = a := by omega
    rw [List.length_cons, findPathLoop, if_pos hguard, hnat, visitLengths]
    cases hbody : findPathBody flags isFormulaSat graphs a with
    | error e => rfl
    | ok r =>
      obtain ⟨leave, events⟩ := r
      simp only []
      cases leave with
      | true => rfl
      | false =>
        simp only [Bool.false_eq_true, if_false]
        apply ih
        intro i b hb
        obtain ⟨h1, h2⟩ := h (i + 1) b (by simpa using hb)
        refine ⟨?_, h2⟩
        rw [h1, ← ha]
        push_cast
        ring

theorem findPath_eq_visit (flags : Flags) (isFormulaSat : Solver) (graph0 : Graph)
    (rest : List Graph) :
    findPath flags isFormulaSat (graph0 :: rest) =
      visitLengths flags isFormulaSat (graph0 :: rest)
        (lengthsInOrder flags (minVertices (orderG graph0) rest)) [] := by
  unfold findPath lengthsInOrder
  simp only []
  generalize minVertices (orderG graph0) rest = m
  by_cases hd : flags.DECREASING_ORDER = true
  · rw [if_pos hd, if_pos hd]
    have h := findPathLoop_eq_visit flags isFormulaSat (graph0 :: rest) m (-1)
      (List.range m).reverse ((m : Int) - 1) [] (by
        intro i a hia
        by_cases hi : i < m
        · rw [List.getElem?_reverse (by simpa using hi), List.length_range,
            List.getElem?_range (by omega)] at hia
          simp only [Option.some.injEq] at hia
          omega
        · rw [List.getElem?_eq_none (by simpa using hi)] at hia
          cases hia)
    rw [List.length_reverse, List.length_range] at h
    exact h
  · rw [if_neg hd, if_neg hd]
    have h := findPathLoop_eq_visit flags isFormulaSat (graph0 :: rest) m 1
      (List.range m) 0 [] (by
        intro i a hia
        by_cases hi : i < m
        · rw [List.getElem?_range hi] at hia
          simp only [Option.some.injEq] at hia
          omega
        · rw [List.getElem?_eq_none (by simpa using hi)] at hia
          cases hia)
    rw [List.length_range] at h
    exact h

theorem findPathBody_of_build (flags : Flags) (isFormulaSat : Solver) (graphs : List Graph)
    (k : Nat) (f : Z3_ast) (hf : graphsToPathFormula graphs k = .ok f) :
    findPathBody flags isFormulaSat graphs k =
      if verdictTrue isFormulaSat graphs k = true then .ok (!flags.TEST_ALL, foundEvents flags k)
      else .ok (false, notFoundEvents flags (isFormulaSat f) k) := by
  unfold findPathBody verdictTrue
  rw [hf]
  simp only [formulaOf, decide_eq_true_eq]

theorem tried_append (l1 l2 : List Event) : tried (l1 ++ l2) = tried l1 ++ tried l2 := by
  simp [tried]

theorem tried_foundEvents (flags : Flags) (k : Nat) : tried (foundEvents flags k) = [k] := by
  unfold foundEvents tried
  cases flags.PRINT_PATH <;> cases flags.WRITE_PATH_IN_DOT_FILE <;>
    cases flags.PRINT_FORMULA <;> rfl

theorem count_foundEvents (flags : Flags) (k j : Nat) :
    (foundEvents flags k).count (.check j) = if j = k then 1 else 0 := by
  unfold foundEvents
  by_cases h : j = k
  · subst h
    cases flags.PRINT_PATH <;> cases flags.WRITE_PATH_IN_DOT_FILE <;>
      cases flags.PRINT_FORMULA <;> simp [List.count_cons]
  · have h2 : ¬ k = j := fun e => h e.symm
    cases flags.PRINT_PATH <;> cases flags.WRITE_PATH_IN_DOT_FILE <;>
      cases flags.PRINT_FORMULA <;> simp [List.count_cons, h, h2]

theorem tried_notFoundEvents (flags : Flags) (verdict : Z3_lbool) (k : Nat) :
    tried (notFoundEvents flags verdict k) = [k] := by
  unfold notFoundEvents tried
  split <;> rfl

theorem count_notFoundEvents (flags : Flags) (verdict : Z3_lbool) (k j : Nat) :
    (notFoundEvents flags verdict k).count (.check j) = if j = k then 2 else 0 := by
  unfold notFoundEvents
  by_cases h : j = k
  · subst h
    split <;> simp [List.count_cons]
  · have h2 : ¬ k = j := fun e => h e.symm
    split <;> simp [List.count_cons, h, h2]

theorem visitLengths_checks (flags : Flags) (isFormulaSat : Solver) (graphs : List Graph)
    (lengths : List Nat) :
    ∀ log, lengths.Nodup → (∀ k ∈ lengths, ∃ f, graphsToPathFormula graphs k = .ok f) →
      ∃ log1, visitLengths flags isFormulaSat graphs lengths log = .ok (log ++ log1) ∧
        (∀ j ∈ tried log1, j ∈ lengths) ∧
        ∀ j, log1.count (.check j) =
          if j ∈ tried log1 then (if verdictTrue isFormulaSat graphs j = true then 1 else 2)
          else 0 := by
  induction lengths with
  | nil =>
    intro log _ _
    exact ⟨[], by simp [visitLengths], by simp [tried], by simp [tried]⟩
  | cons k ls ih =>
    intro log hnd hbuild
    obtain ⟨f, hf⟩ := hbuild k (List.mem_cons_self _ _)
    obtain ⟨hk, hnd2⟩ := List.nodup_cons.mp hnd
    have hrest : ∀ (events : List Event), tried events = [k] →
        (∀ j, events.count (.check j) =
          if j = k then (if verdictTrue isFormulaSat graphs k = true then 1 else 2) else 0) →
        ∃ log1, visitLengths flags isFormulaSat graphs ls (log ++ events) =
            .ok (log ++ log1) ∧
          (∀ j ∈ tried log1, j ∈ k :: ls) ∧
          ∀ j, log1.count (.check j) =
            if j ∈ tried log1 then (if verdictTrue isFormulaSat graphs j = true then 1 else 2)
            else 0 := by
      intro events htried hcount
      obtain ⟨log1, h1, h2, h3⟩ := ih (log ++ events) hnd2
        (fun j hj => hbuild j (List.mem_cons_of_mem _ hj))
      refine ⟨events ++ log1, ?_, ?_, ?_⟩
      · rw [h1, List.append_assoc]
      · intro j hj
        rw [tried_append, htried] at hj
        rcases List.mem_append.mp hj with hj | hj
        · rw [List.mem_singleton.mp hj]
          exact List.mem_cons_self _ _
        · exact List.mem_cons_of_mem _ (h2 j hj)
      · intro j
        rw [List.count_append, hcount j, h3 j, tried_append, htried]
        by_cases hjk : j = k
        · subst hjk
          have hnot : j ∉ tried log1 := fun h => hk (h2 j h)
          simp [hnot]
        · simp [hjk]
    have hsingle : ∀ (events : List Event), tried events = [k] →
        (∀ j, events.count (.check j) =
          if j = k then (if verdictTrue isFormulaSat graphs k = true then 1 else 2) else 0) →
        (∀ j ∈ tried events, j ∈ k :: ls) ∧
          ∀ j, events.count (.check j) =
            if j ∈ tried events then
              (if verdictTrue isFormulaSat graphs j = true then 1 else 2)
            else 0 := by
      intro events htried hcount
      refine ⟨?_, ?_⟩
      · intro j hj
        rw [htried] at hj
        rw [List.mem_singleton.mp hj]
        exact List.mem_cons_self _ _
      · intro j
        rw [hcount j, htried]
        by_cases hjk : j = k
        · subst hjk
          simp
        · simp [hjk]
    rw [visitLengths, findPathBody_of_build flags isFormulaSat graphs k f hf]
    by_cases hsat : verdictTrue isFormulaSat graphs k = true
    · rw [if_pos hsat]
      have hc : ∀ j, (foundEvents flags k).count (.check j) =
          if j = k then (if verdictTrue isFormulaSat graphs k = true then 1 else 2) else 0 := by
        intro j
        rw [count_foundEvents, if_pos hsat]
      cases hleave : flags.TEST_ALL with
      | false =>
        simp only [Bool.not_false, if_true]
        obtain ⟨h2, h3⟩ := hsingle _ (tried_foundEvents flags k) hc
        exact ⟨foundEvents flags k, rfl, h2, h3⟩
      | true =>
        simp only [Bool.not_true, Bool.false_eq_true, if_false]
        exact hrest _ (tried_foundEvents flags k) hc
    · rw [if_neg hsat]
      simp only [Bool.false_eq_true, if_false]
      apply hrest _ (tried_notFoundEvents flags _ k)
      intro j
      rw [count_notFoundEvents, if_neg hsat]

theorem mem_lengthsInOrder (flags : Flags) (m k : Nat) : k ∈ lengthsInOrder flags m ↔ k < m := by
  unfold lengthsInOrder
  split <;> simp

theorem nodup_lengthsInOrder (flags : Flags) (m : Nat) : (lengthsInOrder flags m).Nodup := by
  unfold lengthsInOrder
  split
  · exact List.nodup_reverse.mpr (List.nodup_range m)
  · exact List.nodup_range m

theorem graphABC_builds (k : Nat) : ∃ f, graphsToPathFormula [graphABC] k = .ok f :=
  graphsToPathFormula_returns [graphABC] k
    (by
      intro g hg
      rw [List.mem_singleton.mp hg]
      decide)
    (by
      intro g hg
      rw [List.mem_singleton.mp hg]
      decide)

/-- C19 (counterexample): with the option `-s` alone on A -> B -> C and the solver that
answers `Z3_L_UNDEF` to every formula, `findPath` calls `isFormulaSat` twice on
the formula of each length 0, 1, 2: once in the `if` and once in the `else if`. -/
theorem findPath_second_check :
    findPath flagsSeparately undecidedSolver [graphABC] =
        .ok [.build 0, .check 0, .check 0, .build 1, .check 1, .check 1,
          .build 2, .check 2, .check 2] ∧
      List.count (Event.check 0) [.build 0, .check 0, .check 0, .build 1, .check 1, .check 1,
          .build 2, .check 2, .check 2] = 2 := by
  refine ⟨by rfl, by decide⟩

/-- C19 (amended): in every mode and for every solver, when every formula
construction returns, `findPath` calls `isFormulaSat` on the formula of each length
it tries exactly once when the verdict is `Z3_L_TRUE` and exactly twice when the
verdict is `Z3_L_FALSE` or `Z3_L_UNDEF`. -/
theorem findPath_checks (flags : Flags) (isFormulaSat : Solver) (graph0 : Graph)
    (rest : List Graph)
    (hbuild : ∀ k, k < minVertices (orderG graph0) rest →
      ∃ f, graphsToPathFormula (graph0 :: rest) k = .ok f) :
    ∃ log, findPath flags isFormulaSat (graph0 :: rest) = .ok log ∧
      ∀ k ∈ tried log, log.count (.check k) =
        if verdictTrue isFormulaSat (graph0 :: rest) k = true then 1 else 2 := by
  obtain ⟨log, h1, _, h3⟩ := visitLengths_checks flags isFormulaSat (graph0 :: rest)
    (lengthsInOrder flags (minVertices (orderG graph0) rest)) []
    (nodup_lengthsInOrder flags _)
    (fun k hk => hbuild k ((mem_lengthsInOrder flags _ k).mp hk))
  rw [List.nil_append] at h1
  refine ⟨log, by rw [findPath_eq_visit, h1], fun k hk => ?_⟩
  rw [h3 k, if_pos hk]

/-- The number of calls of `isFormulaSat` in the search with the options `-s -a` on
A -> B -> C. -/
theorem findPath_checks_graphABC :
    ∃ log, findPath flagsAll (modelSolver (pathModel 0 2 [0, 1, 2])) [graphABC] = .ok log ∧
      ∀ k ∈ tried log, log.count (.check k) =
        if verdictTrue (modelSolver (pathModel 0 2 [0, 1, 2])) [graphABC] k = true then 1
        else 2 :=
  findPath_checks flagsAll (modelSolver (pathModel 0 2 [0, 1, 2])) graphABC []
    (fun k _ => graphABC_builds k)
/-! ## The capacity of the queue -/

theorem pruneLoop_overflow (graph : Graph) (k : Nat) (fuel : Nat) (cands : Nat → List Nat)
    (queue : List fileElement_t) (inv : PruneInv graph cands queue)
    (hord : orderG graph ≤ MAX_ORDER_G)
    (h : queueOverflows graph k fuel cands queue = true) :
    pruneLoop graph k fuel (encodeTable k cands) ⟨queue⟩ = .error .exitFailure := by
  induction fuel generalizing cands queue with
  | zero => simp [queueOverflows] at h
  | succ fuel ih =>
    cases queue with
    | nil => simp [queueOverflows] at h
    | cons e rest =>
      have hne : isEmpty ⟨e :: rest⟩ = false := by simp [isEmpty, File_t.currentPos]
      simp only [pruneLoop, hne, top, Bool.false_eq_true, if_false]
      rw [queueOverflows] at h
      by_cases hpos : e.position > k
      · simp [hpos] at h
      · simp only [hpos, if_false] at h ⊢
        have hpk : e.position ≤ k := by omega
        rw [encodeTable_getElem? k cands e.position hpk]
        simp only []
        rw [recordNode_encodeRow e.node (cands e.position) (orderG graph) 0 (Nat.zero_le _)]
        have hlen := length_le_of_bound (orderG graph) (cands e.position) (inv.nodup _)
          (inv.bound _)
        have hnode := inv.qbound e (List.mem_cons_self _ _)
        simp only [List.drop_zero, Nat.zero_add, List.take_of_length_le hlen]
        by_cases hmem : e.node ∈ cands e.position
        · simp only [hmem, if_true, pull] at h ⊢
          rw [encodeTable_set, Function.update_eq_self]
          exact ih cands rest (inv.pop_existing hmem) h
        · have hlt := length_lt_of_not_mem (orderG graph) (cands e.position) e.node
            (inv.nodup _) (inv.bound _) hnode hmem
          have hnle : ¬ orderG graph ≤ (cands e.position).length := by omega
          have hshort : (cands e.position).length < MAX_ORDER_G := by omega
          simp only [hmem, hnle, if_false, hshort, if_true, Bool.false_eq_true] at h ⊢
          rw [pushAll_eq _ _ inv.cap]
          by_cases hcap : (e :: rest).length + (newElements graph e).length ≤ FILE_SIZE
          · simp only [hcap, if_true, pull, List.cons_append] at h ⊢
            rw [encodeTable_set]
            have hcap2 : rest.length + (newElements graph e).length ≤ FILE_SIZE := by
              simp at hcap
              omega
            exact ih _ _ (inv.pop_new hmem hshort hcap2) h
          · rw [if_neg hcap]

theorem prunedTable_overflow (graph : Graph) (k : Nat) (hs : getSouceNode graph < orderG graph)
    (hord : orderG graph ≤ MAX_ORDER_G)
    (h : queueOverflows graph k (pruneFuel graph k) (fun _ => [])
      [⟨getSouceNode graph, 0⟩] = true) :
    prunedTable graph k = .error .exitFailure := by
  unfold prunedTable push
  simp only [File_t.currentPos, List.length_nil, List.nil_append]
  have h0 : (0 : Nat) < FILE_SIZE := by decide
  simp only [h0, if_true]
  rw [encodeTable_empty]
  exact pruneLoop_overflow graph k _ _ _ (PruneInv.initial graph hs) hord h

theorem optimizeAndMakeFormula_full (graph : Graph) (number k : Nat)
    (h : prunedTable graph k = .error .exitFailure) :
    optimizeAndMakeFormula graph number k = .error .exitFailure := by
  simp [optimizeAndMakeFormula, optimizeAndMakeFormulaWith, OPTIMIZE, h]

/-! ## The capacity of the queue up to 23 nodes -/

theorem length_newElements_lt (graph : Graph) (e : fileElement_t)
    (hnode : e.node < orderG graph) : (newElements graph e).length ≤ orderG graph - 1 := by
  unfold newElements
  rw [List.length_map, ← length_filter_ne (orderG graph) e.node hnode, ← List.filter_filter]
  exact List.length_filter_le _ _

theorem QueueCount.start (graph : Graph) :
    QueueCount graph (fun _ => []) [⟨getSouceNode graph, 0⟩] where
  zero := by simp [List.countP_cons]
  succ := by
    intro q
    simp [List.countP_cons]

theorem QueueCount.skip {graph : Graph} {cands : Nat → List Nat} {e : fileElement_t}
    {rest : List fileElement_t} (qc : QueueCount graph cands (e :: rest)) :
    QueueCount graph cands rest where
  zero := by
    have := qc.zero
    rw [List.countP_cons] at this
    omega
  succ := by
    intro q
    have := qc.succ q
    rw [List.countP_cons] at this
    omega

theorem QueueCount.expand {graph : Graph} {cands : Nat → List Nat} {e : fileElement_t}
    {rest : List fileElement_t} (qc : QueueCount graph cands (e :: rest))
    (hnode : e.node < orderG graph) :
    QueueCount graph (Function.update cands e.position (cands e.position ++ [e.node]))
      (rest ++ newElements graph e) where
  zero := by
    have h1 := qc.zero
    rw [List.countP_cons] at h1
    rw [List.countP_append, countP_newElements graph e 0 (by omega)]
    by_cases hp : e.position = 0
    · have hb : (e.position == 0) = true := by simp [hp]
      rw [hb] at h1
      rw [← hp, Function.update_same, List.length_append, List.length_singleton]
      rw [← hp] at h1
      simp only [if_true] at h1
      rw [hp] at h1 ⊢
      omega
    · rw [Function.update_noteq (Ne.symm hp)]
      omega
  succ := by
    intro q
    have h1 := qc.succ q
    rw [List.countP_cons] at h1
    rw [List.countP_append]
    by_cases hq : q = e.position
    · subst hq
      have h2 : (newElements graph e).countP (fun x => x.position == e.position + 1) ≤
          orderG graph - 1 :=
        le_trans (List.countP_le_length _) (length_newElements_lt graph e hnode)
      have hne : e.position + 1 ≠ e.position := by omega
      rw [Function.update_same, Function.update_noteq hne, List.length_append,
        List.length_singleton, Nat.add_mul, Nat.one_mul]
      omega
    · rw [countP_newElements graph e (q + 1) (by omega), Function.update_noteq hq]
      by_cases hq1 : q + 1 = e.position
      · have hb : (e.position == q + 1) = true := by simp [hq1]
        rw [hb] at h1
        simp only [if_true] at h1
        rw [hq1, Function.update_same, List.length_append, List.length_singleton]
        rw [hq1] at h1
        omega
      · rw [Function.update_noteq hq1]
        omega

/-- On a graph of at most 23 nodes the queue, the element being expanded and its
successors included, holds at most `22 * 45 = 990` elements. -/
theorem queue_length_tight {graph : Graph} {cands : Nat → List Nat} {e : fileElement_t}
    {rest : List fileElement_t} (inv : PruneInv graph cands (e :: rest))
    (qc : QueueCount graph cands (e :: rest)) (hmem : e.node ∉ cands e.position)
    (hn : orderG graph ≤ 23) :
    (e :: rest).length + (newElements graph e).length ≤ FILE_SIZE := by
  have hnode := inv.qbound e (List.mem_cons_self _ _)
  have hlenle : ∀ q, (cands q).length ≤ orderG graph := fun q =>
    length_le_of_bound (orderG graph) (cands q) (inv.nodup q) (inv.bound q)
  have hpos : ∀ x ∈ e :: rest, x.position = e.position ∨ x.position = e.position + 1 := by
    intro x hx
    have h1 := inv.near e (by simp) x hx
    rcases List.mem_cons.mp hx with rfl | hx
    · exact Or.inl rfl
    · have h2 := (List.pairwise_cons.mp inv.sorted).1 x hx
      omega
  rw [length_eq_countP_two (e :: rest) e.position hpos]
  have hnew := length_newElements_lt graph e hnode
  have hlt := length_lt_of_not_mem (orderG graph) (cands e.position) e.node
    (inv.nodup _) (inv.bound _) hnode hmem
  have hsecond := qc.succ e.position
  have hc : (cands e.position).length * (orderG graph - 1) ≤ (cands e.position).length * 22 :=
    Nat.mul_le_mul_left _ (by omega)
  simp only [FILE_SIZE]
  cases hp : e.position with
  | zero =>
    have h0 := qc.zero
    rw [hp] at hsecond hc hlt
    have hz : (cands 0).length = 0 := by
      have : 1 ≤ (e :: rest).countP (fun x => x.position == 0) := by
        rw [List.countP_cons]
        simp [hp]
      omega
    rw [hz] at hsecond
    simp only [Nat.zero_mul, Nat.zero_add] at hsecond ⊢
    omega
  | succ q =>
    have hfirst := qc.succ q
    rw [hp] at hsecond hc hlt
    have hq : (cands q).length * (orderG graph - 1) ≤ 23 * 22 :=
      Nat.mul_le_mul (le_trans (hlenle q) hn) (by omega)
    omega

/-- On a graph with a flagged source and at most 23 nodes the loop of the pruner
returns a table: the queue never overflows, no row is read past its end, and the
fuel is not exhausted. -/
theorem pruneLoop_ok_tight (graph : Graph) (k : Nat) (fuel : Nat) (cands : Nat → List Nat)
    (queue : List fileElement_t) (inv : PruneInv graph cands queue)
    (qc : QueueCount graph cands queue)
    (hn : orderG graph ≤ 23)
    (hfuel : queue.length + orderG graph * freeSlots graph k cands < fuel) :
    ∃ table, pruneLoop graph k fuel (encodeTable k cands) ⟨queue⟩ = .ok table := by
  induction fuel generalizing cands queue with
  | zero => omega
  | succ fuel ih =>
    cases queue with
    | nil =>
      exact ⟨encodeTable k cands, by simp [pruneLoop, isEmpty, File_t.currentPos]⟩
    | cons e rest =>
      have hne : isEmpty ⟨e :: rest⟩ = false := by simp [isEmpty, File_t.currentPos]
      simp only [pruneLoop, hne, top, Bool.false_eq_true, if_false]
      by_cases hpos : e.position > k
      · simp only [hpos, if_true]
        exact ⟨_, rfl⟩
      · simp only [hpos, if_false]
        have hpk : e.position ≤ k := by omega
        rw [encodeTable_getElem? k cands e.position hpk]
        simp only []
        rw [recordNode_encodeRow e.node (cands e.position) (orderG graph) 0 (Nat.zero_le _)]
        have hlen := length_le_of_bound (orderG graph) (cands e.position) (inv.nodup _)
          (inv.bound _)
        have hnode := inv.qbound e (List.mem_cons_self _ _)
        simp only [List.drop_zero, Nat.zero_add, List.take_of_length_le hlen]
        by_cases hmem : e.node ∈ cands e.position
        · simp only [hmem, if_true, pull]
          rw [encodeTable_set, Function.update_eq_self]
          have hlen2 : (e :: rest).length = rest.length + 1 := by simp
          exact ih cands rest (inv.pop_existing hmem) qc.skip (by omega)
        · have hlt := length_lt_of_not_mem (orderG graph) (cands e.position) e.node
            (inv.nodup _) (inv.bound _) hnode hmem
          have hnle : ¬ orderG graph ≤ (cands e.position).length := by omega
          have hshort : (cands e.position).length < MAX_ORDER_G := by
            simp only [MAX_ORDER_G]
            omega
          simp only [hmem, hnle, if_false, hshort, if_true, Bool.false_eq_true]
          rw [pushAll_eq _ _ inv.cap]
          have hcap1 : (e :: rest).length + (newElements graph e).length ≤ FILE_SIZE :=
            queue_length_tight inv qc hmem hn
          simp only [hcap1, if_true, pull, List.cons_append]
          rw [encodeTable_set]
          have hcap2 : rest.length + (newElements graph e).length ≤ FILE_SIZE := by
            simp at hcap1
            omega
          apply ih _ _ (inv.pop_new hmem hshort hcap2) (qc.expand hnode)
          have h1 := freeSlots_update_lt graph k cands e.position e.node hpk hnode hmem
          have h2 := length_newElements_le graph e
          have h3 : orderG graph *
              freeSlots graph k (Function.update cands e.position
                (cands e.position ++ [e.node])) + orderG graph ≤
              orderG graph * freeSlots graph k cands := by
            calc _ = orderG graph * (freeSlots graph k (Function.update cands e.position
                (cands e.position ++ [e.node])) + 1) := by ring
              _ ≤ _ := Nat.mul_le_mul_left _ h1
          simp only [List.length_cons, List.length_append] at hfuel ⊢
          omega

theorem prunedTable_ok_tight (graph : Graph) (k : Nat) (hs : getSouceNode graph < orderG graph)
    (hn : orderG graph ≤ 23) :
    ∃ table, prunedTable graph k = .ok table := by
  unfold prunedTable push
  simp only [File_t.currentPos, List.length_nil, List.nil_append]
  have h0 : (0 : Nat) < FILE_SIZE := by decide
  simp only [h0, if_true]
  rw [encodeTable_empty]
  apply pruneLoop_ok_tight graph k _ _ _ (PruneInv.initial graph hs) (QueueCount.start graph) hn
  have := freeSlots_le graph k (fun _ => [])
  have h2 : orderG graph * freeSlots graph k (fun _ => []) ≤
      (k + 1) * orderG graph * orderG graph := by
    calc _ ≤ orderG graph * ((k + 1) * orderG graph) := Nat.mul_le_mul_left _ this
      _ = _ := by ring
  simp only [pruneFuel, List.length_singleton]
  omega

/-- On a graph with a flagged source and target and at most 23 nodes,
`optimizeAndMakeFormula` returns a formula for every length: no capacity is
exceeded and the fuel of the model is enough. -/
theorem optimizeAndMakeFormula_returns_tight (graph : Graph) (number k : Nat)
    (hs : getSouceNode graph < orderG graph) (ht : getTargetNode graph < orderG graph)
    (hn : orderG graph ≤ 23) :
    ∃ f, optimizeAndMakeFormula graph number k = .ok f := by
  obtain ⟨table, htab⟩ := prunedTable_ok_tight graph k hs hn
  obtain ⟨cands, rfl, good, _⟩ := (prunedTable_spec graph k hs).2 table htab
  have hshort : ∀ p, p ≤ k → (cands p).length < MAX_ORDER_G := by
    intro p _
    have := length_le_of_bound (orderG graph) (cands p) (good.nodup p) (good.bound p)
    simp only [MAX_ORDER_G]
    omega
  obtain ⟨f, hf, _⟩ := makeFormulaFromTable_spec graph number k cands ht hshort good.nodup
  exact ⟨f, by simp [optimizeAndMakeFormula, optimizeAndMakeFormulaWith, OPTIMIZE, htab, hf]⟩

set_option maxRecDepth 100000 in
theorem queueOverflows_graphK24 :
    queueOverflows (graphK 24) 2 (pruneFuel (graphK 24) 2) (fun _ => [])
      [⟨getSouceNode (graphK 24), 0⟩] = true := by
  decide

/-- C20 (counterexample): on the complete graph on 24 nodes (source 0), an order
within `MAX_ORDER_G`, at length 2, the 23 neighbours of the source queue 23 elements
of position 2 each, and the nodes recorded at position 2 queue 23 elements of
position 3 each: the queue reaches `FILE_SIZE` elements and `push` takes its branch
"full file", so `optimizeAndMakeFormula` exits. -/
theorem prunedTable_graphK_full :
    orderG (graphK 24) ≤ MAX_ORDER_G ∧ 2 ≤ orderG (graphK 24) - 1 ∧
      prunedTable (graphK 24) 2 = .error .exitFailure ∧
      optimizeAndMakeFormula (graphK 24) 0 2 = .error .exitFailure := by
  have h : prunedTable (graphK 24) 2 = .error .exitFailure :=
    prunedTable_overflow (graphK 24) 2 (by decide) (by decide) queueOverflows_graphK24
  exact ⟨by decide, by decide, h, optimizeAndMakeFormula_full (graphK 24) 0 2 h⟩

/-- C20 (amended): for every graph with a flagged source and target and at most 23
nodes and every length `k`, the queue of the pruner never holds more than
`FILE_SIZE` elements: `push` never takes its branch "full file", the pruner hands
over its table and `optimizeAndMakeFormula` returns a formula. -/
theorem push_never_full (graph : Graph) (number k : Nat)
    (hs : getSouceNode graph < orderG graph) (ht : getTargetNode graph < orderG graph)
    (hn : orderG graph ≤ 23) :
    (∃ table, prunedTable graph k = .ok table) ∧
      ∃ f, optimizeAndMakeFormula graph number k = .ok f :=
  ⟨prunedTable_ok_tight graph k hs hn,
    optimizeAndMakeFormula_returns_tight graph number k hs ht hn⟩

/-- The pruner on the complete graph on 23 nodes at length 22 stays within the
capacity of its queue. -/
theorem push_never_full_graphK23 :
    (∃ table, prunedTable (graphK 23) 22 = .ok table) ∧
      ∃ f, optimizeAndMakeFormula (graphK 23) 0 22 = .ok f :=
  push_never_full (graphK 23) 0 22 (by decide) (by decide) (by decide)

/-! ## The clause buffer of makePathFormula -/

theorem writeAll_eq {α : Type} (declared : Nat) (written values : List α)
    (h : written.length ≤ declared) :
    writeAll declared written values =
      if written.length + values.length ≤ declared then .ok (written ++ values)
      else .error .outOfBounds := by
  induction values generalizing written with
  | nil => simp [writeAll, h]
  | cons value rest ih =>
    unfold writeAll writeNext
    by_cases hlt : written.length < declared
    · simp only [hlt, if_true]
      rw [ih _ (by simp; omega)]
      have : (written ++ [value]).length + rest.length =
          written.length + (value :: rest).length := by
        simp
        omega
      rw [this]
      simp
    · have : ¬ written.length + (rest.length + 1) ≤ declared := by omega
      simp [hlt, this]

/-- C21 (code): for every graph, table, position and candidate, the clause
`makePathFormula` hands to `Z3_mk_or` is `NOT var(g,p,k,n)` followed by
`var(g,p+1,k,m)` for each successor `m` of the candidate `n`, in a buffer of
`1 + numberNeighbours` entries; with the declared length of line 470,
`Z3_ast tabOr[numberNeighbours]`, the writes do not stay in the array: the last of
them is at the index `numberNeighbours`, which is the declared length. -/
theorem tabOrWrites_out_of_bounds (graph : Graph) (number pathLength : Nat)
    (nodeTab : List (List Int)) (pos i : Nat) :
    pathClause graph number pathLength nodeTab pos i =
        .ok (.or (Z3_mk_not (getNodeVariable number pos pathLength (nodeTabAt nodeTab pos i)) ::
          ((List.range (orderG graph)).filter
            (fun (node : Nat) => isEdge graph (nodeTabAt nodeTab pos i).toNat node)).map
            (fun (neighbour : Nat) =>
              getNodeVariable number ((pos : Int) + 1) pathLength neighbour))) ∧
      writeAll (((List.range (orderG graph)).filter
            (fun (node : Nat) => isEdge graph (nodeTabAt nodeTab pos i).toNat node)).length + 1)
          []
          (Z3_mk_not (getNodeVariable number pos pathLength (nodeTabAt nodeTab pos i)) ::
            ((List.range (orderG graph)).filter
              (fun (node : Nat) => isEdge graph (nodeTabAt nodeTab pos i).toNat node)).map
              (fun (neighbour : Nat) =>
                getNodeVariable number ((pos : Int) + 1) pathLength neighbour)) =
        .ok (Z3_mk_not (getNodeVariable number pos pathLength (nodeTabAt nodeTab pos i)) ::
          ((List.range (orderG graph)).filter
            (fun (node : Nat) => isEdge graph (nodeTabAt nodeTab pos i).toNat node)).map
            (fun (neighbour : Nat) =>
              getNodeVariable number ((pos : Int) + 1) pathLength neighbour)) ∧
      tabOrWrites graph number pathLength nodeTab pos i = .error .outOfBounds := by
  refine ⟨?_, ?_, ?_⟩
  · unfold pathClause
    simp only []
    rw [Z3_mk_or_length _ _ (by simp)]
    rfl
  · rw [writeAll_eq _ _ _ (by simp)]
    simp
  · unfold tabOrWrites writeNext
    simp only [List.length_nil]
    by_cases h0 : 0 < ((List.range (orderG graph)).filter
        (fun (node : Nat) => isEdge graph (nodeTabAt nodeTab pos i).toNat node)).length
    · simp only [h0, if_true, List.nil_append]
      rw [writeAll_eq _ _ _ (by simpa using h0)]
      simp
    · simp only [h0, if_false]

/-! ## The buffer of a variable name -/

theorem length_decimalDigits_small (fuel n : Nat) (hn : n < 10) :
    (decimalDigits (fuel + 1) n []).length = 1 := by
  simp [decimalDigits, hn]

theorem length_decimalDigits_two (fuel n : Nat) (h1 : 10 ≤ n) (h2 : n < 100) :
    (decimalDigits (fuel + 2) n []).length = 2 := by
  have h3 : ¬ n < 10 := by omega
  have h4 : n / 10 < 10 := by omega
  rw [decimalDigits, if_neg h3, decimalDigits, if_pos h4]
  rfl

theorem length_decimalDigits_pos (fuel n : Nat) :
    1 ≤ (decimalDigits (fuel + 1) n []).length := by
  rw [decimalDigits]
  split
  · simp
  · rw [decimalDigits_append]
    simp

theorem length_decimalDigits_large (fuel n : Nat) (h1 : 10 ≤ n) :
    2 ≤ (decimalDigits (fuel + 2) n []).length := by
  have h3 : ¬ n < 10 := by omega
  rw [decimalDigits, if_neg h3, decimalDigits_append]
  have := length_decimalDigits_pos fuel (n / 10)
  simp
  omega

theorem bytesWritten_eq (number position k node : Nat) :
    bytesWritten number position k node =
      (fmt_d (number : Int)).length + (fmt_d (position : Int)).length +
        (fmt_d (k : Int)).length + (fmt_d (node : Int)).length + 5 := by
  simp only [bytesWritten, sprintfVarName, String.length, List.length_cons, List.length_append]
  omega

/-- The names of the lengths up to 9 fit in the buffer, for the graphs of index up
to 9 and the nodes up to 99. -/
theorem bytesWritten_fits (number position k node : Nat) (hg : number ≤ 9)
    (hp : position ≤ 9) (hk : k ≤ 9) (hn : node ≤ 99) :
    bytesWritten number position k node ≤ NODE_VARIABLE_SIZE := by
  rw [bytesWritten_eq, fmt_d_natCast, fmt_d_natCast, fmt_d_natCast, fmt_d_natCast,
    length_decimalDigits_small _ _ (by omega), length_decimalDigits_small _ _ (by omega),
    length_decimalDigits_small _ _ (by omega)]
  have hnode : (decimalDigits (node + 1) node []).length ≤ 2 := by
    by_cases h : node < 10
    · rw [length_decimalDigits_small _ _ h]
      omega
    · obtain ⟨m, rfl⟩ : ∃ m, node = m + 1 := ⟨node - 1, by omega⟩
      rw [length_decimalDigits_two m (m + 1) (by omega) (by omega)]
  simp only [NODE_VARIABLE_SIZE]
  omega

/-- C22 (code): for every graph index, every node and every length `k` from 10 on,
the name of the variable of position `k` and length `k` (the one line 380 requests
for the target) takes, with its terminating byte, more than `NODE_VARIABLE_SIZE`
bytes: `sprintf` writes past the end of `varName`. -/
theorem bytesWritten_exceeds (number k node : Nat) (hk : 10 ≤ k) :
    NODE_VARIABLE_SIZE < bytesWritten number k k node := by
  rw [bytesWritten_eq, fmt_d_natCast, fmt_d_natCast, fmt_d_natCast]
  obtain ⟨m, rfl⟩ : ∃ m, k = m + 1 := ⟨k - 1, by omega⟩
  have h1 : 2 ≤ (decimalDigits (m + 1 + 1) (m + 1) []).length :=
    length_decimalDigits_large m (m + 1) hk
  have h2 := length_decimalDigits_pos number number
  have h3 := length_decimalDigits_pos node node
  simp only [NODE_VARIABLE_SIZE]
  omega

/-- The name `X0,10,10,2` of node 2 at position 10 of a path of length 10:
10 characters and the terminating byte. -/
theorem bytesWritten_exceeds_ten :
    NODE_VARIABLE_SIZE < bytesWritten 0 10 10 2 :=
  bytesWritten_exceeds 0 10 2 (by decide)
/-! ## Termination of the pruning loop -/

theorem pruneLoopLog_fst (graph : Graph) (k : Nat) (fuel : Nat) (possibilities : List (List Int))
    (file : File_t) :
    (pruneLoopLog graph k fuel possibilities file).1 = pruneLoop graph k fuel possibilities file := by
  induction fuel generalizing possibilities file with
  | zero => rfl
  | succ fuel ih =>
    rw [pruneLoopLog, pruneLoop]
    by_cases hemp : isEmpty file = true
    · simp only [hemp, if_true]
    · simp only [hemp, Bool.false_eq_true, if_false]
      cases top file with
      | error e => rfl
      | ok element =>
        simp only []
        by_cases hpos : element.position > k
        · simp only [hpos, if_true]
        · simp only [hpos, if_false]
          cases possibilities[element.position]? with
          | none => rfl
          | some row =>
            simp only []
            cases recordNode element.node (orderG graph) 0 row with
            | error e => rfl
            | ok p =>
              obtain ⟨row1, exist⟩ := p
              simp only []
              cases (if exist = true then Except.ok file
                else pushAll file (newElements graph element)) with
              | error e => rfl
              | ok file1 =>
                simp only []
                cases pull file1 with
                | error e => rfl
                | ok file2 => exact ih _ _

theorem prunedTableLog_fst (graph : Graph) (k : Nat) :
    (prunedTableLog graph k).1 = prunedTable graph k := by
  unfold prunedTableLog prunedTable
  cases push ⟨[]⟩ ⟨getSouceNode graph, 0⟩ with
  | error e => rfl
  | ok file => exact pruneLoopLog_fst _ _ _ _ _

theorem length_pruneLoopLog (graph : Graph) (k : Nat) (fuel : Nat)
    (possibilities : List (List Int)) (file : File_t) :
    (pruneLoopLog graph k fuel possibilities file).2.length ≤ fuel := by
  induction fuel generalizing possibilities file with
  | zero => simp [pruneLoopLog]
  | succ fuel ih =>
    rw [pruneLoopLog]
    by_cases hemp : isEmpty file = true
    · simp only [hemp, if_true]
      simp
    · simp only [hemp, Bool.false_eq_true, if_false]
      cases top file with
      | error e => simp
      | ok element =>
        simp only []
        by_cases hpos : element.position > k
        · simp only [hpos, if_true]
          simp
        · simp only [hpos, if_false]
          cases possibilities[element.position]? with
          | none => simp
          | some row =>
            simp only []
            cases recordNode element.node (orderG graph) 0 row with
            | error e => simp
            | ok p =>
              obtain ⟨row1, exist⟩ := p
              simp only []
              cases (if exist = true then Except.ok file
                else pushAll file (newElements graph element)) with
              | error e => simp
              | ok file1 =>
                simp only []
                cases pull file1 with
                | error e => simp
                | ok file2 =>
                  simp only [List.length_cons]
                  exact Nat.succ_le_succ (ih _ _)

theorem expanded_cons_false (e : fileElement_t) (log : List (fileElement_t × Bool)) :
    expanded ((e, false) :: log) = expanded log := by
  simp [expanded]

theorem expanded_cons_true (e : fileElement_t) (log : List (fileElement_t × Bool)) :
    expanded ((e, true) :: log) = e :: expanded log := by
  simp [expanded]

theorem pruneLoopLog_spec (graph : Graph) (k : Nat) (fuel : Nat) (cands : Nat → List Nat)
    (queue : List fileElement_t) (inv : PruneInv graph cands queue)
    (hq : ∀ x ∈ queue, x.position ≤ k + 1)
    (r : Except Fault (List (List Int)) × List (fileElement_t × Bool))
    (hr : pruneLoopLog graph k fuel (encodeTable k cands) ⟨queue⟩ = r) :
    (∀ x ∈ r.2, x.1.position ≤ k + 1) ∧
      (∀ x ∈ expanded r.2, x.position ≤ k ∧ x.node ∉ cands x.position) ∧
      (expanded r.2).Nodup ∧
      (orderG graph ≤ MAX_ORDER_G → r.1 ≠ .error .outOfBounds) := by
  induction fuel generalizing cands queue r with
  | zero =>
    subst hr
    simp [pruneLoopLog, expanded]
  | succ fuel ih =>
    cases queue with
    | nil =>
      subst hr
      simp [pruneLoopLog, isEmpty, File_t.currentPos, expanded]
    | cons e rest =>
      have hne : isEmpty ⟨e :: rest⟩ = false := by simp [isEmpty, File_t.currentPos]
      have he := hq e (List.mem_cons_self _ _)
      simp only [pruneLoopLog, hne, top, Bool.false_eq_true, if_false] at hr
      by_cases hpos : e.position > k
      · simp only [hpos, if_true] at hr
        subst hr
        simp [expanded, he]
      · simp only [hpos, if_false] at hr
        have hpk : e.position ≤ k := by omega
        rw [encodeTable_getElem? k cands e.position hpk] at hr
        simp only [] at hr
        rw [recordNode_encodeRow e.node (cands e.position) (orderG graph) 0 (Nat.zero_le _)] at hr
        have hlen := length_le_of_bound (orderG graph) (cands e.position) (inv.nodup _)
          (inv.bound _)
        have hnode := inv.qbound e (List.mem_cons_self _ _)
        simp only [List.drop_zero, Nat.zero_add, List.take_of_length_le hlen] at hr
        by_cases hmem : e.node ∈ cands e.position
        · simp only [hmem, if_true, pull, Bool.not_true] at hr
          rw [encodeTable_set, Function.update_eq_self] at hr
          obtain ⟨h1, h2, h3, h4⟩ := ih cands rest (inv.pop_existing hmem)
            (fun x hx => hq x (List.mem_cons_of_mem _ hx)) _ rfl
          subst hr
          simp only [expanded_cons_false]
          refine ⟨?_, h2, h3, h4⟩
          intro x hx
          rcases List.mem_cons.mp hx with rfl | hx
          · exact he
          · exact h1 x hx
        · have hlt := length_lt_of_not_mem (orderG graph) (cands e.position) e.node
            (inv.nodup _) (inv.bound _) hnode hmem
          have hnle : ¬ orderG graph ≤ (cands e.position).length := by omega
          simp only [hmem, hnle, if_false] at hr
          by_cases hshort : (cands e.position).length < MAX_ORDER_G
          · simp only [hshort, if_true, Bool.false_eq_true, if_false, Bool.not_false] at hr
            rw [pushAll_eq _ _ inv.cap] at hr
            by_cases hcap : (e :: rest).length + (newElements graph e).length ≤ FILE_SIZE
            · simp only [hcap, if_true, pull, List.cons_append] at hr
              rw [encodeTable_set] at hr
              have hcap2 : rest.length + (newElements graph e).length ≤ FILE_SIZE := by
                simp at hcap
                omega
              obtain ⟨h1, h2, h3, h4⟩ := ih _ _ (inv.pop_new hmem hshort hcap2)
                (by
                  intro x hx
                  rcases List.mem_append.mp hx with hx | hx
                  · exact hq x (List.mem_cons_of_mem _ hx)
                  · simp only [newElements, List.mem_map] at hx
                    obtain ⟨m, _, rfl⟩ := hx
                    simp only []
                    omega) _ rfl
              subst hr
              simp only [expanded_cons_true]
              refine ⟨?_, ?_, ?_, h4⟩
              · intro x hx
                rcases List.mem_cons.mp hx with rfl | hx
                · exact he
                · exact h1 x hx
              · intro x hx
                rcases List.mem_cons.mp hx with rfl | hx
                · exact ⟨hpk, hmem⟩
                · obtain ⟨hx1, hx2⟩ := h2 x hx
                  refine ⟨hx1, fun hin => hx2 ?_⟩
                  by_cases hp : x.position = e.position
                  · rw [hp, Function.update_same]
                    rw [hp] at hin
                    exact List.mem_append_left _ hin
                  · rw [Function.update_noteq hp]
                    exact hin
              · rw [List.nodup_cons]
                refine ⟨fun hin => ?_, h3⟩
                have := (h2 e hin).2
                rw [Function.update_same] at this
                exact this (by simp)
            · rw [if_neg hcap] at hr
              simp only [] at hr
              subst hr
              simp [expanded, he, hpk, hmem]
          · simp only [hshort, if_false] at hr
            subst hr
            refine ⟨by simp [he], by simp [expanded], by simp [expanded], ?_⟩
            intro hord
            omega

theorem prunedTableLog_eq (graph : Graph) (k : Nat) :
    prunedTableLog graph k =
      pruneLoopLog graph k (pruneFuel graph k) (encodeTable k (fun _ => []))
        ⟨[⟨getSouceNode graph, 0⟩]⟩ := by
  unfold prunedTableLog push
  simp only [File_t.currentPos, List.length_nil, List.nil_append]
  have h0 : (0 : Nat) < FILE_SIZE := by decide
  simp only [h0, if_true]
  rw [encodeTable_empty]

/-- C23: for every graph with a flagged source, cycles or not, and every length
`k`, the pruning loop ends within `(k + 1) * order * order + 2` iterations: it
returns its table (the queue is empty or the element at its top has a position
above `k`) or, for an order within `MAX_ORDER_G`, leaves by the exit "full file"
of `push`; every element read at the top of the queue has a position of at most
`k + 1`, and an element is expanded at most once: a node at most once per position,
at positions up to `k`. -/
theorem prunedTableLog_terminates (graph : Graph) (k : Nat)
    (hs : getSouceNode graph < orderG graph) :
    (prunedTableLog graph k).1 = prunedTable graph k ∧
      (prunedTableLog graph k).1 ≠ .error .outOfFuel ∧
      (orderG graph ≤ MAX_ORDER_G →
        (∃ table, (prunedTableLog graph k).1 = .ok table) ∨
          (prunedTableLog graph k).1 = .error .exitFailure) ∧
      (prunedTableLog graph k).2.length ≤ pruneFuel graph k ∧
      (∀ x ∈ (prunedTableLog graph k).2, x.1.position ≤ k + 1) ∧
      (∀ x ∈ expanded (prunedTableLog graph k).2, x.position ≤ k) ∧
      (expanded (prunedTableLog graph k).2).Nodup := by
  have hfst := prunedTableLog_fst graph k
  have hfuel : (prunedTableLog graph k).1 ≠ .error .outOfFuel := by
    rw [hfst]
    exact (prunedTable_spec graph k hs).1
  obtain ⟨h1, h2, h3, h4⟩ := pruneLoopLog_spec graph k (pruneFuel graph k) (fun _ => [])
    [⟨getSouceNode graph, 0⟩] (PruneInv.initial graph hs)
    (by
      intro x hx
      rw [List.mem_singleton.mp hx]
      exact Nat.zero_le _)
    (prunedTableLog graph k) (prunedTableLog_eq graph k).symm
  refine ⟨hfst, hfuel, ?_, ?_, h1, fun x hx => (h2 x hx).1, h3⟩
  · intro hord
    have hb := h4 hord
    cases hres : (prunedTableLog graph k).1 with
    | ok table => exact Or.inl ⟨table, rfl⟩
    | error e =>
      cases e with
      | exitFailure => exact Or.inr rfl
      | outOfBounds => exact absurd hres hb
      | outOfFuel => exact absurd hres hfuel
  · rw [prunedTableLog_eq]
    exact length_pruneLoopLog _ _ _ _ _

/-- The pruning loop on the complete graph on 3 nodes, which has cycles, at
length 2. -/
theorem prunedTableLog_terminates_graphK :
    (prunedTableLog (graphK 3) 2).1 = prunedTable (graphK 3) 2 ∧
      (prunedTableLog (graphK 3) 2).1 ≠ .error .outOfFuel ∧
      (orderG (graphK 3) ≤ MAX_ORDER_G →
        (∃ table, (prunedTableLog (graphK 3) 2).1 = .ok table) ∨
          (prunedTableLog (graphK 3) 2).1 = .error .exitFailure) ∧
      (prunedTableLog (graphK 3) 2).2.length ≤ pruneFuel (graphK 3) 2 ∧
      (∀ x ∈ (prunedTableLog (graphK 3) 2).2, x.1.position ≤ 2 + 1) ∧
      (∀ x ∈ expanded (prunedTableLog (graphK 3) 2).2, x.position ≤ 2) ∧
      (expanded (prunedTableLog (graphK 3) 2).2).Nodup :=
  prunedTableLog_terminates (graphK 3) 2 (by decide)

/-! ## The pruned and the unpruned formula -/

/-- The pruned and the unpruned formula of a graph with a flagged source and target
are satisfiable together. -/
theorem pruned_unpruned_equisatisfiable (graph : Graph) (number k : Nat) (f1 f2 : Z3_ast)
    (hs : getSouceNode graph < orderG graph) (ht : getTargetNode graph < orderG graph)
    (h1 : optimizeAndMakeFormulaWith true graph number k = .ok f1)
    (h2 : optimizeAndMakeFormulaWith false graph number k = .ok f2) :
    (Satisfiable f1 ↔ Satisfiable f2) ∧ (Satisfiable f2 ↔ HasSimplePath graph k) := by
  have h1a : optimizeAndMakeFormula graph number k = .ok f1 := h1
  obtain ⟨cands, _, good1, _, hf1⟩ := optimizeAndMakeFormula_table graph number k f1 hs h1a
  obtain ⟨good2, hf2⟩ := unpruned_table graph number k f2 hs h2
  refine ⟨?_, satisfiable_iff_of_goodTable graph number k _ f2 ht good2 hf2⟩
  rw [satisfiable_iff_of_goodTable graph number k cands f1 ht good1 hf1,
    satisfiable_iff_of_goodTable graph number k _ f2 ht good2 hf2]

/-- C7 (code): on the graph 0 -> 1, 1 -> 4, 0 -> 2, 2 -> 3 (source 0, target 4) at
length 2 both branches return a formula; the pruned formula is true under a model
that also makes node 3 true at position 1, from which the decoders read the
source-to-target sequence 0, 3, 4, although 0 -> 3 is no edge; no model of the
unpruned formula decodes to that sequence. -/
theorem pruned_unpruned_differ :
    optimizeAndMakeFormulaWith true graphBranches 0 2 =
        .ok (formulaOf (optimizeAndMakeFormulaWith true graphBranches 0 2)) ∧
      optimizeAndMakeFormulaWith false graphBranches 0 2 =
        .ok (formulaOf (optimizeAndMakeFormulaWith false graphBranches 0 2)) ∧
      (formulaOf (optimizeAndMakeFormulaWith true graphBranches 0 2)).eval crossModel = true ∧
      decodedPath crossModel graphBranches 0 2 = [some 0, some 3, some 4] ∧
      isEdge graphBranches 0 3 = false ∧
      ∀ v : Z3_model,
        (formulaOf (optimizeAndMakeFormulaWith false graphBranches 0 2)).eval v = true →
          decodedPath v graphBranches 0 2 ≠ [some 0, some 3, some 4] := by
  have h2 : optimizeAndMakeFormulaWith false graphBranches 0 2 =
      .ok (formulaOf (optimizeAndMakeFormulaWith false graphBranches 0 2)) := by rfl
  refine ⟨by rfl, h2, by rfl, by rfl, by rfl, ?_⟩
  intro v hv hdec
  obtain ⟨path, hpath, hmap⟩ := unpruned_model_decodes graphBranches 0 2 _ v (by decide)
    (by decide) h2 hv
  rw [hdec] at hmap
  match path, hmap with
  | [a, b, c], hmap =>
    simp only [List.map_cons, List.map_nil, List.cons.injEq, Option.some.injEq] at hmap
    obtain ⟨ha, hb, _⟩ := hmap
    subst ha hb
    obtain ⟨_, _, _, _, _, hchain⟩ := hpath
    simp [isEdge, graphBranches] at hchain

/-! ## The bound of the search by length -/

end Coca
